import Mathlib

/-!
# Online stroke simplification (`input_smoothing.cpp`)

A shallow embedding of the streaming classifier and corridor simplifier of
`InputSmoothing`, followed by theorems about it.

* `double` arithmetic is kept abstract (`DoubleOps`): every theorem about the
  control flow holds for any interpretation of `+ - * / sqrt > isnan`.
  `XNum` is an exact interpretation (rationals with infinities and NaN) used to
  evaluate the code on inputs whose intermediate values are small integers.
* `size_t` values are natural numbers; subtraction and addition wrap modulo
  `2 ^ 64` (`szSub`, `szAdd`).
* `std::vector::at` throws `std::out_of_range` and `assert` aborts: both are the
  result `none`.
* The lines written to standard output by `process_next_point` (the
  `index: CLASS` line and the `emit:` lines) are recorded in the field `out`.
* The calls of `process_next_point` made by a run (state on entry, index, class, branch)
  are collected by instrumented copies of the loops (`diff_loopT`, `end_loopT`, `run`),
  which are proved to end in the same state as the methods themselves.
* Statements about the value of the curvature are made for exact arithmetic
  (`ExactArith`), of which the rationals are an instance.
-/

namespace OnlineSimplify

/-! ## Machine integers -/

/-- Number of values of `size_t`. -/
def SIZE_MOD : Nat := 18446744073709551616

/-- Subtraction of `size_t` values (wraps around). -/
def szSub (a b : Nat) : Nat := (a + SIZE_MOD - b % SIZE_MOD) % SIZE_MOD

/-- Addition of `size_t` values (wraps around). -/
def szAdd (a b : Nat) : Nat := (a + b) % SIZE_MOD

/-! ## Floating point operations -/

/-- The operations on `double` that the program uses. `ofInt` is the conversion of
an integer (or of an integral literal such as `2.0`) to `double`. -/
class DoubleOps (F : Type) where
  add : F → F → F
  sub : F → F → F
  mul : F → F → F
  div : F → F → F
  sqrt : F → F
  gt : F → F → Bool
  isnan : F → Bool
  ofInt : Int → F

open DoubleOps

/-! ## Types of `input_smoothing_types.h` -/

/-- The type `struct Point2`. -/
structure Point2 (F : Type) where
  x : F
  y : F
deriving DecidableEq

/-- The type `struct vec2d`: the two components `v[0]`, `v[1]`. -/
structure vec2d (F : Type) where
  v0 : F
  v1 : F
deriving DecidableEq

/-- The type `struct Sample`. -/
structure Sample (F : Type) where
  point : Point2 F
  timestamp : Nat
deriving DecidableEq

/-- The type `struct Trace`. -/
structure Trace (F : Type) where
  samples : List (Sample F)
deriving DecidableEq

/-- The type `enum class TracePointClass`. -/
inductive TracePointClass where
  | Normal
  | Inflection
  | SharpEdge
deriving DecidableEq

section Geometry

variable {F : Type} [DoubleOps F]

/-- Constructor `vec2d(Point2 a, Point2 b)`: the vector from `a` to `b`. -/
def vec2d.ofPoints (a b : Point2 F) : vec2d F := ⟨sub b.x a.x, sub b.y a.y⟩

/-- Operator `vec2d::operator-(vec2d)`. -/
def vec2d.minus (a o : vec2d F) : vec2d F := ⟨sub a.v0 o.v0, sub a.v1 o.v1⟩

/-- Operator `vec2d::operator*(double)`. -/
def vec2d.scale (a : vec2d F) (s : F) : vec2d F := ⟨mul a.v0 s, mul a.v1 s⟩

/-- Operator `vec2d::operator/(double)`. -/
def vec2d.divide (a : vec2d F) (s : F) : vec2d F := ⟨div a.v0 s, div a.v1 s⟩

/-- Operator `vec2d::operator*(vec2d)`: the dot product. -/
def vec2d.dot (a other : vec2d F) : F := add (mul a.v0 other.v0) (mul a.v1 other.v1)

/-- Function `len(vec2d)`. -/
def len (v : vec2d F) : F := sqrt (add (mul v.v0 v.v0) (mul v.v1 v.v1))

/-- Function `sqr`. -/
def sqr (x : F) : F := mul x x

/-- Function `sign`: `x > 0.0 ? 1 : -1`. -/
def sign (x : F) : Int := if gt x (ofInt 0) then 1 else -1

/-- Function `point_line_distance(p, l0, l1)`: `v` is the vector from `l0` to `l1`, `r` the
vector from `p` to `l0`, and the result is their dot product `v * r` over `len(v)`. -/
def point_line_distance (p l0 l1 : Point2 F) : F :=
  let v := vec2d.ofPoints l0 l1
  let r := vec2d.ofPoints p l0
  div (vec2d.dot v r) (len v)

/-- Function `calculate_i_curvature(p0, p1, p2, p3, p4)`. -/
def calculate_i_curvature (p0 p1 p2 p3 p4 : Point2 F) : F :=
  let dx := div (sub p3.x p1.x) (ofInt 2)
  let dy := div (sub p3.y p1.y) (ofInt 2)
  let d2x := div (sub (sub (mul (ofInt 2) p2.x) p0.x) p4.x) (ofInt 4)
  let d2y := div (sub (sub (mul (ofInt 2) p2.y) p0.y) p4.y) (ofInt 4)
  let v : vec2d F := ⟨dx, dy⟩
  let a : vec2d F := ⟨d2x, d2y⟩
  let v2 := vec2d.dot v v
  let k := len (vec2d.divide (vec2d.minus (a.scale v2) (v.scale (vec2d.dot a v))) (mul v2 v2))
  mul k (ofInt (sign (div dx dy)))

end Geometry

/-! ## The class `InputSmoothing` -/

/-- A line written to standard output by `process_next_point`: the line
`index: CLASS` printed on entry, or an `emit:` line carrying a breakpoint. -/
inductive Event (F : Type) where
  | classified (index : Nat) (cls : TracePointClass)
  | emit (p : Point2 F)
deriving DecidableEq

/-- The data members of `InputSmoothing` that are read or written, and the output. -/
structure State (F : Type) where
  m_offset : Nat
  m_points_buffer : List (Point2 F)
  m_prev_curvature : F
  m_segment_begin_index : Nat
  m_segment_tangent0 : Point2 F
  m_segment_tangent1 : Point2 F
  m_curvature : List F
  out : List (Event F)
deriving DecidableEq

namespace InputSmoothing

variable {F : Type} [DoubleOps F]

/-- The constructor `InputSmoothing(double tollerance)`: its body is empty, the
members take their default initialisers. The two tangent points have none: `g0` and
`g1` stand for their indeterminate initial values. -/
def new (tollerance : F) (g0 g1 : Point2 F) : State F :=
  let _unused := tollerance
  { m_offset := 0
    m_points_buffer := []
    m_prev_curvature := ofInt 0
    m_segment_begin_index := 0
    m_segment_tangent0 := g0
    m_segment_tangent1 := g1
    m_curvature := []
    out := [] }

/-- Constant `default_test_tollerance`, the default argument of the constructor. -/
def default_test_tollerance : F := ofInt 10

/-- Method `fetch_point`: `m_points_buffer.at(at)`. -/
def fetch_point (s : State F) (i : Nat) : Option (Point2 F) := s.m_points_buffer[i]?

/-- Method `points_before_count`. -/
def points_before_count (_s : State F) (index : Nat) : Nat := index

/-- Method `points_after_count`. -/
def points_after_count (s : State F) (index : Nat) : Nat :=
  szSub (szSub s.m_points_buffer.length index) 1

/-- Method `can_be_calculated_now`. -/
def can_be_calculated_now (s : State F) (index : Nat) : Bool :=
  (decide (points_before_count s index ≥ 2) && decide (points_after_count s index ≥ 2))
    || decide (index = 0)

/-- Method `can_be_calculated_later`; `none` when its assertion fails. -/
def can_be_calculated_later (s : State F) (index : Nat) : Option Bool :=
  if can_be_calculated_now s index then none
  else some (decide (points_before_count s index ≥ 2))

/-- Method `append_trace`: push the points, then `m_curvature.resize` (new entries are
`0.0`). -/
def append_trace (s : State F) (trace : Trace F) : State F :=
  let buf := s.m_points_buffer ++ trace.samples.map Sample.point
  { s with
    m_points_buffer := buf
    m_curvature := s.m_curvature.take buf.length ++
      List.replicate (buf.length - s.m_curvature.length) (ofInt 0) }

/-- Method `calculate_class`: the class of `index` and the updated object; `none` when the
assertion fails or a `fetch_point` throws. -/
def calculate_class (s : State F) (index : Nat) : Option (TracePointClass × State F) :=
  if !can_be_calculated_now s index then none
  else if index = 0 then some (TracePointClass.SharpEdge, s)
  else do
    let p2 ← fetch_point s (szSub index 2)
    let p3 ← fetch_point s (szSub index 1)
    let p4 ← fetch_point s index
    let p5 ← fetch_point s (szAdd index 1)
    let p6 ← fetch_point s (szAdd index 2)
    let curvature := calculate_i_curvature p2 p3 p4 p5 p6
    let m_prev := if isnan s.m_prev_curvature then curvature else s.m_prev_curvature
    let prev_curvature := m_prev
    let s1 : State F :=
      { s with m_prev_curvature := curvature, m_curvature := s.m_curvature.set index curvature }
    if sign prev_curvature ≠ sign curvature then some (TracePointClass.Inflection, s1)
    else if gt curvature (ofInt 2) then some (TracePointClass.SharpEdge, s1)
    else some (TracePointClass.Normal, s1)

/-- Method `process_next_point`. Of its output the first line (index and class, without the
curvatures printed for a critical class) and the `emit:` lines are recorded; the `dbg:`
lines are not. -/
def process_next_point (s0 : State F) (index : Nat) (cls : TracePointClass) :
    Option (State F) :=
  let s : State F := { s0 with out := s0.out ++ [Event.classified index cls] }
  if cls ≠ TracePointClass.Normal then
    if szSub index s.m_segment_begin_index = 0 then do
      let p ← fetch_point s index
      some { s with m_segment_begin_index := index, m_segment_tangent0 := p,
                    out := s.out ++ [Event.emit p] }
    else do
      let p ← fetch_point s index
      some { s with out := s.out ++ [Event.emit p], m_segment_begin_index := index,
                    m_segment_tangent0 := p }
  else do
    let s1 ← if szSub index s.m_segment_begin_index = 1 then
        (fetch_point s index).map fun q => { s with m_segment_tangent1 := q }
      else some s
    let p ← fetch_point s1 index
    let d := point_line_distance p s1.m_segment_tangent0 s1.m_segment_tangent1
    let d2 := mul d d
    if gt d2 (sqr (ofInt 3)) then
      some { s1 with out := s1.out ++ [Event.emit p], m_segment_begin_index := index,
                     m_segment_tangent0 := p }
    else some s1

/-- The `for` loop of `on_trace_diff_available` with `n` indices left below
`points_to_process`, the next one being `index`. -/
def diff_loop : Nat → Nat → State F → Option (State F)
  | 0, _, s => some s
  | n + 1, index, s =>
    if can_be_calculated_now s index then
      (calculate_class s index).bind fun r =>
        (process_next_point r.2 index r.1).bind fun s2 =>
          diff_loop n (index + 1) { s2 with m_offset := szAdd s2.m_offset 1 }
    else
      (can_be_calculated_later s index).bind fun later =>
        if !later then
          (process_next_point s index TracePointClass.Normal).bind fun s2 =>
            diff_loop n (index + 1) { s2 with m_offset := szAdd s2.m_offset 1 }
        else some s

/-- Method `on_trace_diff_available`. -/
def on_trace_diff_available (s : State F) (trace : Trace F) : Option (State F) :=
  if trace.samples.isEmpty then some s
  else
    let s1 := append_trace s trace
    let points_to_process := szAdd s1.m_offset trace.samples.length
    diff_loop (points_to_process - s1.m_offset) s1.m_offset s1

/-- The `for` loop of `on_trace_end` with `n` indices left, the next one being `index`. -/
def end_loop : Nat → Nat → State F → Option (State F)
  | 0, _, s => some s
  | n + 1, index, s =>
    (process_next_point s index TracePointClass.Normal).bind fun s1 =>
      end_loop n (index + 1) s1

/-- Method `on_trace_end`. -/
def on_trace_end (s : State F) : Option (State F) :=
  let last := szSub s.m_points_buffer.length 1
  (end_loop (last - s.m_offset) s.m_offset s).bind fun s1 =>
    process_next_point s1 last TracePointClass.SharpEdge

/-- A sequence of `on_trace_diff_available` calls, one per chunk. -/
def feed (s : State F) : List (Trace F) → Option (State F)
  | [] => some s
  | t :: ts => (on_trace_diff_available s t).bind fun s1 => feed s1 ts

/-- The conversion `(int)x` of a `size_t` value to the 32-bit `int`: the value modulo
`2 ^ 32`, read as a signed number. -/
def toInt32 (x : Nat) : Int :=
  if x % 4294967296 < 2147483648 then (x % 4294967296 : Nat) else (x % 4294967296 : Nat) - 4294967296

/-- The value `begin` of `fetch_curvature_around`:
`std::max((int)around - (int)back_n, 0)`; `none` when the `int` subtraction overflows. -/
def fetch_curvature_begin (around back_n : Nat) : Option Nat :=
  let d := toInt32 around - toInt32 back_n
  if d < -2147483648 ∨ 2147483647 < d then none else some (max d 0).toNat

/-- The value `end` of `fetch_curvature_around`:
`std::min(around + forth_n, m_points_buffer.size() - 1) + 1`. -/
def fetch_curvature_end (s : State F) (around forth_n : Nat) : Nat :=
  szAdd (min (szAdd around forth_n) (szSub s.m_points_buffer.length 1)) 1

/-- The loop `for (i = begin; i != end; ++i)` of `fetch_curvature_around` with `n` steps left
before `i` reaches `end`: the values `m_curvature[i]` read, `none` when a read falls outside
the vector. -/
def fetch_curvature_loop : Nat → Nat → State F → Option (List F)
  | 0, _, _ => some []
  | n + 1, i, s =>
    (s.m_curvature[i]?).bind fun v =>
      (fetch_curvature_loop n (szAdd i 1) s).map fun vs => v :: vs

/-- Method `fetch_curvature_around`: the two bounds printed (`begin` and `end - 1`) and the
curvatures printed between the brackets. -/
def fetch_curvature_around (s : State F) (around back_n forth_n : Nat) :
    Option (Nat × Nat × List F) :=
  (fetch_curvature_begin around back_n).bind fun b =>
    let e := fetch_curvature_end s around forth_n
    (fetch_curvature_loop (szSub e b) b s).map fun vs => (b, szSub e 1, vs)

end InputSmoothing

/-! ## An exact interpretation of the arithmetic

`XNum` computes with exact rationals `n / d` in lowest terms, two infinities and NaN, with
the conventions of IEEE 754 for the special values. It has no rounding and no negative
zero: it agrees with binary64 on computations all of whose intermediate values are
representable (small integers and dyadic fractions). The square root is exact on squares
of rationals and truncated to a multiple of `2 ^ (-52)` elsewhere. -/

/-- Extended rationals. `fin n d` is `n / d`. -/
inductive XNum where
  | nan
  | ninf
  | pinf
  | fin (n : Int) (d : Nat)
deriving DecidableEq

namespace XNum

/-- The fraction `n / d` in lowest terms (`d` positive). -/
def mk (n : Int) (d : Nat) : XNum :=
  let g := Nat.gcd n.natAbs d
  fin (n / (g : Int)) (d / g)

/-- Sign of a value other than NaN: `-1`, `0` or `1`. -/
def sgn : XNum → Int
  | nan => 0
  | ninf => -1
  | pinf => 1
  | fin n _ => Int.sign n

/-- The infinity of the given sign, NaN for sign `0`. -/
def infOf (s : Int) : XNum := if s > 0 then pinf else if s < 0 then ninf else nan

def neg : XNum → XNum
  | nan => nan
  | ninf => pinf
  | pinf => ninf
  | fin n d => fin (-n) d

def add : XNum → XNum → XNum
  | nan, _ => nan
  | _, nan => nan
  | pinf, ninf => nan
  | ninf, pinf => nan
  | pinf, _ => pinf
  | _, pinf => pinf
  | ninf, _ => ninf
  | _, ninf => ninf
  | fin a b, fin c d => mk (a * d + c * b) (b * d)

def sub (x y : XNum) : XNum := add x (neg y)

def mul : XNum → XNum → XNum
  | nan, _ => nan
  | _, nan => nan
  | fin a b, fin c d => mk (a * c) (b * d)
  | x, y => infOf (sgn x * sgn y)

def div : XNum → XNum → XNum
  | nan, _ => nan
  | _, nan => nan
  | fin a b, fin c d =>
    if c = 0 then infOf (Int.sign a) else mk (a * d * Int.sign c) (b * c.natAbs)
  | fin _ _, _ => fin 0 1
  | x, fin c _ => if c < 0 then neg x else x
  | _, _ => nan

/-- Integer square root of `n` (rounded down), from that of `n / 4`; `f` bounds the depth. -/
def isqrtF : Nat → Nat → Nat
  | 0, _ => 0
  | f + 1, n =>
    if n < 2 then n
    else
      let r := 2 * isqrtF f (n / 4)
      if (r + 1) * (r + 1) ≤ n then r + 1 else r

/-- Integer square root (rounded down). -/
def isqrt (n : Nat) : Nat := isqrtF n n

def sqrt : XNum → XNum
  | nan => nan
  | ninf => nan
  | pinf => pinf
  | fin n d =>
    if n < 0 then nan
    else
      let a := isqrt n.natAbs
      let b := isqrt d
      if a * a = n.natAbs ∧ b * b = d then mk a b
      else mk (isqrt (n.natAbs * 2 ^ 104 / d)) (2 ^ 52)

def gt : XNum → XNum → Bool
  | nan, _ => false
  | _, nan => false
  | pinf, pinf => false
  | pinf, _ => true
  | _, pinf => false
  | ninf, _ => false
  | _, ninf => true
  | fin a b, fin c d => decide (a * d > c * b)

def isnan : XNum → Bool
  | nan => true
  | _ => false

instance : DoubleOps XNum where
  add := add
  sub := sub
  mul := mul
  div := div
  sqrt := sqrt
  gt := gt
  isnan := isnan
  ofInt := fun n => fin n 1

end XNum

/-- The point with integer coordinates `(a, b)`. -/
def pt (a b : Int) : Point2 XNum := ⟨XNum.fin a 1, XNum.fin b 1⟩

/-- A chunk made of the given points, with timestamps `0`. -/
def chunk (ps : List (Point2 XNum)) : Trace XNum := ⟨ps.map fun p => ⟨p, 0⟩⟩

/-! ## Definitions used in the statements and proofs -/

section Auxiliary

variable {F : Type} [DoubleOps F]

open InputSmoothing

/-- The buffer and curvature table grown by the points `ps` (what `append_trace` does once
both have the same length). -/
def extend (s : State F) (ps : List (Point2 F)) : State F :=
  { s with
    m_points_buffer := s.m_points_buffer ++ ps
    m_curvature := s.m_curvature ++ List.replicate ps.length (ofInt 0) }

/-- Points of a chunk. -/
def Trace.points (t : Trace F) : List (Point2 F) := t.samples.map Sample.point

/-- Value of `m_offset` once a buffer of `N` points has been processed as far as possible. -/
def off (N : Nat) : Nat := if N ≤ 2 then N else if N ≤ 4 then 2 else N - 2

/-- The class computed by `calculate_class` from the five points and the previous curvature. -/
def classOf (prev : F) (p2 p3 p4 p5 p6 : Point2 F) : TracePointClass :=
  let c := calculate_i_curvature p2 p3 p4 p5 p6
  let p := if isnan prev then c else prev
  if sign p ≠ sign c then TracePointClass.Inflection
  else if gt c (ofInt 2) then TracePointClass.SharpEdge
  else TracePointClass.Normal

/-- The statement `m_offset += 1`. -/
def bump (s : State F) : State F := { s with m_offset := szAdd s.m_offset 1 }

/-- One iteration of the loop of `on_trace_diff_available` at an index that is processed:
index `1` is forced to `Normal`, any other index is classified by `calculate_class`. -/
def stepAt (s : State F) (i : Nat) : Option (State F) :=
  if i = 1 then (process_next_point s i TracePointClass.Normal).map bump
  else (calculate_class s i).bind fun r => (process_next_point r.2 i r.1).map bump

/-- What holds of the object between two calls of `on_trace_diff_available`. -/
def Inv (s : State F) : Prop :=
  s.m_points_buffer.length < SIZE_MOD ∧ s.m_curvature.length = s.m_points_buffer.length ∧
    s.m_offset = off s.m_points_buffer.length ∧ s.m_segment_begin_index ≤ s.m_offset

/-- All the chunks of a list as one chunk. -/
def joinChunks : List (Trace F) → Trace F
  | [] => ⟨[]⟩
  | t :: ts => ⟨t.samples ++ (joinChunks ts).samples⟩

/-- The cross product of two plane vectors. -/
def cross (a b : vec2d F) : F := sub (mul a.v0 b.v1) (mul a.v1 b.v0)

/-- Follows the words of the specification, not the code: the signed perpendicular distance
`cross(l1 - l0, p - l0) / |l1 - l0|` of `p` from the line through `l0` and `l1`. -/
def point_line_distance_spec (p l0 l1 : Point2 F) : F :=
  div (cross (vec2d.ofPoints l0 l1) (vec2d.ofPoints l0 p)) (len (vec2d.ofPoints l0 l1))

/-- One call of `process_next_point`: the object when the call is entered, the two
arguments, and whether the call is the one of the force-`Normal` branch of
`on_trace_diff_available`. -/
structure Call (F : Type) where
  pre : State F
  index : Nat
  cls : TracePointClass
  forced : Bool

/-- The loop `diff_loop` together with the calls of `process_next_point` it makes. -/
def diff_loopT : Nat → Nat → State F → Option (State F × List (Call F))
  | 0, _, s => some (s, [])
  | n + 1, index, s =>
    if can_be_calculated_now s index then
      (calculate_class s index).bind fun r =>
        (process_next_point r.2 index r.1).bind fun s2 =>
          (diff_loopT n (index + 1) { s2 with m_offset := szAdd s2.m_offset 1 }).map fun q =>
            (q.1, ⟨r.2, index, r.1, false⟩ :: q.2)
    else
      (can_be_calculated_later s index).bind fun later =>
        if !later then
          (process_next_point s index TracePointClass.Normal).bind fun s2 =>
            (diff_loopT n (index + 1) { s2 with m_offset := szAdd s2.m_offset 1 }).map fun q =>
              (q.1, ⟨s, index, TracePointClass.Normal, true⟩ :: q.2)
        else some (s, [])

/-- The method `on_trace_diff_available` together with the calls of `process_next_point`
it makes. -/
def on_trace_diff_availableT (s : State F) (trace : Trace F) :
    Option (State F × List (Call F)) :=
  if trace.samples.isEmpty then some (s, [])
  else
    let s1 := append_trace s trace
    let points_to_process := szAdd s1.m_offset trace.samples.length
    diff_loopT (points_to_process - s1.m_offset) s1.m_offset s1

/-- The loop `end_loop` together with the calls of `process_next_point` it makes. -/
def end_loopT : Nat → Nat → State F → Option (State F × List (Call F))
  | 0, _, s => some (s, [])
  | n + 1, index, s =>
    (process_next_point s index TracePointClass.Normal).bind fun s1 =>
      (end_loopT n (index + 1) s1).map fun q =>
        (q.1, ⟨s, index, TracePointClass.Normal, false⟩ :: q.2)

/-- The method `on_trace_end` together with the calls of `process_next_point` it makes. -/
def on_trace_endT (s : State F) : Option (State F × List (Call F)) :=
  let last := szSub s.m_points_buffer.length 1
  (end_loopT (last - s.m_offset) s.m_offset s).bind fun q =>
    (process_next_point q.1 last TracePointClass.SharpEdge).map fun s2 =>
      (s2, q.2 ++ [⟨q.1, last, TracePointClass.SharpEdge, false⟩])

/-- The calls of `feed` together with the calls of `process_next_point` they make. -/
def feedT (s : State F) : List (Trace F) → Option (State F × List (Call F))
  | [] => some (s, [])
  | t :: ts =>
    (on_trace_diff_availableT s t).bind fun q =>
      (feedT q.1 ts).map fun r => (r.1, q.2 ++ r.2)

/-- A run of a fresh object: the chunks are fed one by one, then `on_trace_end` is called
when `withEnd` is set. The result is the final object and all the calls of
`process_next_point` made, in order. -/
def run (tol : F) (g0 g1 : Point2 F) (chunks : List (Trace F)) (withEnd : Bool) :
    Option (State F × List (Call F)) :=
  (feedT (InputSmoothing.new tol g0 g1) chunks).bind fun q =>
    if withEnd then (on_trace_endT q.1).map fun r => (r.1, q.2 ++ r.2) else some q

/-- The two tangent points that `process_next_point`, entered in state `s` for a `Normal`
point at `index`, passes to `point_line_distance`: `m_segment_tangent0`, and
`m_segment_tangent1` after its update when `index` is the second point of the segment. -/
def tangent_used (s : State F) (index : Nat) : Option (Point2 F × Point2 F) :=
  (if szSub index s.m_segment_begin_index = 1 then fetch_point s index
    else some s.m_segment_tangent1).map fun t1 => (s.m_segment_tangent0, t1)

/-- The tangent passed to `point_line_distance` for a `Normal` point at `index` joins
the first two points of the current segment, which begins below `index`. -/
def CallOK (s : State F) (index : Nat) : Prop :=
  s.m_segment_begin_index < index ∧
    ∃ t0 t1, tangent_used s index = some (t0, t1) ∧
      fetch_point s s.m_segment_begin_index = some t0 ∧
      fetch_point s (s.m_segment_begin_index + 1) = some t1

/-- Before index `j` is handed over: the segment begins below `j`, `m_segment_tangent0` is
its first point and, once its second point is handed over, `m_segment_tangent1` is that
second point. Nothing is required before index `0`. -/
def TInv (s : State F) (j : Nat) : Prop :=
  (j = 0 ∧ s.m_segment_begin_index = 0) ∨
    (s.m_segment_begin_index < j ∧
      s.m_points_buffer[s.m_segment_begin_index]? = some s.m_segment_tangent0 ∧
      (s.m_segment_begin_index + 1 < j →
        s.m_points_buffer[s.m_segment_begin_index + 1]? = some s.m_segment_tangent1))

/-- The `(index, class)` pairs of the `index: CLASS` lines of an output. -/
def handed : List (Event F) → List (Nat × TracePointClass)
  | [] => []
  | Event.classified i c :: es => (i, c) :: handed es
  | Event.emit _ :: es => handed es

/-- The breakpoints of the `emit:` lines of an output. -/
def emitted : List (Event F) → List (Point2 F)
  | [] => []
  | Event.classified _ _ :: es => emitted es
  | Event.emit p :: es => p :: emitted es

/-- What every call of `process_next_point` made by a run satisfies: its index lies in the
buffer, it is the call of the force-`Normal` branch exactly when its index is `1`, that
branch hands over the class `Normal`, and for a `Normal` point the tangent passed to
`point_line_distance` joins the first two points of the segment. -/
def GoodCall (c : Call F) : Prop :=
  c.index < c.pre.m_points_buffer.length ∧ (c.forced = true ↔ c.index = 1) ∧
    (c.forced = true → c.cls = TracePointClass.Normal) ∧
    (c.cls = TracePointClass.Normal → CallOK c.pre c.index)

end Auxiliary

/-! ## Exact arithmetic

The statements about the value of the curvature are made for arithmetic that is exact:
an ordered field whose operations are those of `DoubleOps`. -/

section ExactDefs

/-- Exact arithmetic on the rationals as an ordered field: no rounding, no NaN, and the
square root of Mathlib, exact on squares. Division by zero gives `0`. -/
instance ratOps : DoubleOps ℚ where
  add := fun x y => x + y
  sub := fun x y => x - y
  mul := fun x y => x * y
  div := fun x y => x / y
  sqrt := Rat.sqrt
  gt := fun x y => decide (y < x)
  isnan := fun _ => false
  ofInt := fun n => (n : ℚ)

variable {K : Type} [LinearOrderedField K] [DoubleOps K]

/-- The operations of `DoubleOps` are those of an ordered field: sums, differences and
products are exact, quotients by a non-zero divisor are exact, the square root is exact on
squares, and the comparison is that of the order. -/
structure ExactArith (K : Type) [LinearOrderedField K] [DoubleOps K] : Prop where
  add_eq : ∀ x y : K, DoubleOps.add x y = x + y
  sub_eq : ∀ x y : K, DoubleOps.sub x y = x - y
  mul_eq : ∀ x y : K, DoubleOps.mul x y = x * y
  div_eq : ∀ x y : K, y ≠ 0 → DoubleOps.div x y = x / y
  sqrt_sq : ∀ x : K, 0 ≤ x → DoubleOps.sqrt (x * x) = x
  gt_eq : ∀ x y : K, DoubleOps.gt x y = decide (y < x)
  ofInt_eq : ∀ n : Int, DoubleOps.ofInt n = (n : K)

/-- Follows the words of the specification: `dx = (p3.x - p1.x) / 2`. -/
def spec_dx (p1 p3 : Point2 K) : K := (p3.x - p1.x) / 2

/-- Follows the words of the specification: `dy = (p3.y - p1.y) / 2`. -/
def spec_dy (p1 p3 : Point2 K) : K := (p3.y - p1.y) / 2

/-- Follows the words of the specification: `d2x = (2 * p2.x - p0.x - p4.x) / 4`. -/
def spec_d2x (p0 p2 p4 : Point2 K) : K := (2 * p2.x - p0.x - p4.x) / 4

/-- Follows the words of the specification: `d2y = (2 * p2.y - p0.y - p4.y) / 4`. -/
def spec_d2y (p0 p2 p4 : Point2 K) : K := (2 * p2.y - p0.y - p4.y) / 4

/-- The point at the signed distance `t` from `P` on the line through `P` with the direction
`(ux, uy)`. -/
def along (P : Point2 K) (ux uy t : K) : Point2 K := ⟨P.x + t * ux, P.y + t * uy⟩

/-- A chunk made of the given rational points, with timestamps `0`. -/
def chunkQ (ps : List (Point2 ℚ)) : Trace ℚ := ⟨ps.map fun p => ⟨p, 0⟩⟩

end ExactDefs

/-! ## Arithmetic of indices -/

section Indices

variable {F : Type}

open InputSmoothing

theorem szSub_of_le {a b : Nat} (ha : a < SIZE_MOD) (hb : b ≤ a) : szSub a b = a - b := by
  unfold szSub SIZE_MOD at *
  omega

theorem szAdd_of_lt {a b : Nat} (h : a + b < SIZE_MOD) : szAdd a b = a + b := by
  unfold szAdd SIZE_MOD at *
  omega

theorem fetch_point_some (s : State F) {i : Nat} (h : i < s.m_points_buffer.length) :
    fetch_point s i = some (s.m_points_buffer[i]) := by
  simp [fetch_point, List.getElem?_eq_getElem h]

theorem points_after_count_eq (s : State F) {i : Nat} (hN : s.m_points_buffer.length < SIZE_MOD)
    (hi : i < s.m_points_buffer.length) :
    points_after_count s i = s.m_points_buffer.length - i - 1 := by
  unfold points_after_count
  rw [szSub_of_le hN (by omega), szSub_of_le (by omega) (by omega)]

theorem can_be_calculated_now_eq (s : State F) {i : Nat}
    (hN : s.m_points_buffer.length < SIZE_MOD) (hi : i < s.m_points_buffer.length) :
    can_be_calculated_now s i = decide ((2 ≤ i ∧ i + 2 < s.m_points_buffer.length) ∨ i = 0) := by
  unfold can_be_calculated_now points_before_count
  rw [points_after_count_eq s hN hi]
  rw [Bool.eq_iff_iff]
  simp
  omega

theorem lt_off_iff (N i : Nat) : i < off N ↔ (i < 2 ∧ i < N) ∨ (2 ≤ i ∧ i + 2 < N) := by
  unfold off
  split_ifs <;> omega

theorem off_mono {a b : Nat} (h : a ≤ b) : off a ≤ off b := by
  unfold off
  split_ifs <;> omega

theorem off_le (a : Nat) : off a ≤ a := by
  unfold off
  split_ifs <;> omega

theorem off_add_le (N m : Nat) : off (N + m) ≤ off N + m := by
  unfold off
  split_ifs <;> omega

theorem joinChunks_append_length (chunks : List (Trace F)) (t : Trace F) :
    (joinChunks (chunks ++ [t])).samples.length =
      (joinChunks chunks).samples.length + t.samples.length := by
  induction chunks with
  | nil => simp [joinChunks]
  | cons c cs ih =>
    have e : (c :: cs) ++ [t] = c :: (cs ++ [t]) := rfl
    rw [e]
    simp only [joinChunks, List.length_append, ih]
    omega

end Indices

/-! ## The state machine -/

section Machine

variable {F : Type} [DoubleOps F]

open InputSmoothing

theorem append_trace_eq_extend (s : State F) (t : Trace F)
    (h : s.m_curvature.length = s.m_points_buffer.length) :
    append_trace s t = extend s t.points := by
  unfold append_trace extend Trace.points
  simp only [List.length_append, List.length_map]
  rw [List.take_of_length_le (by omega)]
  congr 3
  omega

theorem extend_nil (s : State F) : extend s [] = s := by
  simp [extend]

theorem extend_extend (s : State F) (a b : List (Point2 F)) :
    extend (extend s a) b = extend s (a ++ b) := by
  simp [extend]

theorem fetch_point_extend (s : State F) (ps : List (Point2 F)) {i : Nat}
    (h : i < s.m_points_buffer.length) : fetch_point (extend s ps) i = fetch_point s i := by
  simp [fetch_point, extend, List.getElem?_append_left h]

theorem process_next_point_extend (s : State F) (ps : List (Point2 F)) (i : Nat)
    (c : TracePointClass) (h : i < s.m_points_buffer.length) :
    process_next_point (extend s ps) i c = (process_next_point s i c).map (extend · ps) := by
  have e1 : ∀ o, fetch_point (extend { s with out := o } ps) i = some s.m_points_buffer[i] := by
    intro o
    rw [fetch_point_extend _ _ (by simpa using h)]
    exact fetch_point_some _ (by simpa using h)
  have e2 : ∀ o, fetch_point { s with out := o } i = some s.m_points_buffer[i] := by
    intro o
    exact fetch_point_some _ (by simpa using h)
  unfold process_next_point
  simp only [extend] at e1
  simp only [extend, e1, e2]
  split_ifs <;> simp [extend, fetch_point, List.getElem?_append_left h, List.getElem?_eq_getElem h] <;>
    split_ifs <;> simp

/-- What `process_next_point` leaves unchanged. -/
theorem process_next_point_some (s : State F) (i : Nat) (c : TracePointClass)
    (h : i < s.m_points_buffer.length) :
    ∃ s1, process_next_point s i c = some s1 ∧ s1.m_points_buffer = s.m_points_buffer ∧
      s1.m_curvature = s.m_curvature ∧ s1.m_offset = s.m_offset ∧
      s1.m_prev_curvature = s.m_prev_curvature ∧
      (s1.m_segment_begin_index = s.m_segment_begin_index ∨ s1.m_segment_begin_index = i) := by
  unfold process_next_point
  simp only [fetch_point, List.getElem?_eq_getElem h]
  split_ifs <;> simp [List.getElem?_eq_getElem h] <;> split_ifs <;> simp

theorem calculate_class_zero (s : State F) :
    calculate_class s 0 = some (TracePointClass.SharpEdge, s) := by
  simp [calculate_class, can_be_calculated_now]

theorem calculate_class_inner (s : State F) {i : Nat} (hN : s.m_points_buffer.length < SIZE_MOD)
    (h2 : 2 ≤ i) (hi : i + 2 < s.m_points_buffer.length) :
    calculate_class s i =
      some (classOf s.m_prev_curvature s.m_points_buffer[i - 2] s.m_points_buffer[i - 1]
          s.m_points_buffer[i] s.m_points_buffer[i + 1] s.m_points_buffer[i + 2],
        { s with
          m_prev_curvature := calculate_i_curvature s.m_points_buffer[i - 2]
            s.m_points_buffer[i - 1] s.m_points_buffer[i] s.m_points_buffer[i + 1]
            s.m_points_buffer[i + 2]
          m_curvature := s.m_curvature.set i (calculate_i_curvature s.m_points_buffer[i - 2]
            s.m_points_buffer[i - 1] s.m_points_buffer[i] s.m_points_buffer[i + 1]
            s.m_points_buffer[i + 2]) }) := by
  have hc : can_be_calculated_now s i = true := by
    rw [can_be_calculated_now_eq s hN (by omega)]
    simp
    omega
  have e1 : szSub i 2 = i - 2 := szSub_of_le (by omega) h2
  have e2 : szSub i 1 = i - 1 := szSub_of_le (by omega) (by omega)
  have e3 : szAdd i 1 = i + 1 := szAdd_of_lt (by omega)
  have e4 : szAdd i 2 = i + 2 := szAdd_of_lt (by omega)
  have i0 : i ≠ 0 := by omega
  unfold calculate_class
  simp only [hc, e1, e2, e3, e4, i0, fetch_point]
  rw [List.getElem?_eq_getElem (by omega : i - 2 < _), List.getElem?_eq_getElem (by omega : i - 1 < _),
    List.getElem?_eq_getElem (by omega : i < _), List.getElem?_eq_getElem (by omega : i + 1 < _),
    List.getElem?_eq_getElem hi]
  simp only [classOf]
  simp
  split_ifs <;> simp

theorem calculate_class_extend (s : State F) (ps : List (Point2 F)) {i : Nat}
    (hN : s.m_points_buffer.length + ps.length < SIZE_MOD)
    (hc : s.m_curvature.length = s.m_points_buffer.length)
    (hi : i = 0 ∨ (2 ≤ i ∧ i + 2 < s.m_points_buffer.length)) :
    calculate_class (extend s ps) i =
      (calculate_class s i).map fun r => (r.1, extend r.2 ps) := by
  rcases hi with rfl | ⟨h2, hi⟩
  · simp [calculate_class_zero]
  · have hl : (extend s ps).m_points_buffer.length = s.m_points_buffer.length + ps.length := by
      simp [extend]
    rw [calculate_class_inner s (by omega) h2 hi,
      calculate_class_inner (extend s ps) (by omega) h2 (by omega)]
    simp only [extend, Option.map_some', Option.some.injEq, Prod.mk.injEq]
    rw [List.getElem_append_left (by omega : i - 2 < _), List.getElem_append_left (by omega : i - 1 < _),
      List.getElem_append_left (by omega : i < _), List.getElem_append_left (by omega : i + 1 < _),
      List.getElem_append_left hi]
    refine ⟨rfl, ?_⟩
    congr 1
    rw [List.set_append_left _ _ (by omega)]

theorem stepAt_extend (s : State F) (ps : List (Point2 F)) {i : Nat}
    (hN : s.m_points_buffer.length + ps.length < SIZE_MOD)
    (hc : s.m_curvature.length = s.m_points_buffer.length)
    (hi : i < off s.m_points_buffer.length) :
    stepAt (extend s ps) i = (stepAt s i).map (extend · ps) := by
  rw [lt_off_iff] at hi
  unfold stepAt
  by_cases h1 : i = 1
  · subst h1
    simp only [if_true]
    rw [process_next_point_extend _ _ _ _ (by omega)]
    simp [Option.map_map, Function.comp_def, bump, extend]
  · simp only [h1, if_false]
    rw [calculate_class_extend s ps hN hc (by omega)]
    have hi2 : i = 0 ∨ (2 ≤ i ∧ i + 2 < s.m_points_buffer.length) := by omega
    rcases hi2 with rfl | ⟨h2, h3⟩
    · rw [calculate_class_zero]
      simp only [Option.map_some', Option.some_bind]
      rw [process_next_point_extend _ _ _ _ (by omega)]
      simp [Option.map_map, Function.comp_def, bump, extend]
    · rw [calculate_class_inner s (by omega) h2 h3]
      simp only [Option.map_some', Option.some_bind]
      rw [process_next_point_extend _ _ _ _ (by simp; omega)]
      simp [Option.map_map, Function.comp_def, bump, extend]

/-- A processed index leaves the buffer alone, keeps the length of the curvature table,
advances `m_offset` by one and may only move the segment's first index to `i`. -/
theorem stepAt_some (s : State F) {i : Nat} (hN : s.m_points_buffer.length < SIZE_MOD)
    (hi : i < off s.m_points_buffer.length) :
    ∃ s1, stepAt s i = some s1 ∧ s1.m_points_buffer = s.m_points_buffer ∧
      s1.m_curvature.length = s.m_curvature.length ∧ s1.m_offset = szAdd s.m_offset 1 ∧
      (s1.m_segment_begin_index = s.m_segment_begin_index ∨ s1.m_segment_begin_index = i) := by
  rw [lt_off_iff] at hi
  unfold stepAt
  by_cases h1 : i = 1
  · subst h1
    obtain ⟨s1, e, hb, hc, ho, -, hs⟩ :=
      process_next_point_some s 1 TracePointClass.Normal (by omega)
    refine ⟨bump s1, ?_, ?_⟩
    · simp [e]
    · simp [bump, hb, hc, ho, hs]
  · simp only [h1, if_false]
    have hi2 : i = 0 ∨ (2 ≤ i ∧ i + 2 < s.m_points_buffer.length) := by omega
    rcases hi2 with rfl | ⟨h2, h3⟩
    · rw [calculate_class_zero]
      obtain ⟨s1, e, hb, hc, ho, -, hs⟩ :=
        process_next_point_some s 0 TracePointClass.SharpEdge (by omega)
      refine ⟨bump s1, ?_, ?_⟩
      · simp [e]
      · simp [bump, hb, hc, ho, hs]
    · rw [calculate_class_inner s hN h2 h3]
      simp only [Option.some_bind]
      obtain ⟨s1, e, hb, hc, ho, -, hs⟩ := process_next_point_some
        { s with
          m_prev_curvature := calculate_i_curvature s.m_points_buffer[i - 2]
            s.m_points_buffer[i - 1] s.m_points_buffer[i] s.m_points_buffer[i + 1]
            s.m_points_buffer[i + 2]
          m_curvature := s.m_curvature.set i (calculate_i_curvature s.m_points_buffer[i - 2]
            s.m_points_buffer[i - 1] s.m_points_buffer[i] s.m_points_buffer[i + 1]
            s.m_points_buffer[i + 2]) } i
        (classOf s.m_prev_curvature s.m_points_buffer[i - 2] s.m_points_buffer[i - 1]
          s.m_points_buffer[i] s.m_points_buffer[i + 1] s.m_points_buffer[i + 2])
        (by simp; omega)
      refine ⟨bump s1, ?_, ?_⟩
      · simp [e]
      · simp at hb hc ho hs
        simp [bump, hb, hc, ho, hs]

theorem diff_loop_succ (n : Nat) (s : State F) {i : Nat}
    (hN : s.m_points_buffer.length < SIZE_MOD) (hi : i < off s.m_points_buffer.length) :
    diff_loop (n + 1) i s = (stepAt s i).bind (diff_loop n (i + 1)) := by
  rw [lt_off_iff] at hi
  have hc := can_be_calculated_now_eq s hN (by omega : i < s.m_points_buffer.length)
  rw [diff_loop, stepAt]
  by_cases h1 : i = 1
  · subst h1
    have hc1 : can_be_calculated_now s 1 = false := by
      rw [hc]
      simp
    simp only [hc1, can_be_calculated_later, points_before_count]
    simp [Option.bind_map, Function.comp_def, bump]
  · have hc1 : can_be_calculated_now s i = true := by
      rw [hc]
      simp
      omega
    simp only [hc1, h1, if_true, if_false]
    cases calculate_class s i with
    | none => rfl
    | some r => simp [Option.bind_map, Function.comp_def, bump]

theorem diff_loop_break (n : Nat) (s : State F) (hN : s.m_points_buffer.length < SIZE_MOD)
    (h3 : 3 ≤ s.m_points_buffer.length) :
    diff_loop n (off s.m_points_buffer.length) s = some s := by
  cases n with
  | zero => rfl
  | succ n =>
    have ho : 2 ≤ off s.m_points_buffer.length ∧
        off s.m_points_buffer.length < s.m_points_buffer.length ∧
        ¬ off s.m_points_buffer.length + 2 < s.m_points_buffer.length := by
      unfold off
      split_ifs <;> omega
    have hc : can_be_calculated_now s (off s.m_points_buffer.length) = false := by
      rw [can_be_calculated_now_eq s hN ho.2.1]
      simp
      omega
    rw [diff_loop]
    simp only [hc, can_be_calculated_later, points_before_count]
    simp
    omega

/-- Running the loop over `k` indices all of which are processed. -/
theorem diff_loop_run (k : Nat) : ∀ (i : Nat) (s : State F),
    s.m_points_buffer.length < SIZE_MOD → i + k ≤ off s.m_points_buffer.length →
    s.m_offset = i → s.m_segment_begin_index ≤ i →
    ∃ s1, diff_loop k i s = some s1 ∧ s1.m_points_buffer = s.m_points_buffer ∧
      s1.m_curvature.length = s.m_curvature.length ∧ s1.m_offset = i + k ∧
      s1.m_segment_begin_index ≤ i + k := by
  induction k with
  | zero =>
    intro i s _ _ ho hs
    exact ⟨s, rfl, rfl, rfl, by simpa using ho, by simpa using hs⟩
  | succ k ih =>
    intro i s hN hk ho hs
    have hoff : off s.m_points_buffer.length ≤ s.m_points_buffer.length := by
      unfold off
      split_ifs <;> omega
    obtain ⟨s1, e1, hb, hc, ho1, hs1⟩ := stepAt_some s hN (by omega : i < off _)
    rw [szAdd_of_lt (by omega)] at ho1
    obtain ⟨s2, e2, hb2, hc2, ho2, hs2⟩ := ih (i + 1) s1 (by rw [hb]; exact hN)
      (by rw [hb]; omega) (by omega) (by omega)
    refine ⟨s2, ?_, by rw [hb2, hb], by rw [hc2, hc], by omega, by omega⟩
    rw [diff_loop_succ k s hN (by omega), e1]
    exact e2

theorem diff_loop_extend (ps : List (Point2 F)) (k : Nat) : ∀ (i : Nat) (s : State F),
    s.m_points_buffer.length + ps.length < SIZE_MOD →
    s.m_curvature.length = s.m_points_buffer.length →
    i + k ≤ off s.m_points_buffer.length →
    diff_loop k i (extend s ps) = (diff_loop k i s).map (extend · ps) := by
  induction k with
  | zero =>
    intro i s _ _ _
    rfl
  | succ k ih =>
    intro i s hN hc hk
    have hl : (extend s ps).m_points_buffer.length = s.m_points_buffer.length + ps.length := by
      simp [extend]
    have hm := off_mono (Nat.le_add_right s.m_points_buffer.length ps.length)
    obtain ⟨s1, e1, hb, hc1, -, -⟩ := stepAt_some s (by omega) (by omega : i < off _)
    rw [diff_loop_succ k (extend s ps) (by omega) (by rw [hl]; omega),
      diff_loop_succ k s (by omega) (by omega), stepAt_extend s ps hN hc (by omega), e1]
    simp only [Option.map_some', Option.some_bind]
    exact ih (i + 1) s1 (by rw [hb]; exact hN) (by rw [hc1, hb]; exact hc) (by rw [hb]; omega)

theorem diff_loop_add (a b : Nat) : ∀ (i : Nat) (s : State F),
    s.m_points_buffer.length < SIZE_MOD → i + a ≤ off s.m_points_buffer.length →
    diff_loop (a + b) i s = (diff_loop a i s).bind (diff_loop b (i + a)) := by
  induction a with
  | zero =>
    intro i s _ _
    simp [diff_loop]
  | succ a ih =>
    intro i s hN hk
    obtain ⟨s1, e1, hb, -, -, -⟩ := stepAt_some s hN (by omega : i < off _)
    have e : a + 1 + b = (a + b) + 1 := by omega
    rw [e, diff_loop_succ (a + b) s hN (by omega), diff_loop_succ a s hN (by omega), e1]
    simp only [Option.some_bind]
    have e2 : i + 1 + a = i + (a + 1) := by omega
    rw [ih (i + 1) s1 (by rw [hb]; exact hN) (by rw [hb]; omega), e2]

theorem inv_new (t : F) (g0 g1 : Point2 F) : Inv (InputSmoothing.new t g0 g1) := by
  simp [Inv, InputSmoothing.new, off, SIZE_MOD]

/-- A call with a non-empty chunk runs the loop exactly up to `off` of the new length. -/
theorem on_trace_diff_available_eq (s : State F) (t : Trace F) (hs : Inv s)
    (hne : t.samples ≠ [])
    (hN : s.m_points_buffer.length + t.samples.length < SIZE_MOD) :
    on_trace_diff_available s t =
      diff_loop (off (s.m_points_buffer.length + t.samples.length) - off s.m_points_buffer.length)
        (off s.m_points_buffer.length) (extend s t.points) := by
  obtain ⟨h1, h2, h3, h4⟩ := hs
  have hl : (extend s t.points).m_points_buffer.length =
      s.m_points_buffer.length + t.samples.length := by
    simp [extend, Trace.points]
  have hle := off_le s.m_points_buffer.length
  have hmono := off_mono (Nat.le_add_right s.m_points_buffer.length t.samples.length)
  have hadd := off_add_le s.m_points_buffer.length t.samples.length
  unfold on_trace_diff_available
  have hemp : t.samples.isEmpty = false := by
    cases hts : t.samples with
    | nil => exact absurd hts hne
    | cons a l => rfl
  simp only [hemp, Bool.false_eq_true, if_false]
  rw [append_trace_eq_extend s t h2]
  have ho : (extend s t.points).m_offset = off s.m_points_buffer.length := by
    simp [extend, h3]
  rw [ho, szAdd_of_lt (by omega)]
  have hn : off s.m_points_buffer.length + t.samples.length - off s.m_points_buffer.length =
      (off (s.m_points_buffer.length + t.samples.length) - off s.m_points_buffer.length) +
      (off s.m_points_buffer.length + t.samples.length -
        off (s.m_points_buffer.length + t.samples.length)) := by omega
  rw [hn, diff_loop_add _ _ _ _ (by rw [hl]; exact hN) (by rw [hl]; omega)]
  obtain ⟨s1, e1, hb, -, -, -⟩ := diff_loop_run
    (off (s.m_points_buffer.length + t.samples.length) - off s.m_points_buffer.length)
    (off s.m_points_buffer.length) (extend s t.points) (by rw [hl]; exact hN)
    (by rw [hl]; omega) ho (by simp [extend]; omega)
  rw [e1]
  simp only [Option.some_bind]
  have hidx : off s.m_points_buffer.length +
      (off (s.m_points_buffer.length + t.samples.length) - off s.m_points_buffer.length) =
      off s1.m_points_buffer.length := by
    rw [hb, hl]
    omega
  rw [hidx]
  by_cases h3N : 3 ≤ s1.m_points_buffer.length
  · exact diff_loop_break _ s1 (by rw [hb, hl]; exact hN) h3N
  · have hz : off s.m_points_buffer.length + t.samples.length -
        off (s.m_points_buffer.length + t.samples.length) = 0 := by
      rw [hb, hl] at h3N
      unfold off
      split_ifs <;> omega
    rw [hz]
    rfl

/-- A call of `on_trace_diff_available` returns, appends the chunk to the buffer and
re-establishes `Inv`. -/
theorem on_trace_diff_available_inv (s : State F) (t : Trace F) (hs : Inv s)
    (hN : s.m_points_buffer.length + t.samples.length < SIZE_MOD) :
    ∃ s1, on_trace_diff_available s t = some s1 ∧ Inv s1 ∧
      s1.m_points_buffer = s.m_points_buffer ++ t.points := by
  by_cases hne : t.samples = []
  · refine ⟨s, ?_, hs, ?_⟩
    · simp [on_trace_diff_available, hne]
    · simp [Trace.points, hne]
  · rw [on_trace_diff_available_eq s t hs hne hN]
    obtain ⟨h1, h2, h3, h4⟩ := hs
    have hl : (extend s t.points).m_points_buffer.length =
        s.m_points_buffer.length + t.samples.length := by
      simp [extend, Trace.points]
    have hmono := off_mono (Nat.le_add_right s.m_points_buffer.length t.samples.length)
    obtain ⟨s1, e1, hb, hc, ho, hsg⟩ := diff_loop_run
      (off (s.m_points_buffer.length + t.samples.length) - off s.m_points_buffer.length)
      (off s.m_points_buffer.length) (extend s t.points) (by rw [hl]; exact hN)
      (by rw [hl]; omega) (by simp [extend, h3]) (by simp [extend]; omega)
    refine ⟨s1, e1, ⟨?_, ?_, ?_, ?_⟩, ?_⟩
    · rw [hb, hl]; exact hN
    · rw [hc, hb]
      simp [extend, Trace.points, h2]
    · rw [ho, hb, hl]; omega
    · omega
    · rw [hb]; rfl

/-- Two consecutive calls do what one call with the concatenated chunk does. -/
theorem on_trace_diff_available_merge (s : State F) (a b : Trace F) (hs : Inv s)
    (hN : s.m_points_buffer.length + a.samples.length + b.samples.length < SIZE_MOD) :
    (on_trace_diff_available s a).bind (fun s1 => on_trace_diff_available s1 b) =
      on_trace_diff_available s ⟨a.samples ++ b.samples⟩ := by
  by_cases ha : a.samples = []
  · have e : on_trace_diff_available s a = some s := by
      simp [on_trace_diff_available, ha]
    rw [e, ha]
    rfl
  by_cases hb : b.samples = []
  · have e : ∀ s1 : State F, on_trace_diff_available s1 b = some s1 := by
      intro s1
      simp [on_trace_diff_available, hb]
    simp only [e, hb, List.append_nil]
    cases on_trace_diff_available s a <;> rfl
  obtain ⟨s1, e1, hs1, hb1⟩ := on_trace_diff_available_inv s a hs (by omega)
  have hl1 : s1.m_points_buffer.length = s.m_points_buffer.length + a.samples.length := by
    simp [hb1, Trace.points]
  have hab : (⟨a.samples ++ b.samples⟩ : Trace F).samples ≠ [] := by
    simp [ha]
  rw [e1]
  simp only [Option.some_bind]
  rw [on_trace_diff_available_eq s1 b hs1 hb (by omega),
    on_trace_diff_available_eq s _ hs hab (by simp; omega)]
  rw [on_trace_diff_available_eq s a hs ha (by omega)] at e1
  have hm1 := off_mono (Nat.le_add_right s.m_points_buffer.length a.samples.length)
  have hm2 := off_mono (Nat.le_add_right (s.m_points_buffer.length + a.samples.length)
    b.samples.length)
  have hpts : (⟨a.samples ++ b.samples⟩ : Trace F).points = a.points ++ b.points := by
    simp [Trace.points]
  have hlen : (⟨a.samples ++ b.samples⟩ : Trace F).samples.length =
      a.samples.length + b.samples.length := by simp
  obtain ⟨h1, h2, h3, h4⟩ := hs
  have hla : (extend s a.points).m_points_buffer.length =
      s.m_points_buffer.length + a.samples.length := by
    simp [extend, Trace.points]
  have hsplit : off (s.m_points_buffer.length + (a.samples.length + b.samples.length)) -
      off s.m_points_buffer.length =
      (off (s.m_points_buffer.length + a.samples.length) - off s.m_points_buffer.length) +
      (off (s.m_points_buffer.length + a.samples.length + b.samples.length) -
        off (s.m_points_buffer.length + a.samples.length)) := by
    rw [← Nat.add_assoc]
    omega
  rw [hpts, hlen, hsplit, ← extend_extend, diff_loop_add _ _ _ _
    (by simp [extend, Trace.points]; omega)
    (by simp only [extend, List.length_append, Trace.points, List.length_map]; omega)]
  rw [diff_loop_extend b.points _ _ (extend s a.points)
    (by rw [hla]; simp [Trace.points]; omega)
    (by simp [extend, h2, Trace.points]) (by rw [hla]; omega), e1]
  simp only [Option.map_some', Option.some_bind, hl1]
  congr 1
  omega

theorem feed_inv (chunks : List (Trace F)) : ∀ (s : State F), Inv s →
    s.m_points_buffer.length + (joinChunks chunks).samples.length < SIZE_MOD →
    ∃ s1, feed s chunks = some s1 ∧ Inv s1 ∧
      s1.m_points_buffer = s.m_points_buffer ++ (joinChunks chunks).points := by
  induction chunks with
  | nil =>
    intro s hs _
    exact ⟨s, rfl, hs, by simp [joinChunks, Trace.points]⟩
  | cons t ts ih =>
    intro s hs hN
    simp only [joinChunks, List.length_append] at hN
    obtain ⟨s1, e1, hs1, hb1⟩ := on_trace_diff_available_inv s t hs (by omega)
    have hl1 : s1.m_points_buffer.length = s.m_points_buffer.length + t.samples.length := by
      simp [hb1, Trace.points]
    obtain ⟨s2, e2, hs2, hb2⟩ := ih s1 hs1 (by omega)
    refine ⟨s2, ?_, hs2, ?_⟩
    · simp [feed, e1, e2]
    · rw [hb2, hb1]
      simp [joinChunks, Trace.points]

theorem feed_eq_one_call (chunks : List (Trace F)) : ∀ (s : State F), Inv s →
    s.m_points_buffer.length + (joinChunks chunks).samples.length < SIZE_MOD →
    feed s chunks = on_trace_diff_available s (joinChunks chunks) := by
  induction chunks with
  | nil =>
    intro s _ _
    simp [feed, joinChunks, on_trace_diff_available]
  | cons t ts ih =>
    intro s hs hN
    simp only [joinChunks, List.length_append] at hN
    obtain ⟨s1, e1, hs1, hb1⟩ := on_trace_diff_available_inv s t hs (by omega)
    have hl1 : s1.m_points_buffer.length = s.m_points_buffer.length + t.samples.length := by
      simp [hb1, Trace.points]
    rw [joinChunks, ← on_trace_diff_available_merge s t (joinChunks ts) hs (by omega), feed, e1]
    simp only [Option.some_bind]
    exact ih s1 hs1 (by omega)

theorem end_loop_some (n : Nat) : ∀ (i : Nat) (s : State F),
    i + n ≤ s.m_points_buffer.length →
    ∃ s1, end_loop n i s = some s1 ∧ s1.m_points_buffer = s.m_points_buffer := by
  induction n with
  | zero =>
    intro i s _
    exact ⟨s, rfl, rfl⟩
  | succ n ih =>
    intro i s h
    obtain ⟨s1, e1, hb, -⟩ := process_next_point_some s i TracePointClass.Normal (by omega)
    obtain ⟨s2, e2, hb2⟩ := ih (i + 1) s1 (by rw [hb]; omega)
    refine ⟨s2, ?_, by rw [hb2, hb]⟩
    rw [end_loop, e1]
    exact e2

/-- On a non-empty buffer `on_trace_end` returns. -/
theorem on_trace_end_some (s : State F) (hs : Inv s) (h1 : 1 ≤ s.m_points_buffer.length) :
    ∃ s1, on_trace_end s = some s1 ∧ s1.m_points_buffer = s.m_points_buffer := by
  obtain ⟨hN, -, ho, -⟩ := hs
  have hle := off_le s.m_points_buffer.length
  unfold on_trace_end
  simp only [szSub_of_le hN h1]
  obtain ⟨s1, e1, hb⟩ := end_loop_some (s.m_points_buffer.length - 1 - s.m_offset) s.m_offset s
    (by omega)
  obtain ⟨s2, e2, hb2, -⟩ := process_next_point_some s1 (s.m_points_buffer.length - 1)
    TracePointClass.SharpEdge (by rw [hb]; omega)
  refine ⟨s2, ?_, by rw [hb2, hb]⟩
  rw [e1]
  exact e2

/-- C1. Chunk-boundary invariance: feeding the chunks one by one and then calling
`on_trace_end` leaves the object in the same state, with the same output (the
`(index, class)` pairs handed to `process_next_point` and the emitted breakpoints, in
order), as feeding all the samples in one chunk and then calling `on_trace_end`; and when
there is at least one sample both runs return normally. -/
theorem chunk_boundary_invariance (tol : F) (g0 g1 : Point2 F) (chunks : List (Trace F))
    (h : (joinChunks chunks).samples.length < SIZE_MOD) :
    (feed (InputSmoothing.new tol g0 g1) chunks).bind on_trace_end =
        (feed (InputSmoothing.new tol g0 g1) [joinChunks chunks]).bind on_trace_end ∧
      ((joinChunks chunks).samples ≠ [] →
        ∃ s, (feed (InputSmoothing.new tol g0 g1) chunks).bind on_trace_end = some s) := by
  have hi := inv_new tol g0 g1
  have hN : (InputSmoothing.new tol g0 g1).m_points_buffer.length +
      (joinChunks chunks).samples.length < SIZE_MOD := by
    simpa [InputSmoothing.new] using h
  constructor
  · rw [feed_eq_one_call chunks _ hi hN]
    congr 1
    simp only [feed]
    cases on_trace_diff_available (InputSmoothing.new tol g0 g1) (joinChunks chunks) <;> rfl
  · intro hne
    obtain ⟨s1, e1, hs1, hb1⟩ := feed_inv chunks _ hi hN
    have hl : 1 ≤ s1.m_points_buffer.length := by
      rw [hb1]
      simp only [InputSmoothing.new, List.nil_append, Trace.points, List.length_map]
      exact List.length_pos.mpr hne
    obtain ⟨s2, e2, -⟩ := on_trace_end_some s1 hs1 hl
    exact ⟨s2, by rw [e1]; exact e2⟩

/-- C6. Classification rule: for an index `i ≥ 2` with at least two points after it,
`calculate_class` returns; with `c` the curvature computed from the five points around `i`
and `p` the previous curvature used in the comparison (the stored one, or `c` itself when
the stored one is NaN), the class is `Inflection` iff `sign p ≠ sign c`, `SharpEdge` iff
`sign p = sign c` and `c > 2.0`, and `Normal` otherwise; so a point with `c > 2.0` whose
sign differs from that of `p` is `Inflection`. The curvature is stored as the new previous
curvature. -/
theorem calculate_class_rule (s : State F) (i : Nat)
    (hN : s.m_points_buffer.length < SIZE_MOD) (h2 : 2 ≤ i)
    (hi : i + 2 < s.m_points_buffer.length) :
    ∃ p2 p3 p4 p5 p6 cls s1,
      fetch_point s (i - 2) = some p2 ∧ fetch_point s (i - 1) = some p3 ∧
      fetch_point s i = some p4 ∧ fetch_point s (i + 1) = some p5 ∧
      fetch_point s (i + 2) = some p6 ∧
      calculate_class s i = some (cls, s1) ∧
      s1.m_prev_curvature = calculate_i_curvature p2 p3 p4 p5 p6 ∧
      (cls = TracePointClass.Inflection ↔
        sign (if isnan s.m_prev_curvature then calculate_i_curvature p2 p3 p4 p5 p6
          else s.m_prev_curvature) ≠ sign (calculate_i_curvature p2 p3 p4 p5 p6)) ∧
      (cls = TracePointClass.SharpEdge ↔
        sign (if isnan s.m_prev_curvature then calculate_i_curvature p2 p3 p4 p5 p6
          else s.m_prev_curvature) = sign (calculate_i_curvature p2 p3 p4 p5 p6) ∧
        gt (calculate_i_curvature p2 p3 p4 p5 p6) (ofInt 2) = true) ∧
      (cls = TracePointClass.Normal ↔
        sign (if isnan s.m_prev_curvature then calculate_i_curvature p2 p3 p4 p5 p6
          else s.m_prev_curvature) = sign (calculate_i_curvature p2 p3 p4 p5 p6) ∧
        gt (calculate_i_curvature p2 p3 p4 p5 p6) (ofInt 2) = false) := by
  refine ⟨s.m_points_buffer[i - 2], s.m_points_buffer[i - 1], s.m_points_buffer[i],
    s.m_points_buffer[i + 1], s.m_points_buffer[i + 2], _, _,
    fetch_point_some s (by omega), fetch_point_some s (by omega), fetch_point_some s (by omega),
    fetch_point_some s (by omega), fetch_point_some s hi,
    calculate_class_inner s hN h2 hi, rfl, ?_, ?_, ?_⟩
  all_goals
    simp only [classOf]
    split_ifs <;> simp_all

/-- C8, amended. After any sequence of `on_trace_diff_available` calls the object satisfies
`m_segment_begin_index ≤ m_offset`. -/
theorem segment_begin_le_offset (tol : F) (g0 g1 : Point2 F) (chunks : List (Trace F))
    (h : (joinChunks chunks).samples.length < SIZE_MOD) :
    ∃ s, feed (InputSmoothing.new tol g0 g1) chunks = some s ∧
      s.m_segment_begin_index ≤ s.m_offset := by
  obtain ⟨s, e, hs, -⟩ := feed_inv chunks _ (inv_new tol g0 g1)
    (by simpa [InputSmoothing.new] using h)
  exact ⟨s, e, hs.2.2.2⟩

/-- C9. Each call of `on_trace_diff_available`, after any sequence of earlier calls,
returns with `m_offset` at least what it was before the call and at most the length of the
buffer after the call. -/
theorem offset_monotone_and_bounded (tol : F) (g0 g1 : Point2 F) (chunks : List (Trace F))
    (t : Trace F) (h : (joinChunks (chunks ++ [t])).samples.length < SIZE_MOD) :
    ∃ s s1, feed (InputSmoothing.new tol g0 g1) chunks = some s ∧
      on_trace_diff_available s t = some s1 ∧
      s.m_offset ≤ s1.m_offset ∧ s1.m_offset ≤ s1.m_points_buffer.length := by
  rw [joinChunks_append_length] at h
  obtain ⟨s, e, hs, hb⟩ := feed_inv chunks _ (inv_new tol g0 g1)
    (by simp only [InputSmoothing.new, List.length_nil]; omega)
  have hl : s.m_points_buffer.length = (joinChunks chunks).samples.length := by
    simp [hb, InputSmoothing.new, Trace.points]
  obtain ⟨s1, e1, hs1, hb1⟩ := on_trace_diff_available_inv s t hs (by omega)
  refine ⟨s, s1, e, e1, ?_, ?_⟩
  · rw [hs.2.2.1, hs1.2.2.1]
    apply off_mono
    simp [hb1]
  · rw [hs1.2.2.1]
    exact off_le _

end Machine

/-! ## Evaluations on concrete strokes -/

section Concrete

open InputSmoothing

/-- Witness of C1: three chunks, the second one empty. -/
theorem chunk_boundary_invariance_witness :
    (joinChunks [chunk [pt 0 0, pt 5 0], chunk [],
        chunk [pt 10 0, pt 15 0, pt 20 5, pt 30 5]]).samples.length < SIZE_MOD ∧
      ((feed (InputSmoothing.new (XNum.fin 3 1) (pt 0 0) (pt 0 0))
          [chunk [pt 0 0, pt 5 0], chunk [],
            chunk [pt 10 0, pt 15 0, pt 20 5, pt 30 5]]).bind on_trace_end =
        (feed (InputSmoothing.new (XNum.fin 3 1) (pt 0 0) (pt 0 0))
          [joinChunks [chunk [pt 0 0, pt 5 0], chunk [],
            chunk [pt 10 0, pt 15 0, pt 20 5, pt 30 5]]]).bind on_trace_end ∧
      ((joinChunks [chunk [pt 0 0, pt 5 0], chunk [],
          chunk [pt 10 0, pt 15 0, pt 20 5, pt 30 5]]).samples ≠ [] →
        ∃ s, (feed (InputSmoothing.new (XNum.fin 3 1) (pt 0 0) (pt 0 0))
          [chunk [pt 0 0, pt 5 0], chunk [],
            chunk [pt 10 0, pt 15 0, pt 20 5, pt 30 5]]).bind on_trace_end = some s)) :=
  ⟨by decide, chunk_boundary_invariance _ _ _ _ (by decide)⟩

/-- C2. The corridor bound fails on the stroke `(0,0) (1,0) (0,100) (0,101)` given in one
chunk and ended: after the chunk the tangent line runs from `(0,0)` to `(1,0)`;
`on_trace_end` hands index `2` over as `Normal` and it is absorbed (no `emit` line follows
it), although the square of its perpendicular distance from that line exceeds `3 * 3`. -/
theorem corridor_bound_violated :
    (feed (InputSmoothing.new (XNum.fin 3 1) (pt 0 0) (pt 0 0))
        [chunk [pt 0 0, pt 1 0, pt 0 100, pt 0 101]]).map
      (fun s => (s.m_segment_begin_index, s.m_segment_tangent0, s.m_segment_tangent1, s.out)) =
      some (0, pt 0 0, pt 1 0,
        [Event.classified 0 TracePointClass.SharpEdge, Event.emit (pt 0 0),
          Event.classified 1 TracePointClass.Normal]) ∧
    ((feed (InputSmoothing.new (XNum.fin 3 1) (pt 0 0) (pt 0 0))
        [chunk [pt 0 0, pt 1 0, pt 0 100, pt 0 101]]).bind on_trace_end).map State.out =
      some [Event.classified 0 TracePointClass.SharpEdge, Event.emit (pt 0 0),
        Event.classified 1 TracePointClass.Normal, Event.classified 2 TracePointClass.Normal,
        Event.classified 3 TracePointClass.SharpEdge, Event.emit (pt 0 101)] ∧
    point_line_distance (pt 0 100) (pt 0 0) (pt 1 0) = XNum.fin 0 1 ∧
    point_line_distance_spec (pt 0 100) (pt 0 0) (pt 1 0) = XNum.fin 100 1 ∧
    gt (sqr (point_line_distance_spec (pt 0 100) (pt 0 0) (pt 1 0)))
      (sqr (ofInt 3 : XNum)) = true := by
  decide

/-- C3. `point_line_distance` is not the perpendicular distance: for the point `(5,0)` on
the line through `(0,0)` and `(1,0)` it returns `-5` where the formula of the specification
gives `0`, and for `(0,5)` it returns `0` where the formula gives `5`. -/
theorem point_line_distance_not_perpendicular :
    point_line_distance (pt 5 0) (pt 0 0) (pt 1 0) = XNum.fin (-5) 1 ∧
    point_line_distance_spec (pt 5 0) (pt 0 0) (pt 1 0) = XNum.fin 0 1 ∧
    point_line_distance (pt 0 5) (pt 0 0) (pt 1 0) = XNum.fin 0 1 ∧
    point_line_distance_spec (pt 0 5) (pt 0 0) (pt 1 0) = XNum.fin 5 1 := by
  decide

/-- C4. On the collinear stroke `(0,0) (5,0) (10,0) (15,0)`, given in one chunk and ended,
the simplifier emits all four points: the two interior points are not absorbed. -/
theorem collinear_stroke_emits_interior_points :
    ((feed (InputSmoothing.new (XNum.fin 3 1) (pt 0 0) (pt 0 0))
        [chunk [pt 0 0, pt 5 0, pt 10 0, pt 15 0]]).bind on_trace_end).map State.out =
      some [Event.classified 0 TracePointClass.SharpEdge, Event.emit (pt 0 0),
        Event.classified 1 TracePointClass.Normal, Event.emit (pt 5 0),
        Event.classified 2 TracePointClass.Normal, Event.emit (pt 10 0),
        Event.classified 3 TracePointClass.SharpEdge, Event.emit (pt 15 0)] := by
  decide

/-- C5. The tolerance given to the constructor has no effect: the objects constructed with
two tolerances are equal, and an object constructed with tolerance `10` emits the `Normal`
point `(5,0)` of the stroke `(0,0) (5,0)`, for which `d = -5` and `d * d` is greater than
`3 * 3` but not greater than `10 * 10`. -/
theorem constructor_tolerance_ignored :
    (∀ (t1 t2 : XNum) (g0 g1 : Point2 XNum),
      InputSmoothing.new t1 g0 g1 = InputSmoothing.new t2 g0 g1) ∧
    (feed (InputSmoothing.new (XNum.fin 10 1) (pt 0 0) (pt 0 0))
        [chunk [pt 0 0, pt 5 0]]).map State.out =
      some [Event.classified 0 TracePointClass.SharpEdge, Event.emit (pt 0 0),
        Event.classified 1 TracePointClass.Normal, Event.emit (pt 5 0)] ∧
    point_line_distance (pt 5 0) (pt 0 0) (pt 5 0) = XNum.fin (-5) 1 ∧
    gt (mul (XNum.fin (-5) 1) (XNum.fin (-5) 1)) (mul (XNum.fin 10 1) (XNum.fin 10 1)) = false ∧
    gt (mul (XNum.fin (-5) 1) (XNum.fin (-5) 1)) (sqr (ofInt 3 : XNum)) = true := by
  refine ⟨fun _ _ _ _ => rfl, ?_⟩
  decide

/-- C7. On strokes of one or two points the last index is handed to `process_next_point`
twice: a single point is classified and emitted by the chunk call and again by
`on_trace_end`; the second of two points is handed over as `Normal` and again as
`SharpEdge`. -/
theorem short_stroke_last_index_handed_twice :
    ((feed (InputSmoothing.new (XNum.fin 3 1) (pt 0 0) (pt 0 0))
        [chunk [pt 0 0]]).bind on_trace_end).map State.out =
      some [Event.classified 0 TracePointClass.SharpEdge, Event.emit (pt 0 0),
        Event.classified 0 TracePointClass.SharpEdge, Event.emit (pt 0 0)] ∧
    ((feed (InputSmoothing.new (XNum.fin 3 1) (pt 0 0) (pt 0 0))
        [chunk [pt 0 0, pt 1 0]]).bind on_trace_end).map State.out =
      some [Event.classified 0 TracePointClass.SharpEdge, Event.emit (pt 0 0),
        Event.classified 1 TracePointClass.Normal,
        Event.classified 1 TracePointClass.SharpEdge, Event.emit (pt 1 0)] := by
  decide

/-- C8, counterexample. After a chunk of four points and `on_trace_end`, the segment begins
at index `3` while `m_offset` is still `2`. -/
theorem segment_begin_exceeds_offset_after_end :
    ((feed (InputSmoothing.new (XNum.fin 3 1) (pt 0 0) (pt 0 0))
        [chunk [pt 0 0, pt 1 0, pt 2 0, pt 3 0]]).bind on_trace_end).map
      (fun s => (s.m_segment_begin_index, s.m_offset,
        decide (s.m_segment_begin_index ≤ s.m_offset))) = some (3, 2, false) := by
  decide

/-- Witness of C6: index `2` of a buffer of five points. -/
theorem calculate_class_rule_witness :
    (extend (InputSmoothing.new (XNum.fin 3 1) (pt 0 0) (pt 0 0))
        [pt 0 0, pt 1 0, pt 2 1, pt 3 3, pt 4 6]).m_points_buffer.length < SIZE_MOD ∧
    2 ≤ 2 ∧
    2 + 2 < (extend (InputSmoothing.new (XNum.fin 3 1) (pt 0 0) (pt 0 0))
        [pt 0 0, pt 1 0, pt 2 1, pt 3 3, pt 4 6]).m_points_buffer.length ∧
    ∃ p2 p3 p4 p5 p6 cls s1,
      fetch_point (extend (InputSmoothing.new (XNum.fin 3 1) (pt 0 0) (pt 0 0))
        [pt 0 0, pt 1 0, pt 2 1, pt 3 3, pt 4 6]) (2 - 2) = some p2 ∧
      fetch_point (extend (InputSmoothing.new (XNum.fin 3 1) (pt 0 0) (pt 0 0))
        [pt 0 0, pt 1 0, pt 2 1, pt 3 3, pt 4 6]) (2 - 1) = some p3 ∧
      fetch_point (extend (InputSmoothing.new (XNum.fin 3 1) (pt 0 0) (pt 0 0))
        [pt 0 0, pt 1 0, pt 2 1, pt 3 3, pt 4 6]) 2 = some p4 ∧
      fetch_point (extend (InputSmoothing.new (XNum.fin 3 1) (pt 0 0) (pt 0 0))
        [pt 0 0, pt 1 0, pt 2 1, pt 3 3, pt 4 6]) (2 + 1) = some p5 ∧
      fetch_point (extend (InputSmoothing.new (XNum.fin 3 1) (pt 0 0) (pt 0 0))
        [pt 0 0, pt 1 0, pt 2 1, pt 3 3, pt 4 6]) (2 + 2) = some p6 ∧
      calculate_class (extend (InputSmoothing.new (XNum.fin 3 1) (pt 0 0) (pt 0 0))
        [pt 0 0, pt 1 0, pt 2 1, pt 3 3, pt 4 6]) 2 = some (cls, s1) ∧
      s1.m_prev_curvature = calculate_i_curvature p2 p3 p4 p5 p6 ∧
      (cls = TracePointClass.Inflection ↔
        sign (if isnan (extend (InputSmoothing.new (XNum.fin 3 1) (pt 0 0) (pt 0 0))
            [pt 0 0, pt 1 0, pt 2 1, pt 3 3, pt 4 6]).m_prev_curvature
          then calculate_i_curvature p2 p3 p4 p5 p6
          else (extend (InputSmoothing.new (XNum.fin 3 1) (pt 0 0) (pt 0 0))
            [pt 0 0, pt 1 0, pt 2 1, pt 3 3, pt 4 6]).m_prev_curvature) ≠
          sign (calculate_i_curvature p2 p3 p4 p5 p6)) ∧
      (cls = TracePointClass.SharpEdge ↔
        sign (if isnan (extend (InputSmoothing.new (XNum.fin 3 1) (pt 0 0) (pt 0 0))
            [pt 0 0, pt 1 0, pt 2 1, pt 3 3, pt 4 6]).m_prev_curvature
          then calculate_i_curvature p2 p3 p4 p5 p6
          else (extend (InputSmoothing.new (XNum.fin 3 1) (pt 0 0) (pt 0 0))
            [pt 0 0, pt 1 0, pt 2 1, pt 3 3, pt 4 6]).m_prev_curvature) =
          sign (calculate_i_curvature p2 p3 p4 p5 p6) ∧
        gt (calculate_i_curvature p2 p3 p4 p5 p6) (ofInt 2) = true) ∧
      (cls = TracePointClass.Normal ↔
        sign (if isnan (extend (InputSmoothing.new (XNum.fin 3 1) (pt 0 0) (pt 0 0))
            [pt 0 0, pt 1 0, pt 2 1, pt 3 3, pt 4 6]).m_prev_curvature
          then calculate_i_curvature p2 p3 p4 p5 p6
          else (extend (InputSmoothing.new (XNum.fin 3 1) (pt 0 0) (pt 0 0))
            [pt 0 0, pt 1 0, pt 2 1, pt 3 3, pt 4 6]).m_prev_curvature) =
          sign (calculate_i_curvature p2 p3 p4 p5 p6) ∧
        gt (calculate_i_curvature p2 p3 p4 p5 p6) (ofInt 2) = false) :=
  ⟨by decide, by decide, by decide,
    calculate_class_rule _ 2 (by decide) (by decide) (by decide)⟩

/-- Witness of C8 (amended): a chunk of two points, then a chunk of four. -/
theorem segment_begin_le_offset_witness :
    (joinChunks [chunk [pt 0 0, pt 5 0],
        chunk [pt 10 0, pt 15 0, pt 20 5, pt 30 5]]).samples.length < SIZE_MOD ∧
    ∃ s, feed (InputSmoothing.new (XNum.fin 3 1) (pt 0 0) (pt 0 0))
        [chunk [pt 0 0, pt 5 0], chunk [pt 10 0, pt 15 0, pt 20 5, pt 30 5]] = some s ∧
      s.m_segment_begin_index ≤ s.m_offset :=
  ⟨by decide, segment_begin_le_offset _ _ _ _ (by decide)⟩

/-- Witness of C9: a chunk of three points after a chunk of two. -/
theorem offset_monotone_and_bounded_witness :
    (joinChunks ([chunk [pt 0 0, pt 5 0]] ++
        [chunk [pt 10 0, pt 15 0, pt 20 5]])).samples.length < SIZE_MOD ∧
    ∃ s s1, feed (InputSmoothing.new (XNum.fin 3 1) (pt 0 0) (pt 0 0))
        [chunk [pt 0 0, pt 5 0]] = some s ∧
      on_trace_diff_available s (chunk [pt 10 0, pt 15 0, pt 20 5]) = some s1 ∧
      s.m_offset ≤ s1.m_offset ∧ s1.m_offset ≤ s1.m_points_buffer.length :=
  ⟨by decide, offset_monotone_and_bounded _ _ _ _ _ (by decide)⟩

end Concrete

/-! ## Lists of indices and of output lines -/

section Lists

variable {F : Type}

theorem range'_glue {a b c : Nat} (hab : a ≤ b) (hbc : b ≤ c) :
    List.range' a (b - a) ++ List.range' b (c - b) = List.range' a (c - a) := by
  have h := List.range'_append_1 a (b - a) (c - b)
  have e1 : a + (b - a) = b := by omega
  have e2 : c - b + (b - a) = c - a := by omega
  rw [e1, e2] at h
  exact h

theorem handed_append (a b : List (Event F)) : handed (a ++ b) = handed a ++ handed b := by
  induction a with
  | nil => rfl
  | cons e es ih =>
    cases e with
    | classified i c => simp [handed, ih]
    | emit p => simp [handed, ih]

end Lists

/-! ## The calls of `process_next_point` -/

section Calls

variable {F : Type} [DoubleOps F]

open InputSmoothing

theorem sign_cases (x : F) : sign x = 1 ∨ sign x = -1 := by
  unfold sign
  split_ifs
  · exact Or.inl rfl
  · exact Or.inr rfl

/-- One call of `process_next_point` on an index of the buffer: it returns, keeps the
tangent invariant, appends its `index: CLASS` line to the output and, for a `Normal`
point, measures the distance from the line through the first two points of the segment. -/
theorem process_next_point_tinv (s : State F) (j : Nat) (c : TracePointClass)
    (hN : s.m_points_buffer.length < SIZE_MOD) (hj : j < s.m_points_buffer.length)
    (ht : TInv s j) (h0 : c = TracePointClass.Normal → 0 < j) :
    ∃ s1, process_next_point s j c = some s1 ∧ TInv s1 (j + 1) ∧
      (c = TracePointClass.Normal → CallOK s j) ∧
      (∃ l, s1.out = s.out ++ Event.classified j c :: l) := by
  by_cases hc : c = TracePointClass.Normal
  · subst hc
    have hj0 := h0 rfl
    rcases ht with ⟨h, -⟩ | ⟨hs, ht0, ht1⟩
    · omega
    have hsub : szSub j s.m_segment_begin_index = j - s.m_segment_begin_index :=
      szSub_of_le (by omega) (by omega)
    unfold process_next_point
    simp only [ne_eq, not_true_eq_false, if_false, hsub, fetch_point,
      List.getElem?_eq_getElem hj, Option.bind_eq_bind]
    by_cases h1 : j - s.m_segment_begin_index = 1
    · have hj1 : j = s.m_segment_begin_index + 1 := by omega
      simp only [h1, if_true, Option.map_some', Option.some_bind]
      simp only [List.getElem?_eq_getElem hj, Option.some_bind]
      have hcall : CallOK s j := by
        refine ⟨hs, s.m_segment_tangent0, s.m_points_buffer[j], ?_, ?_, ?_⟩
        · simp [tangent_used, hsub, h1, fetch_point, List.getElem?_eq_getElem hj]
        · exact ht0
        · simp [fetch_point, ← hj1, List.getElem?_eq_getElem hj]
      split_ifs
      · refine ⟨_, rfl, ?_, fun _ => hcall, ⟨[Event.emit s.m_points_buffer[j]], by simp⟩⟩
        right
        simp [List.getElem?_eq_getElem hj]
      · refine ⟨_, rfl, ?_, fun _ => hcall, ⟨[], by simp⟩⟩
        right
        refine ⟨by simp; omega, by simpa using ht0, ?_⟩
        intro _
        simp [← hj1, List.getElem?_eq_getElem hj]
    · have hj2 : s.m_segment_begin_index + 1 < j := by omega
      simp only [h1, if_false, Option.some_bind]
      simp only [List.getElem?_eq_getElem hj, Option.some_bind]
      have hcall : CallOK s j := by
        refine ⟨hs, s.m_segment_tangent0, s.m_segment_tangent1, ?_, ?_, ?_⟩
        · simp [tangent_used, hsub, h1]
        · exact ht0
        · exact ht1 hj2
      split_ifs
      · refine ⟨_, rfl, ?_, fun _ => hcall, ⟨[Event.emit s.m_points_buffer[j]], by simp⟩⟩
        right
        simp [List.getElem?_eq_getElem hj]
      · refine ⟨_, rfl, ?_, fun _ => hcall, ⟨[], by simp⟩⟩
        right
        exact ⟨by simp; omega, by simpa using ht0, fun _ => by simpa using ht1 hj2⟩
  · unfold process_next_point
    simp only [ne_eq, hc, not_false_eq_true, if_true, fetch_point,
      List.getElem?_eq_getElem hj, Option.bind_eq_bind, Option.some_bind]
    split_ifs
    · refine ⟨_, rfl, ?_, fun h => h.elim, ⟨[Event.emit s.m_points_buffer[j]], by simp⟩⟩
      right
      simp [List.getElem?_eq_getElem hj]
    · refine ⟨_, rfl, ?_, fun h => h.elim, ⟨[Event.emit s.m_points_buffer[j]], by simp⟩⟩
      right
      simp [List.getElem?_eq_getElem hj]

theorem diff_loopT_fst (n : Nat) : ∀ (i : Nat) (s : State F),
    (diff_loopT n i s).map Prod.fst = diff_loop n i s := by
  induction n with
  | zero =>
    intro i s
    rfl
  | succ n ih =>
    intro i s
    rw [diff_loopT, diff_loop]
    split_ifs
    · cases calculate_class s i with
      | none => rfl
      | some r =>
        simp only [Option.some_bind]
        cases process_next_point r.2 i r.1 with
        | none => rfl
        | some s2 =>
          simp only [Option.some_bind, Option.map_map, ← ih]
          rfl
    · cases can_be_calculated_later s i with
      | none => rfl
      | some later =>
        simp only [Option.some_bind]
        split_ifs
        · cases process_next_point s i TracePointClass.Normal with
          | none => rfl
          | some s2 =>
            simp only [Option.some_bind, Option.map_map, ← ih]
            rfl
        · rfl

theorem on_trace_diff_availableT_fst (s : State F) (t : Trace F) :
    (on_trace_diff_availableT s t).map Prod.fst = on_trace_diff_available s t := by
  unfold on_trace_diff_availableT on_trace_diff_available
  split_ifs
  · rfl
  · exact diff_loopT_fst _ _ _

theorem feedT_fst (chunks : List (Trace F)) : ∀ (s : State F),
    (feedT s chunks).map Prod.fst = feed s chunks := by
  induction chunks with
  | nil =>
    intro s
    rfl
  | cons t ts ih =>
    intro s
    rw [feedT, feed, ← on_trace_diff_availableT_fst]
    cases on_trace_diff_availableT s t with
    | none => rfl
    | some q =>
      simp only [Option.some_bind, Option.map_some', Option.map_map, ← ih]
      rfl

theorem end_loopT_fst (n : Nat) : ∀ (i : Nat) (s : State F),
    (end_loopT n i s).map Prod.fst = end_loop n i s := by
  induction n with
  | zero =>
    intro i s
    rfl
  | succ n ih =>
    intro i s
    rw [end_loopT, end_loop]
    cases process_next_point s i TracePointClass.Normal with
    | none => rfl
    | some s1 =>
      simp only [Option.some_bind, Option.map_map, ← ih]
      rfl

theorem on_trace_endT_fst (s : State F) :
    (on_trace_endT s).map Prod.fst = on_trace_end s := by
  unfold on_trace_endT on_trace_end
  simp only [← end_loopT_fst]
  cases end_loopT (szSub s.m_points_buffer.length 1 - s.m_offset) s.m_offset s with
  | none => rfl
  | some q =>
    simp only [Option.some_bind, Option.map_some', Option.map_map]
    cases process_next_point q.1 (szSub s.m_points_buffer.length 1) TracePointClass.SharpEdge <;>
      rfl

/-- The instrumented run ends in the state that the methods themselves produce. -/
theorem run_fst (tol : F) (g0 g1 : Point2 F) (chunks : List (Trace F)) (withEnd : Bool) :
    (run tol g0 g1 chunks withEnd).map Prod.fst =
      (feed (InputSmoothing.new tol g0 g1) chunks).bind fun s =>
        if withEnd then on_trace_end s else some s := by
  unfold run
  rw [← feedT_fst]
  cases feedT (InputSmoothing.new tol g0 g1) chunks with
  | none => rfl
  | some q =>
    simp only [Option.some_bind, Option.map_some']
    cases withEnd with
    | false => rfl
    | true =>
      simp only [if_true, ← on_trace_endT_fst, Option.map_map]
      rfl

/-- One iteration of the loop at an index that is processed, with the call it makes. -/
theorem diff_loopT_step (n : Nat) (s : State F) {i : Nat}
    (hN : s.m_points_buffer.length < SIZE_MOD) (hi : i < off s.m_points_buffer.length) :
    ∃ pre cls forced s2, process_next_point pre i cls = some s2 ∧
      diff_loopT (n + 1) i s =
        (diff_loopT n (i + 1) (bump s2)).map (fun q => (q.1, ⟨pre, i, cls, forced⟩ :: q.2)) ∧
      pre.m_points_buffer = s.m_points_buffer ∧
      pre.m_segment_begin_index = s.m_segment_begin_index ∧
      pre.m_segment_tangent0 = s.m_segment_tangent0 ∧
      pre.m_segment_tangent1 = s.m_segment_tangent1 ∧
      pre.out = s.out ∧ pre.m_offset = s.m_offset ∧
      (forced = true ↔ i = 1) ∧ (forced = true → cls = TracePointClass.Normal) ∧
      (cls = TracePointClass.Normal → 0 < i) := by
  rw [lt_off_iff] at hi
  have hc := can_be_calculated_now_eq s hN (by omega : i < s.m_points_buffer.length)
  by_cases h1 : i = 1
  · subst h1
    have hc1 : can_be_calculated_now s 1 = false := by
      rw [hc]
      simp
    obtain ⟨s2, e, -⟩ := process_next_point_some s 1 TracePointClass.Normal (by omega)
    refine ⟨s, TracePointClass.Normal, true, s2, e, ?_, rfl, rfl, rfl, rfl, rfl, rfl,
      by simp, fun _ => rfl, fun _ => by omega⟩
    rw [diff_loopT]
    simp only [hc1, can_be_calculated_later, points_before_count]
    simp [e, bump]
  · have hc1 : can_be_calculated_now s i = true := by
      rw [hc]
      simp
      omega
    have hi2 : i = 0 ∨ (2 ≤ i ∧ i + 2 < s.m_points_buffer.length) := by omega
    rcases hi2 with rfl | ⟨h2, h3⟩
    · obtain ⟨s2, e, -⟩ := process_next_point_some s 0 TracePointClass.SharpEdge (by omega)
      refine ⟨s, TracePointClass.SharpEdge, false, s2, e, ?_, rfl, rfl, rfl, rfl, rfl, rfl,
        by simp, fun h => by simp at h, fun h => by simp at h⟩
      rw [diff_loopT]
      simp only [hc1, if_true, calculate_class_zero, Option.some_bind, e]
      rfl
    · obtain ⟨s2, e, -⟩ := process_next_point_some
        { s with
          m_prev_curvature := calculate_i_curvature s.m_points_buffer[i - 2]
            s.m_points_buffer[i - 1] s.m_points_buffer[i] s.m_points_buffer[i + 1]
            s.m_points_buffer[i + 2]
          m_curvature := s.m_curvature.set i (calculate_i_curvature s.m_points_buffer[i - 2]
            s.m_points_buffer[i - 1] s.m_points_buffer[i] s.m_points_buffer[i + 1]
            s.m_points_buffer[i + 2]) } i
        (classOf s.m_prev_curvature s.m_points_buffer[i - 2] s.m_points_buffer[i - 1]
          s.m_points_buffer[i] s.m_points_buffer[i + 1] s.m_points_buffer[i + 2])
        (by simp; omega)
      refine ⟨_, _, false, s2, e, ?_, rfl, rfl, rfl, rfl, rfl, rfl,
        by simp; omega, fun h => by simp at h, fun _ => by omega⟩
      rw [diff_loopT]
      simp only [hc1, if_true, calculate_class_inner s hN h2 h3, Option.some_bind, e]
      rfl

theorem diff_loopT_break (n : Nat) (s : State F) (hN : s.m_points_buffer.length < SIZE_MOD)
    (h3 : 3 ≤ s.m_points_buffer.length) :
    diff_loopT n (off s.m_points_buffer.length) s = some (s, []) := by
  cases n with
  | zero => rfl
  | succ n =>
    have ho : 2 ≤ off s.m_points_buffer.length ∧
        off s.m_points_buffer.length < s.m_points_buffer.length ∧
        ¬ off s.m_points_buffer.length + 2 < s.m_points_buffer.length := by
      unfold off
      split_ifs <;> omega
    have hc : can_be_calculated_now s (off s.m_points_buffer.length) = false := by
      rw [can_be_calculated_now_eq s hN ho.2.1]
      simp
      omega
    rw [diff_loopT]
    simp only [hc, can_be_calculated_later, points_before_count]
    simp
    omega

theorem diff_loopT_spec (n : Nat) : ∀ (i : Nat) (s : State F),
    s.m_points_buffer.length < SIZE_MOD → i ≤ off s.m_points_buffer.length →
    i + n ≤ s.m_points_buffer.length → s.m_offset = i → TInv s i →
    ∃ s1 tr, diff_loopT n i s = some (s1, tr) ∧ s1.m_points_buffer = s.m_points_buffer ∧
      i ≤ s1.m_offset ∧ TInv s1 s1.m_offset ∧ (∃ l, s1.out = s.out ++ l) ∧
      tr.map Call.index = List.range' i (s1.m_offset - i) ∧
      ∀ c ∈ tr, GoodCall c ∧ c.pre.m_points_buffer = s.m_points_buffer := by
  induction n with
  | zero =>
    intro i s _ _ _ ho ht
    refine ⟨s, [], rfl, rfl, by omega, by rw [ho]; exact ht, ⟨[], by simp⟩, ?_, ?_⟩
    · simp [ho]
    · intro c hc
      simp at hc
  | succ n ih =>
    intro i s hN hio hin ho ht
    by_cases hlt : i < off s.m_points_buffer.length
    · obtain ⟨pre, cls, forced, s2, e, eT, hb, hsg, h0, h1, hout, hoff, hf1, hf2, hf3⟩ :=
        diff_loopT_step n s hN hlt
      have hiN : i < pre.m_points_buffer.length := by rw [hb]; omega
      have htpre : TInv pre i := by
        unfold TInv
        rw [hb, hsg, h0, h1]
        exact ht
      obtain ⟨s2a, ea, hta, hcall, l1, hl1⟩ :=
        process_next_point_tinv pre i cls (by rw [hb]; exact hN) hiN htpre hf3
      obtain ⟨s2b, eb, hbb, -, hob, -, -⟩ := process_next_point_some pre i cls hiN
      have e2a : s2a = s2 := Option.some.inj (ea.symm.trans e)
      have e2b : s2b = s2 := Option.some.inj (eb.symm.trans e)
      rw [e2a] at hta hl1
      rw [e2b] at hbb hob
      have hbump : (bump s2).m_points_buffer = s.m_points_buffer := by
        simp [bump, hbb, hb]
      have hbo : (bump s2).m_offset = i + 1 := by
        simp only [bump, hob, hoff, ho]
        exact szAdd_of_lt (by omega)
      obtain ⟨s1, tr, e1, hb1, ho1, ht1, ⟨l2, hl2⟩, hidx, hall⟩ := ih (i + 1) (bump s2)
        (by rw [hbump]; exact hN) (by rw [hbump]; omega) (by rw [hbump]; omega) hbo
        (by simpa [TInv, bump] using hta)
      refine ⟨s1, ⟨pre, i, cls, forced⟩ :: tr, ?_, by rw [hb1, hbump], by omega, ht1,
        ⟨Event.classified i cls :: l1 ++ l2, ?_⟩, ?_, ?_⟩
      · rw [eT, e1]
        rfl
      · rw [hl2]
        simp [bump, hl1, hout]
      · have hlen : s1.m_offset - i = (s1.m_offset - (i + 1)) + 1 := by omega
        rw [hlen, List.range'_succ]
        simp [hidx]
      · intro c hc
        rcases List.mem_cons.mp hc with rfl | hc
        · exact ⟨⟨hiN, hf1, hf2, hcall⟩, hb⟩
        · obtain ⟨hg, hbuf⟩ := hall c hc
          exact ⟨hg, by rw [hbuf, hbump]⟩
    · have hio2 : i = off s.m_points_buffer.length := by omega
      have h3 : 3 ≤ s.m_points_buffer.length := by
        by_contra hcon
        have : off s.m_points_buffer.length = s.m_points_buffer.length := by
          unfold off
          rw [if_pos (by omega)]
        omega
      refine ⟨s, [], ?_, rfl, by omega, by rw [ho]; exact ht, ⟨[], by simp⟩, ?_, ?_⟩
      · rw [hio2]
        exact diff_loopT_break _ s hN h3
      · simp [ho]
      · intro c hc
        simp at hc

theorem tinv_extend (s : State F) (ps : List (Point2 F)) {j : Nat}
    (hj : j ≤ s.m_points_buffer.length) (ht : TInv s j) : TInv (extend s ps) j := by
  rcases ht with h | ⟨h1, h2, h3⟩
  · exact Or.inl h
  · right
    simp only [extend]
    refine ⟨h1, ?_, ?_⟩
    · rw [List.getElem?_append_left (by omega)]
      exact h2
    · intro h
      rw [List.getElem?_append_left (by omega)]
      exact h3 h

theorem tinv_new (t : F) (g0 g1 : Point2 F) :
    TInv (InputSmoothing.new t g0 g1) (InputSmoothing.new t g0 g1).m_offset :=
  Or.inl ⟨rfl, rfl⟩

/-- One call of `on_trace_diff_available` with the calls of `process_next_point` it makes:
the indices handed over are those from the old `m_offset` up to the new one, in order. -/
theorem on_trace_diff_availableT_spec (s : State F) (t : Trace F) (hs : Inv s)
    (ht : TInv s s.m_offset)
    (hN : s.m_points_buffer.length + t.samples.length < SIZE_MOD) :
    ∃ s1 tr, on_trace_diff_availableT s t = some (s1, tr) ∧ Inv s1 ∧ TInv s1 s1.m_offset ∧
      s1.m_points_buffer = s.m_points_buffer ++ t.points ∧ s.m_offset ≤ s1.m_offset ∧
      (∃ l, s1.out = s.out ++ l) ∧
      tr.map Call.index = List.range' s.m_offset (s1.m_offset - s.m_offset) ∧
      ∀ c ∈ tr, GoodCall c ∧ c.pre.m_points_buffer = s1.m_points_buffer := by
  by_cases hne : t.samples = []
  · refine ⟨s, [], ?_, hs, ht, ?_, le_refl _, ⟨[], by simp⟩, by simp, ?_⟩
    · simp [on_trace_diff_availableT, hne]
    · simp [Trace.points, hne]
    · intro c hc
      simp at hc
  · obtain ⟨sa, ea, hsa, hba⟩ := on_trace_diff_available_inv s t hs hN
    obtain ⟨h1, h2, h3, h4⟩ := hs
    have hl : (extend s t.points).m_points_buffer.length =
        s.m_points_buffer.length + t.samples.length := by
      simp [extend, Trace.points]
    have hle := off_le s.m_points_buffer.length
    have hmono := off_mono (Nat.le_add_right s.m_points_buffer.length t.samples.length)
    have hemp : t.samples.isEmpty = false := by
      cases hts : t.samples with
      | nil => exact absurd hts hne
      | cons a l => rfl
    have ho : (extend s t.points).m_offset = off s.m_points_buffer.length := by
      simp [extend, h3]
    have hT : on_trace_diff_availableT s t =
        diff_loopT t.samples.length (off s.m_points_buffer.length) (extend s t.points) := by
      unfold on_trace_diff_availableT
      simp only [hemp, Bool.false_eq_true, if_false]
      rw [append_trace_eq_extend s t h2, ho, szAdd_of_lt (by omega)]
      congr 1
      omega
    obtain ⟨s1, tr, e1, hb1, ho1, ht1, hout, hidx, hall⟩ := diff_loopT_spec t.samples.length
      (off s.m_points_buffer.length) (extend s t.points) (by rw [hl]; exact hN)
      (by rw [hl]; exact hmono) (by rw [hl]; omega) ho
      (tinv_extend s t.points (by omega) (by rw [← h3]; exact ht))
    have hfst := on_trace_diff_availableT_fst s t
    rw [hT, e1, ea] at hfst
    have hs1 : s1 = sa := Option.some.inj hfst
    subst hs1
    refine ⟨s1, tr, by rw [hT, e1], hsa, ht1, hba, by omega, ?_, ?_, ?_⟩
    · simpa [extend] using hout
    · rw [h3]
      exact hidx
    · intro c hc
      obtain ⟨hg, hb⟩ := hall c hc
      exact ⟨hg, by rw [hb, hb1]⟩

/-- A sequence of chunk calls with the calls of `process_next_point` they make. -/
theorem feedT_spec (chunks : List (Trace F)) : ∀ (s : State F), Inv s → TInv s s.m_offset →
    s.m_points_buffer.length + (joinChunks chunks).samples.length < SIZE_MOD →
    ∃ s1 tr, feedT s chunks = some (s1, tr) ∧ Inv s1 ∧ TInv s1 s1.m_offset ∧
      s1.m_points_buffer = s.m_points_buffer ++ (joinChunks chunks).points ∧
      s.m_offset ≤ s1.m_offset ∧ (∃ l, s1.out = s.out ++ l) ∧
      tr.map Call.index = List.range' s.m_offset (s1.m_offset - s.m_offset) ∧
      ∀ c ∈ tr, GoodCall c ∧ ∃ rest, s1.m_points_buffer = c.pre.m_points_buffer ++ rest := by
  induction chunks with
  | nil =>
    intro s hs ht _
    refine ⟨s, [], rfl, hs, ht, by simp [joinChunks, Trace.points], le_refl _, ⟨[], by simp⟩,
      by simp, ?_⟩
    intro c hc
    simp at hc
  | cons t ts ih =>
    intro s hs ht hN
    simp only [joinChunks, List.length_append] at hN
    obtain ⟨s1, tr1, e1, hs1, ht1, hb1, ho1, ⟨l1, hl1⟩, hidx1, hall1⟩ :=
      on_trace_diff_availableT_spec s t hs ht (by omega)
    have hlen1 : s1.m_points_buffer.length = s.m_points_buffer.length + t.samples.length := by
      simp [hb1, Trace.points]
    obtain ⟨s2, tr2, e2, hs2, ht2, hb2, ho2, ⟨l2, hl2⟩, hidx2, hall2⟩ :=
      ih s1 hs1 ht1 (by omega)
    refine ⟨s2, tr1 ++ tr2, ?_, hs2, ht2, ?_, by omega, ⟨l1 ++ l2, ?_⟩, ?_, ?_⟩
    · rw [feedT, e1]
      simp only [Option.some_bind, e2, Option.map_some']
    · rw [hb2, hb1]
      simp [joinChunks, Trace.points]
    · rw [hl2, hl1, List.append_assoc]
    · rw [List.map_append, hidx1, hidx2]
      exact range'_glue ho1 ho2
    · intro c hc
      rcases List.mem_append.mp hc with hc | hc
      · obtain ⟨hg, hb⟩ := hall1 c hc
        exact ⟨hg, (joinChunks ts).points, by rw [hb, hb2]⟩
      · exact hall2 c hc

theorem end_loopT_spec (n : Nat) : ∀ (i : Nat) (s : State F),
    s.m_points_buffer.length < SIZE_MOD → i + n ≤ s.m_points_buffer.length → 0 < i →
    TInv s i →
    ∃ s1 tr, end_loopT n i s = some (s1, tr) ∧ s1.m_points_buffer = s.m_points_buffer ∧
      TInv s1 (i + n) ∧
      ∀ c ∈ tr, c.forced = false ∧ c.index < c.pre.m_points_buffer.length ∧
        (c.cls = TracePointClass.Normal → CallOK c.pre c.index) ∧
        c.pre.m_points_buffer = s.m_points_buffer := by
  induction n with
  | zero =>
    intro i s _ _ _ ht
    refine ⟨s, [], rfl, rfl, ht, ?_⟩
    intro c hc
    simp at hc
  | succ n ih =>
    intro i s hN hin hi ht
    obtain ⟨s1, e1, ht1, hcall, -⟩ := process_next_point_tinv s i TracePointClass.Normal hN
      (by omega) ht (fun _ => hi)
    obtain ⟨s1b, e1b, hb1, -⟩ := process_next_point_some s i TracePointClass.Normal (by omega)
    have es : s1b = s1 := Option.some.inj (e1b.symm.trans e1)
    rw [es] at hb1
    obtain ⟨s2, tr, e2, hb2, ht2, hall⟩ := ih (i + 1) s1 (by rw [hb1]; exact hN)
      (by rw [hb1]; omega) (by omega) ht1
    refine ⟨s2, ⟨s, i, TracePointClass.Normal, false⟩ :: tr, ?_, by rw [hb2, hb1], ?_, ?_⟩
    · rw [end_loopT, e1]
      simp only [Option.some_bind, e2, Option.map_some']
    · have e : i + (n + 1) = i + 1 + n := by omega
      rw [e]
      exact ht2
    · intro c hc
      rcases List.mem_cons.mp hc with rfl | hc
      · exact ⟨rfl, by simp; omega, hcall, rfl⟩
      · obtain ⟨h1, h2, h3, h4⟩ := hall c hc
        exact ⟨h1, h2, h3, by rw [h4, hb1]⟩

theorem on_trace_endT_spec (s : State F) (hs : Inv s) (ht : TInv s s.m_offset)
    (h1 : 1 ≤ s.m_points_buffer.length) :
    ∃ s1 tr, on_trace_endT s = some (s1, tr) ∧ s1.m_points_buffer = s.m_points_buffer ∧
      ∀ c ∈ tr, c.forced = false ∧ c.index < c.pre.m_points_buffer.length ∧
        (c.cls = TracePointClass.Normal → CallOK c.pre c.index) ∧
        c.pre.m_points_buffer = s.m_points_buffer := by
  obtain ⟨hN, -, ho, -⟩ := hs
  have hle := off_le s.m_points_buffer.length
  have hpos : 0 < s.m_offset := by
    rw [ho]
    unfold off
    split_ifs <;> omega
  unfold on_trace_endT
  simp only [szSub_of_le hN h1]
  obtain ⟨s1, tr, e1, hb, -, hall⟩ := end_loopT_spec
    (s.m_points_buffer.length - 1 - s.m_offset) s.m_offset s hN (by omega) hpos ht
  obtain ⟨s2, e2, hb2, -⟩ := process_next_point_some s1 (s.m_points_buffer.length - 1)
    TracePointClass.SharpEdge (by rw [hb]; omega)
  refine ⟨s2, tr ++ [⟨s1, s.m_points_buffer.length - 1, TracePointClass.SharpEdge, false⟩],
    ?_, by rw [hb2, hb], ?_⟩
  · rw [e1]
    simp only [Option.some_bind, e2, Option.map_some']
  · intro c hc
    rcases List.mem_append.mp hc with hc | hc
    · exact hall c hc
    · simp only [List.mem_singleton] at hc
      subst hc
      exact ⟨rfl, by simp only [hb]; omega, fun h => by simp at h, hb⟩

/-- Every call of `process_next_point` in a run of a fresh object, with or without
`on_trace_end`: the force-`Normal` branch is taken at index `1` only, and for a `Normal`
point the tangent passed to `point_line_distance` joins the first two points of the
current segment. -/
theorem run_spec (tol : F) (g0 g1 : Point2 F) (chunks : List (Trace F)) (withEnd : Bool)
    (hN : (joinChunks chunks).samples.length < SIZE_MOD)
    (hne : withEnd = true → (joinChunks chunks).samples ≠ []) :
    ∃ s tr, run tol g0 g1 chunks withEnd = some (s, tr) ∧
      s.m_points_buffer = (joinChunks chunks).points ∧
      ∀ c ∈ tr, (c.forced = true → c.index = 1 ∧ c.cls = TracePointClass.Normal) ∧
        (c.cls = TracePointClass.Normal → CallOK c.pre c.index) ∧
        c.index < c.pre.m_points_buffer.length ∧
        ∃ rest, (joinChunks chunks).points = c.pre.m_points_buffer ++ rest := by
  obtain ⟨s1, tr1, e1, hs1, ht1, hb1, -, -, -, hall1⟩ := feedT_spec chunks
    (InputSmoothing.new tol g0 g1) (inv_new tol g0 g1) (tinv_new tol g0 g1)
    (by simpa [InputSmoothing.new] using hN)
  have hb1' : s1.m_points_buffer = (joinChunks chunks).points := by
    simpa [InputSmoothing.new] using hb1
  have hfeed : ∀ c ∈ tr1, (c.forced = true → c.index = 1 ∧ c.cls = TracePointClass.Normal) ∧
      (c.cls = TracePointClass.Normal → CallOK c.pre c.index) ∧
      c.index < c.pre.m_points_buffer.length ∧
      ∃ rest, (joinChunks chunks).points = c.pre.m_points_buffer ++ rest := by
    intro c hc
    obtain ⟨⟨g1, g2, g3, g4⟩, rest, hr⟩ := hall1 c hc
    exact ⟨fun h => ⟨g2.mp h, g3 h⟩, g4, g1, rest, by rw [← hb1', hr]⟩
  cases withEnd with
  | false =>
    refine ⟨s1, tr1, ?_, hb1', hfeed⟩
    simp [run, e1]
  | true =>
    have hl : 1 ≤ s1.m_points_buffer.length := by
      rw [hb1']
      simp only [Trace.points, List.length_map]
      exact List.length_pos.mpr (hne rfl)
    obtain ⟨s2, tr2, e2, hb2, hall2⟩ := on_trace_endT_spec s1 hs1 ht1 hl
    refine ⟨s2, tr1 ++ tr2, ?_, by rw [hb2, hb1'], ?_⟩
    · simp [run, e1, e2]
    · intro c hc
      rcases List.mem_append.mp hc with hc | hc
      · exact hfeed c hc
      · obtain ⟨g1, g2, g3, g4⟩ := hall2 c hc
        exact ⟨fun h => by rw [g1] at h; simp at h, g3, g2, [], by rw [g4, hb1']; simp⟩

/-- C11. For every non-empty first chunk (first sample `a`), `on_trace_diff_available`
returns and its output begins with the line handing index `0` over as `SharpEdge`,
followed by the `emit` line of the first point: index `0` is the first breakpoint,
whatever the coordinates. -/
theorem first_index_sharp_edge (tol : F) (g0 g1 : Point2 F) (a : Sample F)
    (rest : List (Sample F)) (hN : (a :: rest).length < SIZE_MOD) :
    ∃ s l, on_trace_diff_available (InputSmoothing.new tol g0 g1) ⟨a :: rest⟩ = some s ∧
      s.out = Event.classified 0 TracePointClass.SharpEdge :: Event.emit a.point :: l := by
  have hi := inv_new tol g0 g1
  have hN' : (InputSmoothing.new tol g0 g1).m_points_buffer.length +
      (⟨a :: rest⟩ : Trace F).samples.length < SIZE_MOD := by
    simpa [InputSmoothing.new] using hN
  rw [on_trace_diff_available_eq _ _ hi (by simp) hN']
  have hlen : (extend (InputSmoothing.new tol g0 g1)
      (⟨a :: rest⟩ : Trace F).points).m_points_buffer.length = rest.length + 1 := by
    simp [extend, InputSmoothing.new, Trace.points]
  have hk : off ((InputSmoothing.new tol g0 g1).m_points_buffer.length +
      (⟨a :: rest⟩ : Trace F).samples.length) -
      off (InputSmoothing.new tol g0 g1).m_points_buffer.length = (off (rest.length + 1) - 1) + 1 ∧
      off (InputSmoothing.new tol g0 g1).m_points_buffer.length = 0 ∧
      1 ≤ off (rest.length + 1) ∧ off (rest.length + 1) ≤ rest.length + 1 := by
    simp only [InputSmoothing.new, List.length_nil, List.length_cons, Nat.zero_add]
    unfold off
    split_ifs <;> omega
  simp only [List.length_cons] at hN
  rw [hk.1, hk.2.1, diff_loop_succ _ _ (by rw [hlen]; exact hN) (by rw [hlen]; omega)]
  have hz : szSub 0 0 = 0 := by decide
  have hstep : stepAt (extend (InputSmoothing.new tol g0 g1) (⟨a :: rest⟩ : Trace F).points) 0 =
      some (bump { extend (InputSmoothing.new tol g0 g1) (⟨a :: rest⟩ : Trace F).points with
        m_segment_begin_index := 0
        m_segment_tangent0 := a.point
        out := [Event.classified 0 TracePointClass.SharpEdge, Event.emit a.point] }) := by
    simp [stepAt, calculate_class_zero, process_next_point, fetch_point, extend,
      InputSmoothing.new, Trace.points, hz]
  rw [hstep]
  simp only [Option.some_bind]
  obtain ⟨s1, tr, e1, -, -, -, ⟨l, hl⟩, -, -⟩ := diff_loopT_spec (off (rest.length + 1) - 1) 1
    (bump { extend (InputSmoothing.new tol g0 g1) (⟨a :: rest⟩ : Trace F).points with
        m_segment_begin_index := 0
        m_segment_tangent0 := a.point
        out := [Event.classified 0 TracePointClass.SharpEdge, Event.emit a.point] })
    (by simpa [bump] using (by rw [hlen]; exact hN))
    (by simp only [bump]; rw [hlen]; omega)
    (by simp only [bump]; rw [hlen]; omega)
    (by simp [bump, extend, InputSmoothing.new, szAdd, SIZE_MOD])
    (Or.inr ⟨by simp [bump], by simp [bump, extend, InputSmoothing.new, Trace.points],
      fun h => by simp [bump] at h⟩)
  have hfst := diff_loopT_fst (off (rest.length + 1) - 1) 1
    (bump { extend (InputSmoothing.new tol g0 g1) (⟨a :: rest⟩ : Trace F).points with
        m_segment_begin_index := 0
        m_segment_tangent0 := a.point
        out := [Event.classified 0 TracePointClass.SharpEdge, Event.emit a.point] })
  rw [e1] at hfst
  refine ⟨s1, l, hfst.symm, ?_⟩
  rw [hl]
  simp [bump]

theorem process_next_point_handed (s : State F) (i : Nat) (c : TracePointClass)
    (h : i < s.m_points_buffer.length) :
    ∃ s1, process_next_point s i c = some s1 ∧ s1.m_points_buffer = s.m_points_buffer ∧
      handed s1.out = handed s.out ++ [(i, c)] := by
  unfold process_next_point
  simp only [fetch_point, List.getElem?_eq_getElem h]
  split_ifs <;> simp [List.getElem?_eq_getElem h] <;> (try split_ifs) <;>
    simp [handed_append, handed]

theorem end_loop_handed (n : Nat) : ∀ (i : Nat) (s : State F),
    (n ≠ 0 → i + n ≤ s.m_points_buffer.length) →
    ∃ s1, end_loop n i s = some s1 ∧ s1.m_points_buffer = s.m_points_buffer ∧
      handed s1.out =
        handed s.out ++ (List.range' i n).map (fun k => (k, TracePointClass.Normal)) := by
  induction n with
  | zero =>
    intro i s _
    exact ⟨s, rfl, rfl, by simp⟩
  | succ n ih =>
    intro i s h
    have h' := h (by omega)
    obtain ⟨s1, e1, hb, ho⟩ := process_next_point_handed s i TracePointClass.Normal (by omega)
    obtain ⟨s2, e2, hb2, ho2⟩ := ih (i + 1) s1 (by rw [hb]; omega)
    refine ⟨s2, ?_, by rw [hb2, hb], ?_⟩
    · rw [end_loop, e1]
      exact e2
    · rw [ho2, ho, List.range'_succ]
      simp

/-- C12. On a buffer of `N ≥ 1` points `on_trace_end` returns and hands to
`process_next_point` the indices `m_offset .. N - 2` in increasing order, each as `Normal`,
and then the index `N - 1` as `SharpEdge`: the lines it adds to the output are exactly
these, so the last class given to the last index is `SharpEdge`. -/
theorem on_trace_end_hands_over (s : State F) (hN : s.m_points_buffer.length < SIZE_MOD)
    (h1 : 1 ≤ s.m_points_buffer.length) :
    ∃ s1, on_trace_end s = some s1 ∧
      handed s1.out = handed s.out ++
        (List.range' s.m_offset (s.m_points_buffer.length - 1 - s.m_offset)).map
          (fun k => (k, TracePointClass.Normal)) ++
        [(s.m_points_buffer.length - 1, TracePointClass.SharpEdge)] := by
  unfold on_trace_end
  simp only [szSub_of_le hN h1]
  obtain ⟨s1, e1, hb, ho⟩ := end_loop_handed (s.m_points_buffer.length - 1 - s.m_offset)
    s.m_offset s (by omega)
  obtain ⟨s2, e2, -, ho2⟩ := process_next_point_handed s1 (s.m_points_buffer.length - 1)
    TracePointClass.SharpEdge (by rw [hb]; omega)
  refine ⟨s2, ?_, ?_⟩
  · rw [e1]
    exact e2
  · rw [ho2, ho]

/-- C13. Feature preservation: for an index `i` of the buffer and a critical class,
`process_next_point` returns, adds to the output its `index: CLASS` line and exactly one
`emit` line, that of `point(i)`, and leaves `m_segment_begin_index = i` and
`m_segment_tangent0 = point(i)`; nothing else changes, and nothing is assumed of the
segment's first index before the call. -/
theorem critical_point_emitted (s : State F) (i : Nat) (c : TracePointClass)
    (hi : i < s.m_points_buffer.length) (hc : c ≠ TracePointClass.Normal) :
    ∃ p, fetch_point s i = some p ∧
      process_next_point s i c = some { s with
        out := s.out ++ [Event.classified i c, Event.emit p]
        m_segment_begin_index := i
        m_segment_tangent0 := p } := by
  refine ⟨s.m_points_buffer[i], fetch_point_some s hi, ?_⟩
  unfold process_next_point
  simp only [fetch_point, List.getElem?_eq_getElem hi, ne_eq, hc, not_false_eq_true, if_true]
  split_ifs <;> simp

/-- C19, amended. In every sequence of `on_trace_diff_available` calls on a fresh object the
force-`Normal` branch is taken exactly for index `1`: a call of `process_next_point` comes
from that branch iff its index is `1`, it hands over `Normal`, and every stroke with at
least two points has such a call. -/
theorem force_normal_branch_at_index_one (tol : F) (g0 g1 : Point2 F)
    (chunks : List (Trace F)) (hN : (joinChunks chunks).samples.length < SIZE_MOD) :
    ∃ s tr, feedT (InputSmoothing.new tol g0 g1) chunks = some (s, tr) ∧
      (∀ c ∈ tr, (c.forced = true ↔ c.index = 1) ∧
        (c.forced = true → c.cls = TracePointClass.Normal)) ∧
      (2 ≤ (joinChunks chunks).samples.length →
        ∃ c ∈ tr, c.index = 1 ∧ c.forced = true ∧ c.cls = TracePointClass.Normal) := by
  obtain ⟨s, tr, e, hs, -, hb, -, -, hidx, hall⟩ := feedT_spec chunks
    (InputSmoothing.new tol g0 g1) (inv_new tol g0 g1) (tinv_new tol g0 g1)
    (by simpa [InputSmoothing.new] using hN)
  refine ⟨s, tr, e, fun c hc => ⟨(hall c hc).1.2.1, (hall c hc).1.2.2.1⟩, ?_⟩
  intro h2
  have hlen : s.m_points_buffer.length = (joinChunks chunks).samples.length := by
    simp [hb, InputSmoothing.new, Trace.points]
  have hoff : 2 ≤ s.m_offset := by
    rw [hs.2.2.1, hlen]
    unfold off
    split_ifs <;> omega
  have hmem : 1 ∈ tr.map Call.index := by
    rw [hidx]
    simp only [InputSmoothing.new, List.mem_range'_1]
    omega
  obtain ⟨c, hc, hci⟩ := List.mem_map.mp hmem
  have hf : c.forced = true := (hall c hc).1.2.1.mpr hci
  exact ⟨c, hc, hci, hf, (hall c hc).1.2.2.1 hf⟩

/-- C20. Tangent-line invariant: in every run of a fresh object (any chunking, with or
without `on_trace_end`), at every call of `process_next_point` for a `Normal` point at
index `i` the segment begins below `i` and the two tangent points passed to
`point_line_distance` are `point(m_segment_begin_index)` and
`point(m_segment_begin_index + 1)`. -/
theorem tangent_line_invariant (tol : F) (g0 g1 : Point2 F) (chunks : List (Trace F))
    (withEnd : Bool) (hN : (joinChunks chunks).samples.length < SIZE_MOD)
    (hne : withEnd = true → (joinChunks chunks).samples ≠ []) :
    ∃ s tr, run tol g0 g1 chunks withEnd = some (s, tr) ∧
      ∀ c ∈ tr, c.cls = TracePointClass.Normal →
        c.pre.m_segment_begin_index < c.index ∧
        ∃ t0 t1, tangent_used c.pre c.index = some (t0, t1) ∧
          fetch_point c.pre c.pre.m_segment_begin_index = some t0 ∧
          fetch_point c.pre (c.pre.m_segment_begin_index + 1) = some t1 := by
  obtain ⟨s, tr, e, -, hall⟩ := run_spec tol g0 g1 chunks withEnd hN hne
  exact ⟨s, tr, e, fun c hc hn => (hall c hc).2.1 hn⟩

end Calls

/-! ## The curvature in exact arithmetic -/

section Exact

variable {K : Type} [LinearOrderedField K] [DoubleOps K]

theorem exactArith_rat : ExactArith ℚ where
  add_eq := fun _ _ => rfl
  sub_eq := fun _ _ => rfl
  mul_eq := fun _ _ => rfl
  div_eq := fun _ _ _ => rfl
  sqrt_sq := fun x hx => by
    show Rat.sqrt (x * x) = x
    rw [Rat.sqrt_eq, abs_of_nonneg hx]
  gt_eq := fun _ _ => rfl
  ofInt_eq := fun _ => rfl

theorem sign_eq_of_exact (h : ExactArith K) (x : K) :
    sign x = if 0 < x then 1 else -1 := by
  unfold sign
  rw [h.gt_eq, h.ofInt_eq]
  simp

theorem calculate_i_curvature_exact (h : ExactArith K) (p0 p1 p2 p3 p4 : Point2 K) (r : K)
    (hr : 0 ≤ r)
    (hV : spec_dx p1 p3 * spec_dx p1 p3 + spec_dy p1 p3 * spec_dy p1 p3 = r * r)
    (hv : spec_dx p1 p3 ≠ 0 ∨ spec_dy p1 p3 ≠ 0) :
    calculate_i_curvature p0 p1 p2 p3 p4 =
      |spec_dx p1 p3 * spec_d2y p0 p2 p4 - spec_dy p1 p3 * spec_d2x p0 p2 p4| / (r * r * r) *
        ((sign (DoubleOps.div (spec_dx p1 p3) (spec_dy p1 p3)) : Int) : K) := by
  have h2 : ((2 : Int) : K) ≠ 0 := by norm_num
  have h4 : ((4 : Int) : K) ≠ 0 := by norm_num
  have hVpos : 0 < r * r := by
    rw [← hV]
    rcases hv with hx | hy
    · have := mul_self_pos.mpr hx
      have := mul_self_nonneg (spec_dy p1 p3)
      linarith
    · have := mul_self_pos.mpr hy
      have := mul_self_nonneg (spec_dx p1 p3)
      linarith
  have hr0 : r ≠ 0 := by
    intro h0
    rw [h0] at hVpos
    simp at hVpos
  have hrr : r * r ≠ 0 := ne_of_gt hVpos
  have hrrrr : r * r * (r * r) ≠ 0 := mul_ne_zero hrr hrr
  have edx : DoubleOps.div (DoubleOps.sub p3.x p1.x) (DoubleOps.ofInt 2) = spec_dx p1 p3 := by
    rw [h.ofInt_eq, h.div_eq _ _ h2, h.sub_eq]
    simp [spec_dx]
  have edy : DoubleOps.div (DoubleOps.sub p3.y p1.y) (DoubleOps.ofInt 2) = spec_dy p1 p3 := by
    rw [h.ofInt_eq, h.div_eq _ _ h2, h.sub_eq]
    simp [spec_dy]
  have ed2x : DoubleOps.div (DoubleOps.sub (DoubleOps.sub (DoubleOps.mul (DoubleOps.ofInt 2) p2.x)
      p0.x) p4.x) (DoubleOps.ofInt 4) = spec_d2x p0 p2 p4 := by
    rw [h.ofInt_eq, h.ofInt_eq, h.div_eq _ _ h4, h.sub_eq, h.sub_eq, h.mul_eq]
    simp [spec_d2x]
  have ed2y : DoubleOps.div (DoubleOps.sub (DoubleOps.sub (DoubleOps.mul (DoubleOps.ofInt 2) p2.y)
      p0.y) p4.y) (DoubleOps.ofInt 4) = spec_d2y p0 p2 p4 := by
    rw [h.ofInt_eq, h.ofInt_eq, h.div_eq _ _ h4, h.sub_eq, h.sub_eq, h.mul_eq]
    simp [spec_d2y]
  unfold calculate_i_curvature
  simp only [edx, edy, ed2x, ed2y]
  simp only [vec2d.dot, vec2d.scale, vec2d.minus, vec2d.divide, len,
    h.add_eq, h.sub_eq, h.mul_eq, hV, h.div_eq _ _ hrrrr, h.ofInt_eq]
  congr 1
  have hnn : 0 ≤ |spec_dx p1 p3 * spec_d2y p0 p2 p4 - spec_dy p1 p3 * spec_d2x p0 p2 p4| /
      (r * r * r) := by
    apply div_nonneg (abs_nonneg _)
    exact mul_nonneg (le_of_lt hVpos) hr
  rw [← h.sqrt_sq _ hnn]
  congr 1
  have hab : |spec_dx p1 p3 * spec_d2y p0 p2 p4 - spec_dy p1 p3 * spec_d2x p0 p2 p4| /
      (r * r * r) *
      (|spec_dx p1 p3 * spec_d2y p0 p2 p4 - spec_dy p1 p3 * spec_d2x p0 p2 p4| / (r * r * r)) =
      (spec_dx p1 p3 * spec_d2y p0 p2 p4 - spec_dy p1 p3 * spec_d2x p0 p2 p4) *
      (spec_dx p1 p3 * spec_d2y p0 p2 p4 - spec_dy p1 p3 * spec_d2x p0 p2 p4) /
      (r * r * r * (r * r * r)) := by
    rw [div_mul_div_comm, abs_mul_abs_self]
  rw [hab]
  have hr3 : r * r * r * (r * r * r) ≠ 0 := by
    apply mul_ne_zero <;> exact mul_ne_zero hrr hr0
  field_simp
  have hV' := hV
  generalize spec_dx p1 p3 = dx at *
  generalize spec_dy p1 p3 = dy at *
  generalize spec_d2x p0 p2 p4 = ax at *
  generalize spec_d2y p0 p2 p4 = ay at *
  have e : ((ax * (r * r) - dx * (ax * dx + ay * dy)) *
      (ax * (r * r) - dx * (ax * dx + ay * dy)) +
      (ay * (r * r) - dy * (ax * dx + ay * dy)) *
      (ay * (r * r) - dy * (ax * dx + ay * dy))) =
      (r * r) * ((dx * ay - dy * ax) * (dx * ay - dy * ax)) := by
    rw [← hV']
    ring
  rw [e]
  ring

/-- C15, amended. In exact arithmetic, for five points with `(dx, dy) ≠ (0, 0)` whose
first-derivative vector has length `r` (so that `(dx^2 + dy^2)^(3/2) = r^3`): the absolute
value of `calculate_i_curvature` is `|dx * d2y - dy * d2x| / r^3`, and when the curvature
is not zero its sign is `sign (dx / dy)`. -/
theorem curvature_magnitude_and_sign (h : ExactArith K) (p0 p1 p2 p3 p4 : Point2 K) (r : K)
    (hr : 0 ≤ r)
    (hV : spec_dx p1 p3 * spec_dx p1 p3 + spec_dy p1 p3 * spec_dy p1 p3 = r * r)
    (hv : spec_dx p1 p3 ≠ 0 ∨ spec_dy p1 p3 ≠ 0) :
    |calculate_i_curvature p0 p1 p2 p3 p4| =
        |spec_dx p1 p3 * spec_d2y p0 p2 p4 - spec_dy p1 p3 * spec_d2x p0 p2 p4| /
          (r * r * r) ∧
      (calculate_i_curvature p0 p1 p2 p3 p4 ≠ 0 →
        sign (calculate_i_curvature p0 p1 p2 p3 p4) =
          sign (DoubleOps.div (spec_dx p1 p3) (spec_dy p1 p3))) := by
  have hM : 0 ≤ |spec_dx p1 p3 * spec_d2y p0 p2 p4 - spec_dy p1 p3 * spec_d2x p0 p2 p4| /
      (r * r * r) := by
    apply div_nonneg (abs_nonneg _)
    exact mul_nonneg (mul_self_nonneg r) hr
  rw [calculate_i_curvature_exact h p0 p1 p2 p3 p4 r hr hV hv]
  generalize |spec_dx p1 p3 * spec_d2y p0 p2 p4 - spec_dy p1 p3 * spec_d2x p0 p2 p4| /
      (r * r * r) = M at hM ⊢
  rcases sign_cases (DoubleOps.div (spec_dx p1 p3) (spec_dy p1 p3)) with hs | hs
  · rw [hs]
    simp only [Int.cast_one, mul_one]
    refine ⟨abs_of_nonneg hM, fun hne => ?_⟩
    rw [sign_eq_of_exact h, if_pos (lt_of_le_of_ne hM (Ne.symm hne))]
  · rw [hs]
    simp only [Int.cast_neg, Int.cast_one, mul_neg, mul_one, abs_neg]
    refine ⟨abs_of_nonneg hM, fun _ => ?_⟩
    rw [sign_eq_of_exact h, if_neg (by linarith)]

end Exact

/-! ## Evaluations and witnesses for the calls, the curvature and the curvature window -/

section Concrete2

open InputSmoothing DoubleOps

/-- Witness of C11: a first chunk of three points. -/
theorem first_index_sharp_edge_witness :
    ((⟨pt 4 7, 0⟩ : Sample XNum) :: [⟨pt 5 0, 1⟩, ⟨pt 10 0, 2⟩]).length < SIZE_MOD ∧
    ∃ s l, on_trace_diff_available (InputSmoothing.new (XNum.fin 3 1) (pt 0 0) (pt 0 0))
        ⟨(⟨pt 4 7, 0⟩ : Sample XNum) :: [⟨pt 5 0, 1⟩, ⟨pt 10 0, 2⟩]⟩ = some s ∧
      s.out = Event.classified 0 TracePointClass.SharpEdge ::
        Event.emit (⟨pt 4 7, 0⟩ : Sample XNum).point :: l :=
  ⟨by decide, first_index_sharp_edge _ _ _ _ _ (by decide)⟩

/-- Witness of C12: a buffer of five points of which three are processed. -/
theorem on_trace_end_hands_over_witness :
    ({ extend (InputSmoothing.new (XNum.fin 3 1) (pt 0 0) (pt 0 0))
        [pt 0 0, pt 1 0, pt 2 1, pt 3 3, pt 4 6] with m_offset := 3 } :
        State XNum).m_points_buffer.length < SIZE_MOD ∧
    1 ≤ ({ extend (InputSmoothing.new (XNum.fin 3 1) (pt 0 0) (pt 0 0))
        [pt 0 0, pt 1 0, pt 2 1, pt 3 3, pt 4 6] with m_offset := 3 } :
        State XNum).m_points_buffer.length ∧
    ∃ s1, on_trace_end ({ extend (InputSmoothing.new (XNum.fin 3 1) (pt 0 0) (pt 0 0))
          [pt 0 0, pt 1 0, pt 2 1, pt 3 3, pt 4 6] with m_offset := 3 } : State XNum) =
        some s1 ∧
      handed s1.out = handed ({ extend (InputSmoothing.new (XNum.fin 3 1) (pt 0 0) (pt 0 0))
          [pt 0 0, pt 1 0, pt 2 1, pt 3 3, pt 4 6] with m_offset := 3 } : State XNum).out ++
        (List.range' ({ extend (InputSmoothing.new (XNum.fin 3 1) (pt 0 0) (pt 0 0))
            [pt 0 0, pt 1 0, pt 2 1, pt 3 3, pt 4 6] with m_offset := 3 } : State XNum).m_offset
          (({ extend (InputSmoothing.new (XNum.fin 3 1) (pt 0 0) (pt 0 0))
            [pt 0 0, pt 1 0, pt 2 1, pt 3 3, pt 4 6] with m_offset := 3 } :
            State XNum).m_points_buffer.length - 1 -
            ({ extend (InputSmoothing.new (XNum.fin 3 1) (pt 0 0) (pt 0 0))
            [pt 0 0, pt 1 0, pt 2 1, pt 3 3, pt 4 6] with m_offset := 3 } :
            State XNum).m_offset)).map
          (fun k => (k, TracePointClass.Normal)) ++
        [(({ extend (InputSmoothing.new (XNum.fin 3 1) (pt 0 0) (pt 0 0))
            [pt 0 0, pt 1 0, pt 2 1, pt 3 3, pt 4 6] with m_offset := 3 } :
            State XNum).m_points_buffer.length - 1, TracePointClass.SharpEdge)] :=
  ⟨by decide, by decide, on_trace_end_hands_over _ (by decide) (by decide)⟩

/-- Witness of C13: index `1` of a buffer of three points, handed over as `Inflection`. -/
theorem critical_point_emitted_witness :
    1 < (extend (InputSmoothing.new (XNum.fin 3 1) (pt 0 0) (pt 0 0))
        [pt 0 0, pt 1 0, pt 2 1]).m_points_buffer.length ∧
    TracePointClass.Inflection ≠ TracePointClass.Normal ∧
    ∃ p, fetch_point (extend (InputSmoothing.new (XNum.fin 3 1) (pt 0 0) (pt 0 0))
        [pt 0 0, pt 1 0, pt 2 1]) 1 = some p ∧
      process_next_point (extend (InputSmoothing.new (XNum.fin 3 1) (pt 0 0) (pt 0 0))
        [pt 0 0, pt 1 0, pt 2 1]) 1 TracePointClass.Inflection =
        some { extend (InputSmoothing.new (XNum.fin 3 1) (pt 0 0) (pt 0 0))
            [pt 0 0, pt 1 0, pt 2 1] with
          out := (extend (InputSmoothing.new (XNum.fin 3 1) (pt 0 0) (pt 0 0))
            [pt 0 0, pt 1 0, pt 2 1]).out ++
            [Event.classified 1 TracePointClass.Inflection, Event.emit p]
          m_segment_begin_index := 1
          m_segment_tangent0 := p } :=
  ⟨by decide, by decide, critical_point_emitted _ 1 _ (by decide) (by decide)⟩

/-- C14, counterexample. Three strokes with a 90-degree corner at index `4` and two points
after it. On `(-24,0) (-20,0) (-16,0) (-12,0) (0,0) (0,16) (0,187)` the curvature computed
at the corner is `5/16`, not greater than `2.0`, and index `4` is handed over as `Normal`.
On `(-300,0) (-200,0) (-100,0) (-3,0) (0,0) (0,-4) (0,-75)`, which turns downwards, the
curvature is `-5` and index `4` is handed over as `Inflection`. On `(0,-300) (0,-200)
(0,-100) (0,-3) (0,0) (4,0) (75,0)` the curvature is `5`, greater than `2.0`, but the
curvature computed at index `3` is `-1/2500`, of the other sign, and index `4` is handed
over as `Inflection`. -/
theorem corner_curvature_below_threshold :
    calculate_i_curvature (pt (-16) 0) (pt (-12) 0) (pt 0 0) (pt 0 16) (pt 0 187) =
      XNum.fin 5 16 ∧
    gt (calculate_i_curvature (pt (-16) 0) (pt (-12) 0) (pt 0 0) (pt 0 16) (pt 0 187))
      (ofInt 2 : XNum) = false ∧
    (feed (InputSmoothing.new (XNum.fin 3 1) (pt 0 0) (pt 0 0))
        [chunk [pt (-24) 0, pt (-20) 0, pt (-16) 0, pt (-12) 0, pt 0 0, pt 0 16,
          pt 0 187]]).map (fun s => handed s.out) =
      some [(0, TracePointClass.SharpEdge), (1, TracePointClass.Normal),
        (2, TracePointClass.Normal), (3, TracePointClass.Inflection),
        (4, TracePointClass.Normal)] ∧
    calculate_i_curvature (pt (-100) 0) (pt (-3) 0) (pt 0 0) (pt 0 (-4)) (pt 0 (-75)) =
      XNum.fin (-5) 1 ∧
    (feed (InputSmoothing.new (XNum.fin 3 1) (pt 0 0) (pt 0 0))
        [chunk [pt (-300) 0, pt (-200) 0, pt (-100) 0, pt (-3) 0, pt 0 0, pt 0 (-4),
          pt 0 (-75)]]).map (fun s => handed s.out) =
      some [(0, TracePointClass.SharpEdge), (1, TracePointClass.Normal),
        (2, TracePointClass.Normal), (3, TracePointClass.Inflection),
        (4, TracePointClass.Inflection)] ∧
    calculate_i_curvature (pt 0 (-100)) (pt 0 (-3)) (pt 0 0) (pt 4 0) (pt 75 0) =
      XNum.fin 5 1 ∧
    gt (calculate_i_curvature (pt 0 (-100)) (pt 0 (-3)) (pt 0 0) (pt 4 0) (pt 75 0))
      (ofInt 2 : XNum) = true ∧
    calculate_i_curvature (pt 0 (-200)) (pt 0 (-100)) (pt 0 (-3)) (pt 0 0) (pt 4 0) =
      XNum.fin (-1) 2500 ∧
    (feed (InputSmoothing.new (XNum.fin 3 1) (pt 0 0) (pt 0 0))
        [chunk [pt 0 (-300), pt 0 (-200), pt 0 (-100), pt 0 (-3), pt 0 0, pt 4 0,
          pt 75 0]]).map (fun s => handed s.out) =
      some [(0, TracePointClass.SharpEdge), (1, TracePointClass.Normal),
        (2, TracePointClass.Normal), (3, TracePointClass.Normal),
        (4, TracePointClass.Inflection)] := by
  decide

/-- C15, counterexample. For the five collinear points `(-24,0) (-20,0) (-16,0) (-12,0)
(0,0)`, `dx = 4` and `dy = 0`, so `(dx, dy) ≠ (0, 0)` and `sign (dx / dy) = 1`, but the
curvature is `0`, whose sign is `-1`. -/
theorem zero_curvature_sign_differs :
    div (sub (pt (-12) 0).x (pt (-20) 0).x) (ofInt 2 : XNum) = XNum.fin 4 1 ∧
    div (sub (pt (-12) 0).y (pt (-20) 0).y) (ofInt 2 : XNum) = XNum.fin 0 1 ∧
    calculate_i_curvature (pt (-24) 0) (pt (-20) 0) (pt (-16) 0) (pt (-12) 0) (pt 0 0) =
      XNum.fin 0 1 ∧
    sign (calculate_i_curvature (pt (-24) 0) (pt (-20) 0) (pt (-16) 0) (pt (-12) 0)
      (pt 0 0)) = -1 ∧
    sign (div (div (sub (pt (-12) 0).x (pt (-20) 0).x) (ofInt 2 : XNum))
      (div (sub (pt (-12) 0).y (pt (-20) 0).y) (ofInt 2 : XNum))) = 1 := by
  decide

/-- Witness of C15 (amended): rational points with `(dx, dy) = (3/5, 4/5)`, of length `1`. -/
theorem curvature_magnitude_and_sign_witness :
    ExactArith ℚ ∧ (0 : ℚ) ≤ 1 ∧
    spec_dx (⟨0, 0⟩ : Point2 ℚ) ⟨6 / 5, 8 / 5⟩ * spec_dx (⟨0, 0⟩ : Point2 ℚ) ⟨6 / 5, 8 / 5⟩ +
      spec_dy (⟨0, 0⟩ : Point2 ℚ) ⟨6 / 5, 8 / 5⟩ * spec_dy (⟨0, 0⟩ : Point2 ℚ) ⟨6 / 5, 8 / 5⟩ =
      1 * 1 ∧
    (spec_dx (⟨0, 0⟩ : Point2 ℚ) ⟨6 / 5, 8 / 5⟩ ≠ 0 ∨
      spec_dy (⟨0, 0⟩ : Point2 ℚ) ⟨6 / 5, 8 / 5⟩ ≠ 0) ∧
    (|calculate_i_curvature (⟨0, 0⟩ : Point2 ℚ) ⟨0, 0⟩ ⟨-8 / 5, 6 / 5⟩ ⟨6 / 5, 8 / 5⟩ ⟨0, 0⟩| =
        |spec_dx (⟨0, 0⟩ : Point2 ℚ) ⟨6 / 5, 8 / 5⟩ *
            spec_d2y (⟨0, 0⟩ : Point2 ℚ) ⟨-8 / 5, 6 / 5⟩ ⟨0, 0⟩ -
          spec_dy (⟨0, 0⟩ : Point2 ℚ) ⟨6 / 5, 8 / 5⟩ *
            spec_d2x (⟨0, 0⟩ : Point2 ℚ) ⟨-8 / 5, 6 / 5⟩ ⟨0, 0⟩| / (1 * 1 * 1) ∧
      (calculate_i_curvature (⟨0, 0⟩ : Point2 ℚ) ⟨0, 0⟩ ⟨-8 / 5, 6 / 5⟩ ⟨6 / 5, 8 / 5⟩
          ⟨0, 0⟩ ≠ 0 →
        sign (calculate_i_curvature (⟨0, 0⟩ : Point2 ℚ) ⟨0, 0⟩ ⟨-8 / 5, 6 / 5⟩ ⟨6 / 5, 8 / 5⟩
          ⟨0, 0⟩) =
          sign (DoubleOps.div (spec_dx (⟨0, 0⟩ : Point2 ℚ) ⟨6 / 5, 8 / 5⟩)
            (spec_dy (⟨0, 0⟩ : Point2 ℚ) ⟨6 / 5, 8 / 5⟩)))) :=
  ⟨exactArith_rat, by norm_num, by norm_num [spec_dx, spec_dy],
    by norm_num [spec_dx, spec_dy],
    curvature_magnitude_and_sign exactArith_rat _ _ _ _ _ 1 (by norm_num)
      (by norm_num [spec_dx, spec_dy]) (by norm_num [spec_dx, spec_dy])⟩

/-- C16. On a buffer of ten points whose stored curvatures are `0, 1, ..., 9`,
`fetch_curvature_around(5, 2, 2)` reports the five values at the indices `3..7`, and the
window is clamped at both edges for `around = 0` and `around = 9`; but for
`around = 20, back_n = 2, forth_n = 2` the loop starts at `begin = 18` with `end = 10` and
its first read `m_curvature[18]` falls outside the vector. -/
theorem curvature_window_runs_off_the_buffer :
    fetch_curvature_around ({ extend (InputSmoothing.new (XNum.fin 3 1) (pt 0 0) (pt 0 0))
        (List.replicate 10 (pt 0 0)) with
        m_curvature := (List.range 10).map fun i => XNum.fin i 1 } : State XNum) 5 2 2 =
      some (3, 7, [XNum.fin 3 1, XNum.fin 4 1, XNum.fin 5 1, XNum.fin 6 1, XNum.fin 7 1]) ∧
    fetch_curvature_around ({ extend (InputSmoothing.new (XNum.fin 3 1) (pt 0 0) (pt 0 0))
        (List.replicate 10 (pt 0 0)) with
        m_curvature := (List.range 10).map fun i => XNum.fin i 1 } : State XNum) 0 2 2 =
      some (0, 2, [XNum.fin 0 1, XNum.fin 1 1, XNum.fin 2 1]) ∧
    fetch_curvature_around ({ extend (InputSmoothing.new (XNum.fin 3 1) (pt 0 0) (pt 0 0))
        (List.replicate 10 (pt 0 0)) with
        m_curvature := (List.range 10).map fun i => XNum.fin i 1 } : State XNum) 9 2 2 =
      some (7, 9, [XNum.fin 7 1, XNum.fin 8 1, XNum.fin 9 1]) ∧
    fetch_curvature_begin 20 2 = some 18 ∧
    fetch_curvature_end ({ extend (InputSmoothing.new (XNum.fin 3 1) (pt 0 0) (pt 0 0))
        (List.replicate 10 (pt 0 0)) with
        m_curvature := (List.range 10).map fun i => XNum.fin i 1 } : State XNum) 20 2 = 10 ∧
    fetch_curvature_around ({ extend (InputSmoothing.new (XNum.fin 3 1) (pt 0 0) (pt 0 0))
        (List.replicate 10 (pt 0 0)) with
        m_curvature := (List.range 10).map fun i => XNum.fin i 1 } : State XNum) 20 2 2 =
      none := by
  decide

/-- C17. The previous curvature of a fresh object is `0.0`, not NaN, so the first
curvature computed is compared with `0.0`: on the stroke `(-16,0) (-12,0) (0,0) (0,16)
(0,187)` the curvature at index `2` is `5/16`, of sign `1`, while `sign 0.0 = -1`, and
index `2` is handed over as `Inflection`. -/
theorem first_curvature_compared_with_zero :
    (InputSmoothing.new (XNum.fin 3 1) (pt 0 0) (pt 0 0)).m_prev_curvature = XNum.fin 0 1 ∧
    isnan (InputSmoothing.new (XNum.fin 3 1) (pt 0 0) (pt 0 0)).m_prev_curvature = false ∧
    calculate_i_curvature (pt (-16) 0) (pt (-12) 0) (pt 0 0) (pt 0 16) (pt 0 187) =
      XNum.fin 5 16 ∧
    (feed (InputSmoothing.new (XNum.fin 3 1) (pt 0 0) (pt 0 0))
        [chunk [pt (-16) 0, pt (-12) 0, pt 0 0, pt 0 16, pt 0 187]]).map
      (fun s => handed s.out) =
      some [(0, TracePointClass.SharpEdge), (1, TracePointClass.Normal),
        (2, TracePointClass.Inflection)] := by
  decide

/-- C18, counterexample. On the stroke `(0,0) (0,0)` the call of `process_next_point` for
the `Normal` point at index `1` passes the tangent `(0,0)..(0,0)` to
`point_line_distance`, which divides by its length `0` and returns NaN. -/
theorem repeated_point_gives_degenerate_tangent :
    (run (XNum.fin 3 1) (pt 7 7) (pt 9 9) [chunk [pt 0 0, pt 0 0]] true).map
      (fun r => r.2.map fun c => (c.index, c.cls)) =
      some [(0, TracePointClass.SharpEdge), (1, TracePointClass.Normal),
        (1, TracePointClass.SharpEdge)] ∧
    (run (XNum.fin 3 1) (pt 7 7) (pt 9 9) [chunk [pt 0 0, pt 0 0]] true).map
      (fun r => r.2.map fun c => tangent_used c.pre c.index) =
      some [some (pt 7 7, pt 9 9), some (pt 0 0, pt 0 0), some (pt 0 0, pt 0 0)] ∧
    len (vec2d.ofPoints (pt 0 0) (pt 0 0)) = XNum.fin 0 1 ∧
    point_line_distance (pt 0 0) (pt 0 0) (pt 0 0) = XNum.nan := by
  decide

/-- C19, counterexample. On the stroke `(0,0) (1,0)` index `1` is handed over as `Normal`
by the force-`Normal` branch: it cannot be calculated now and cannot be calculated later. -/
theorem force_normal_branch_reached :
    (feedT (InputSmoothing.new (XNum.fin 3 1) (pt 0 0) (pt 0 0))
        [chunk [pt 0 0, pt 1 0]]).map
      (fun r => r.2.map fun c => (c.index, c.cls, c.forced)) =
      some [(0, TracePointClass.SharpEdge, false), (1, TracePointClass.Normal, true)] ∧
    (feedT (InputSmoothing.new (XNum.fin 3 1) (pt 0 0) (pt 0 0))
        [chunk [pt 0 0, pt 1 0]]).map
      (fun r => r.2.map fun c =>
        (can_be_calculated_now c.pre c.index, can_be_calculated_later c.pre c.index)) =
      some [(true, none), (false, some false)] := by
  decide

/-- Witness of C19 (amended): six points in two chunks. -/
theorem force_normal_branch_at_index_one_witness :
    (joinChunks [chunk [pt 0 0, pt 5 0],
        chunk [pt 10 0, pt 15 0, pt 20 5, pt 30 5]]).samples.length < SIZE_MOD ∧
    ∃ s tr, feedT (InputSmoothing.new (XNum.fin 3 1) (pt 0 0) (pt 0 0))
        [chunk [pt 0 0, pt 5 0], chunk [pt 10 0, pt 15 0, pt 20 5, pt 30 5]] =
        some (s, tr) ∧
      (∀ c ∈ tr, (c.forced = true ↔ c.index = 1) ∧
        (c.forced = true → c.cls = TracePointClass.Normal)) ∧
      (2 ≤ (joinChunks [chunk [pt 0 0, pt 5 0],
          chunk [pt 10 0, pt 15 0, pt 20 5, pt 30 5]]).samples.length →
        ∃ c ∈ tr, c.index = 1 ∧ c.forced = true ∧ c.cls = TracePointClass.Normal) :=
  ⟨by decide, force_normal_branch_at_index_one _ _ _ _ (by decide)⟩

/-- Witness of C20: six points in two chunks, with `on_trace_end`. -/
theorem tangent_line_invariant_witness :
    (joinChunks [chunk [pt 0 0, pt 5 0],
        chunk [pt 10 0, pt 15 0, pt 20 5, pt 30 5]]).samples.length < SIZE_MOD ∧
    (true = true → (joinChunks [chunk [pt 0 0, pt 5 0],
        chunk [pt 10 0, pt 15 0, pt 20 5, pt 30 5]]).samples ≠ []) ∧
    ∃ s tr, run (XNum.fin 3 1) (pt 0 0) (pt 0 0) [chunk [pt 0 0, pt 5 0],
        chunk [pt 10 0, pt 15 0, pt 20 5, pt 30 5]] true = some (s, tr) ∧
      ∀ c ∈ tr, c.cls = TracePointClass.Normal →
        c.pre.m_segment_begin_index < c.index ∧
        ∃ t0 t1, tangent_used c.pre c.index = some (t0, t1) ∧
          fetch_point c.pre c.pre.m_segment_begin_index = some t0 ∧
          fetch_point c.pre (c.pre.m_segment_begin_index + 1) = some t1 :=
  ⟨by decide, by decide, tangent_line_invariant _ _ _ _ true (by decide) (by decide)⟩

end Concrete2


section Processed

variable {F : Type} [DoubleOps F]

open DoubleOps InputSmoothing

/-- The `index: CLASS` lines written by the loop of `on_trace_diff_available` are those of
the calls of `process_next_point` it makes, in order. -/
theorem diff_loopT_handed (n : Nat) : ∀ (i : Nat) (s : State F),
    s.m_points_buffer.length < SIZE_MOD → i ≤ off s.m_points_buffer.length →
    i + n ≤ s.m_points_buffer.length → ∀ s1 tr, diff_loopT n i s = some (s1, tr) →
    handed s1.out = handed s.out ++ tr.map fun c => (c.index, c.cls) := by
  induction n with
  | zero =>
    intro i s _ _ _ s1 tr e
    rw [diff_loopT] at e
    cases e
    simp
  | succ n ih =>
    intro i s hN hio hin s1 tr e
    by_cases hlt : i < off s.m_points_buffer.length
    · obtain ⟨pre, cls, forced, s2, e2, eT, hb, -, -, -, hout, -, -, -, -⟩ :=
        diff_loopT_step n s hN hlt
      have hiN : i < pre.m_points_buffer.length := by rw [hb]; omega
      obtain ⟨s2a, ea, hba, hha⟩ := process_next_point_handed pre i cls hiN
      have e2a : s2a = s2 := Option.some.inj (ea.symm.trans e2)
      rw [e2a] at hba hha
      have hbump : (bump s2).m_points_buffer = s.m_points_buffer := by
        simp [bump, hba, hb]
      rw [eT] at e
      cases hq : diff_loopT n (i + 1) (bump s2) with
      | none =>
        rw [hq] at e
        simp at e
      | some q =>
        rw [hq] at e
        simp only [Option.map_some', Option.some.injEq, Prod.mk.injEq] at e
        obtain ⟨e1, e3⟩ := e
        have hih := ih (i + 1) (bump s2) (by rw [hbump]; exact hN) (by rw [hbump]; omega)
          (by rw [hbump]; omega) q.1 q.2 hq
        rw [← e1, ← e3, hih]
        simp [bump, hha, hout]
    · have hio2 : i = off s.m_points_buffer.length := by omega
      have h3 : 3 ≤ s.m_points_buffer.length := by
        by_contra hcon
        have : off s.m_points_buffer.length = s.m_points_buffer.length := by
          unfold off
          rw [if_pos (by omega)]
        omega
      rw [hio2, diff_loopT_break _ s hN h3] at e
      cases e
      simp

theorem on_trace_diff_availableT_handed (s : State F) (t : Trace F) (hs : Inv s)
    (hN : s.m_points_buffer.length + t.samples.length < SIZE_MOD) (s1 : State F)
    (tr : List (Call F)) (e : on_trace_diff_availableT s t = some (s1, tr)) :
    handed s1.out = handed s.out ++ tr.map fun c => (c.index, c.cls) := by
  by_cases hne : t.samples = []
  · simp [on_trace_diff_availableT, hne] at e
    obtain ⟨e1, e2⟩ := e
    rw [← e1, e2]
    simp
  · obtain ⟨h1, h2, h3, h4⟩ := hs
    have hl : (extend s t.points).m_points_buffer.length =
        s.m_points_buffer.length + t.samples.length := by
      simp [extend, Trace.points]
    have hmono := off_mono (Nat.le_add_right s.m_points_buffer.length t.samples.length)
    have hle := off_le s.m_points_buffer.length
    have hemp : t.samples.isEmpty = false := by
      cases hts : t.samples with
      | nil => exact absurd hts hne
      | cons a l => rfl
    have ho : (extend s t.points).m_offset = off s.m_points_buffer.length := by
      simp [extend, h3]
    have hT : on_trace_diff_availableT s t =
        diff_loopT t.samples.length (off s.m_points_buffer.length) (extend s t.points) := by
      unfold on_trace_diff_availableT
      simp only [hemp, Bool.false_eq_true, if_false]
      rw [append_trace_eq_extend s t h2, ho, szAdd_of_lt (by omega)]
      congr 1
      omega
    rw [hT] at e
    have h := diff_loopT_handed t.samples.length (off s.m_points_buffer.length)
      (extend s t.points) (by rw [hl]; exact hN) (by rw [hl]; exact hmono)
      (by rw [hl]; omega) s1 tr e
    simpa [extend] using h

/-- The `index: CLASS` lines written by a sequence of chunk calls are those of the calls of
`process_next_point` they make, in order. -/
theorem feedT_handed (chunks : List (Trace F)) : ∀ (s : State F), Inv s →
    TInv s s.m_offset →
    s.m_points_buffer.length + (joinChunks chunks).samples.length < SIZE_MOD →
    ∀ s1 tr, feedT s chunks = some (s1, tr) →
    handed s1.out = handed s.out ++ tr.map fun c => (c.index, c.cls) := by
  induction chunks with
  | nil =>
    intro s _ _ _ s1 tr e
    rw [feedT] at e
    cases e
    simp
  | cons t ts ih =>
    intro s hs ht hN s1 tr e
    simp only [joinChunks, List.length_append] at hN
    obtain ⟨sa, tra, ea, hsa, hta, hba, -⟩ :=
      on_trace_diff_availableT_spec s t hs ht (by omega)
    have hha := on_trace_diff_availableT_handed s t hs (by omega) sa tra ea
    have hlen1 : sa.m_points_buffer.length = s.m_points_buffer.length + t.samples.length := by
      simp [hba, Trace.points]
    rw [feedT, ea] at e
    simp only [Option.some_bind] at e
    cases hq : feedT sa ts with
    | none =>
      rw [hq] at e
      simp at e
    | some q =>
      rw [hq] at e
      simp only [Option.map_some', Option.some.injEq, Prod.mk.injEq] at e
      obtain ⟨e1, e3⟩ := e
      have hih := ih sa hsa hta (by omega) q.1 q.2 hq
      rw [← e1, ← e3, hih, hha]
      simp

end Processed

section Lookahead

variable {F : Type} [DoubleOps F]

open DoubleOps InputSmoothing

/-- C10, amended. After any sequence of `on_trace_diff_available` calls the buffer holds all
the points delivered, in order, and with `N` its length: `m_offset = N` when `N ≤ 2` and
`m_offset = max 2 (N - 2)` when `N ≥ 3`, whatever the chunking; the indices handed to
`process_next_point` (the `index: CLASS` lines written) are exactly `0, 1, ..., m_offset - 1`,
each once and in order, and every index with two points after it is among them; for `N = 1`
and for `N ≥ 3` the index `m_offset` cannot be calculated now, while for `N = 2`
`can_be_calculated_now` answers `true` at `m_offset = 2`. -/
theorem offset_and_handed_follow_lookahead (tol : F) (g0 g1 : Point2 F)
    (chunks : List (Trace F)) (h : (joinChunks chunks).samples.length < SIZE_MOD) :
    ∃ s, feed (InputSmoothing.new tol g0 g1) chunks = some s ∧
      s.m_points_buffer = (joinChunks chunks).points ∧
      (s.m_points_buffer.length ≤ 2 → s.m_offset = s.m_points_buffer.length) ∧
      (3 ≤ s.m_points_buffer.length → s.m_offset = max 2 (s.m_points_buffer.length - 2)) ∧
      (handed s.out).map Prod.fst = List.range' 0 s.m_offset ∧
      (∀ i, i + 2 < s.m_points_buffer.length → i < s.m_offset) ∧
      (1 ≤ s.m_points_buffer.length → s.m_points_buffer.length ≠ 2 →
        can_be_calculated_now s s.m_offset = false) ∧
      (s.m_points_buffer.length = 2 → can_be_calculated_now s s.m_offset = true) := by
  obtain ⟨s, tr, e, hs, -, hb, -, -, hidx, -⟩ := feedT_spec chunks
    (InputSmoothing.new tol g0 g1) (inv_new tol g0 g1) (tinv_new tol g0 g1)
    (by simpa [InputSmoothing.new] using h)
  have hh := feedT_handed chunks (InputSmoothing.new tol g0 g1) (inv_new tol g0 g1)
    (tinv_new tol g0 g1) (by simpa [InputSmoothing.new] using h) s tr e
  have hfeed : feed (InputSmoothing.new tol g0 g1) chunks = some s := by
    rw [← feedT_fst, e]
    rfl
  obtain ⟨hN, -, ho, -⟩ := hs
  refine ⟨s, hfeed, by simpa [InputSmoothing.new] using hb, ?_, ?_, ?_, ?_, ?_, ?_⟩
  · intro h2
    rw [ho, off, if_pos h2]
  · intro h3
    rw [ho]
    unfold off
    split_ifs <;> omega
  · rw [hh]
    have e0 : (InputSmoothing.new tol g0 g1).m_offset = 0 := rfl
    have e1 : (InputSmoothing.new tol g0 g1).out = [] := rfl
    rw [e0, Nat.sub_zero] at hidx
    rw [e1, ← hidx]
    simp [handed, Function.comp_def]
  · intro i hi
    rw [ho]
    unfold off
    split_ifs <;> omega
  · intro h1 h2
    by_cases h3 : 3 ≤ s.m_points_buffer.length
    · have hlt : s.m_offset < s.m_points_buffer.length ∧ 2 ≤ s.m_offset ∧
          ¬ s.m_offset + 2 < s.m_points_buffer.length := by
        rw [ho]
        unfold off
        split_ifs <;> omega
      rw [can_be_calculated_now_eq s hN hlt.1]
      simp
      omega
    · have hN1 : s.m_points_buffer.length = 1 := by omega
      have ho1 : s.m_offset = 1 := by
        rw [ho, hN1]
        rfl
      rw [ho1]
      unfold can_be_calculated_now points_before_count
      simp
  · intro h2
    have ho2 : s.m_offset = 2 := by
      rw [ho, h2]
      rfl
    rw [ho2]
    unfold can_be_calculated_now points_before_count points_after_count
    rw [h2]
    decide

/-- Witness of C10 (amended): six points in two chunks. -/
theorem offset_and_handed_follow_lookahead_witness :
    (joinChunks [chunk [pt 0 0, pt 5 0],
        chunk [pt 10 0, pt 15 0, pt 20 5, pt 30 5]]).samples.length < SIZE_MOD ∧
    ∃ s, feed (InputSmoothing.new (XNum.fin 3 1) (pt 0 0) (pt 0 0))
        [chunk [pt 0 0, pt 5 0], chunk [pt 10 0, pt 15 0, pt 20 5, pt 30 5]] = some s ∧
      s.m_points_buffer = (joinChunks [chunk [pt 0 0, pt 5 0],
        chunk [pt 10 0, pt 15 0, pt 20 5, pt 30 5]]).points ∧
      (s.m_points_buffer.length ≤ 2 → s.m_offset = s.m_points_buffer.length) ∧
      (3 ≤ s.m_points_buffer.length → s.m_offset = max 2 (s.m_points_buffer.length - 2)) ∧
      (handed s.out).map Prod.fst = List.range' 0 s.m_offset ∧
      (∀ i, i + 2 < s.m_points_buffer.length → i < s.m_offset) ∧
      (1 ≤ s.m_points_buffer.length → s.m_points_buffer.length ≠ 2 →
        can_be_calculated_now s s.m_offset = false) ∧
      (s.m_points_buffer.length = 2 → can_be_calculated_now s s.m_offset = true) :=
  ⟨by decide, offset_and_handed_follow_lookahead _ _ _ _ (by decide)⟩

/-- C10, counterexample. After one `on_trace_diff_available` call with the two points
`(0,0) (1,0)` the buffer holds `N = 2` points and `m_offset = 2`, the indices `0` and `1`
have been handed over, and `can_be_calculated_now` answers `true` at index `m_offset = 2`:
`points_before_count` is `2` and `points_after_count` is `(2 - 2) - 1`, which wraps around to
`2^64 - 1`. -/
theorem lookahead_index_computable_at_two_points :
    (feed (InputSmoothing.new (XNum.fin 3 1) (pt 0 0) (pt 0 0))
        [chunk [pt 0 0, pt 1 0]]).map
      (fun s => (s.m_points_buffer.length, s.m_offset, handed s.out)) =
      some (2, 2, [(0, TracePointClass.SharpEdge), (1, TracePointClass.Normal)]) ∧
    (feed (InputSmoothing.new (XNum.fin 3 1) (pt 0 0) (pt 0 0))
        [chunk [pt 0 0, pt 1 0]]).map
      (fun s => (points_before_count s s.m_offset, points_after_count s s.m_offset)) =
      some (2, 18446744073709551615) ∧
    (feed (InputSmoothing.new (XNum.fin 3 1) (pt 0 0) (pt 0 0))
        [chunk [pt 0 0, pt 1 0]]).map
      (fun s => can_be_calculated_now s s.m_offset) = some true := by
  decide

end Lookahead

section Tangent

variable {F : Type} [DoubleOps F]

open DoubleOps InputSmoothing

/-- C18, amended. In a run (any chunking, with or without `on_trace_end`) of a stroke in
which any two consecutive points are different and the length computed for the vector that
joins them is not zero, at every call made for a `Normal` point the two tangent points
passed to `point_line_distance` are different and the length of the vector that joins them,
by which `point_line_distance` divides, is not zero. -/
theorem tangent_length_not_zero (tol : F) (g0 g1 : Point2 F) (chunks : List (Trace F))
    (withEnd : Bool) (hN : (joinChunks chunks).samples.length < SIZE_MOD)
    (hne : withEnd = true → (joinChunks chunks).samples ≠ [])
    (hd : List.Chain' (fun p q => p ≠ q) (joinChunks chunks).points)
    (hl : List.Chain' (fun p q => len (vec2d.ofPoints p q) ≠ ofInt 0)
      (joinChunks chunks).points) :
    ∃ s tr, run tol g0 g1 chunks withEnd = some (s, tr) ∧
      ∀ c ∈ tr, c.cls = TracePointClass.Normal →
        ∃ t0 t1, tangent_used c.pre c.index = some (t0, t1) ∧ t0 ≠ t1 ∧
          len (vec2d.ofPoints t0 t1) ≠ ofInt 0 := by
  obtain ⟨s, tr, e, -, hall⟩ := run_spec tol g0 g1 chunks withEnd hN hne
  refine ⟨s, tr, e, ?_⟩
  intro c hc hn
  obtain ⟨-, hcall, -, rest, hrest⟩ := hall c hc
  obtain ⟨-, t0, t1, ht, h0, h1⟩ := hcall hn
  refine ⟨t0, t1, ht, ?_⟩
  unfold fetch_point at h0 h1
  obtain ⟨l0, e0⟩ := List.getElem?_eq_some.mp h0
  obtain ⟨l1, e1⟩ := List.getElem?_eq_some.mp h1
  have hlen : c.pre.m_segment_begin_index + 1 < (joinChunks chunks).points.length := by
    rw [hrest, List.length_append]
    omega
  have hget := List.chain'_iff_get.mp hd c.pre.m_segment_begin_index (by omega)
  have hgetl := List.chain'_iff_get.mp hl c.pre.m_segment_begin_index (by omega)
  simp only [List.get_eq_getElem] at hget hgetl
  have g0 : (joinChunks chunks).points[c.pre.m_segment_begin_index] = t0 := by
    simp only [hrest]
    rw [List.getElem_append_left l0]
    exact e0
  have g1 : (joinChunks chunks).points[c.pre.m_segment_begin_index + 1] = t1 := by
    simp only [hrest]
    rw [List.getElem_append_left l1]
    exact e1
  rw [g0, g1] at hget hgetl
  exact ⟨hget, hgetl⟩

/-- Witness of C18 (amended): six points in two chunks, with `on_trace_end`; consecutive
points are `5`, `5`, `5`, `5` and `10` apart. -/
theorem tangent_length_not_zero_witness :
    (joinChunks [chunk [pt 0 0, pt 5 0],
        chunk [pt 10 0, pt 15 0, pt 18 4, pt 28 4]]).samples.length < SIZE_MOD ∧
    (true = true → (joinChunks [chunk [pt 0 0, pt 5 0],
        chunk [pt 10 0, pt 15 0, pt 18 4, pt 28 4]]).samples ≠ []) ∧
    List.Chain' (fun p q => p ≠ q) (joinChunks [chunk [pt 0 0, pt 5 0],
        chunk [pt 10 0, pt 15 0, pt 18 4, pt 28 4]]).points ∧
    List.Chain' (fun p q => len (vec2d.ofPoints p q) ≠ (ofInt 0 : XNum))
      (joinChunks [chunk [pt 0 0, pt 5 0],
        chunk [pt 10 0, pt 15 0, pt 18 4, pt 28 4]]).points ∧
    ∃ s tr, run (XNum.fin 3 1) (pt 0 0) (pt 0 0) [chunk [pt 0 0, pt 5 0],
        chunk [pt 10 0, pt 15 0, pt 18 4, pt 28 4]] true = some (s, tr) ∧
      ∀ c ∈ tr, c.cls = TracePointClass.Normal →
        ∃ t0 t1, tangent_used c.pre c.index = some (t0, t1) ∧ t0 ≠ t1 ∧
          len (vec2d.ofPoints t0 t1) ≠ (ofInt 0 : XNum) :=
  ⟨by decide, by decide, by simp [joinChunks, chunk, Trace.points, pt],
    by
      simp only [joinChunks, chunk, Trace.points, List.map, List.append, List.nil_append,
        List.cons_append, List.chain'_cons, List.chain'_singleton, and_true]
      decide,
    tangent_length_not_zero _ _ _ _ true (by decide) (by decide)
      (by simp [joinChunks, chunk, Trace.points, pt])
      (by
        simp only [joinChunks, chunk, Trace.points, List.map, List.append, List.nil_append,
          List.cons_append, List.chain'_cons, List.chain'_singleton, and_true]
        decide)⟩

end Tangent

section CornerAlgebra

variable {K : Type} [LinearOrderedField K]

/-- Two perpendicular unit vectors have a cross product of absolute value `1`. -/
theorem abs_cross_unit (ux uy wx wy : K) (hu : ux * ux + uy * uy = 1)
    (hw : wx * wx + wy * wy = 1) (hp : ux * wx + uy * wy = 0) :
    |ux * wy - uy * wx| = 1 := by
  have hsq : (ux * wy - uy * wx) * (ux * wy - uy * wx) = 1 := by
    have e : (ux * wy - uy * wx) * (ux * wy - uy * wx) =
        (ux * ux + uy * uy) * (wx * wx + wy * wy) -
          (ux * wx + uy * wy) * (ux * wx + uy * wy) := by ring
    rw [e, hu, hw, hp]
    ring
  rcases mul_self_eq_one_iff.mp hsq with e | e
  · rw [e]
    simp
  · rw [e]
    simp

end CornerAlgebra

section Corner

variable {K : Type} [LinearOrderedField K] [DoubleOps K]

open DoubleOps InputSmoothing

/-- The curvature computed at a 90-degree corner `P`: the two points before it at the
distances `c` and `a` on the line of direction `u`, the two points after it at the distances
`b` and `d` on the line of the perpendicular direction `w`, and `ρ` the distance between the
two neighbours of `P`. -/
theorem corner_curvature_exact (h : ExactArith K) (P : Point2 K)
    (ux uy wx wy a b c d ρ : K) (hu : ux * ux + uy * uy = 1) (hw : wx * wx + wy * wy = 1)
    (hp : ux * wx + uy * wy = 0) (ha : 0 < a) (hb : 0 < b) (hc : 0 < c) (hd : 0 < d)
    (hρ : 0 ≤ ρ) (hρ2 : ρ * ρ = a * a + b * b) :
    calculate_i_curvature (along P ux uy (-c)) (along P ux uy (-a)) P (along P wx wy b)
        (along P wx wy d) =
      (a * d + b * c) / (ρ * ρ * ρ) *
        ((sign (DoubleOps.div (spec_dx (along P ux uy (-a)) (along P wx wy b))
          (spec_dy (along P ux uy (-a)) (along P wx wy b))) : Int) : K) := by
  have hV : spec_dx (along P ux uy (-a)) (along P wx wy b) *
      spec_dx (along P ux uy (-a)) (along P wx wy b) +
      spec_dy (along P ux uy (-a)) (along P wx wy b) *
      spec_dy (along P ux uy (-a)) (along P wx wy b) = ρ / 2 * (ρ / 2) := by
    have e : spec_dx (along P ux uy (-a)) (along P wx wy b) *
        spec_dx (along P ux uy (-a)) (along P wx wy b) +
        spec_dy (along P ux uy (-a)) (along P wx wy b) *
        spec_dy (along P ux uy (-a)) (along P wx wy b) =
        (a * a * (ux * ux + uy * uy) + b * b * (wx * wx + wy * wy) +
          2 * a * b * (ux * wx + uy * wy)) / 4 := by
      simp only [spec_dx, spec_dy, along]
      ring
    rw [e, hu, hw, hp]
    have e2 : ρ / 2 * (ρ / 2) = ρ * ρ / 4 := by ring
    rw [e2, hρ2]
    ring
  have hpos : 0 < ρ * ρ := by
    rw [hρ2]
    have := mul_pos ha ha
    have := mul_pos hb hb
    linarith
  have hv : spec_dx (along P ux uy (-a)) (along P wx wy b) ≠ 0 ∨
      spec_dy (along P ux uy (-a)) (along P wx wy b) ≠ 0 := by
    by_contra hcon
    push_neg at hcon
    rw [hcon.1, hcon.2] at hV
    have e2 : ρ / 2 * (ρ / 2) = ρ * ρ / 4 := by ring
    rw [e2] at hV
    linarith
  rw [calculate_i_curvature_exact h _ _ _ _ _ (ρ / 2) (by linarith) hV hv]
  congr 1
  have hx := abs_cross_unit ux uy wx wy hu hw hp
  have e : spec_dx (along P ux uy (-a)) (along P wx wy b) *
      spec_d2y (along P ux uy (-c)) P (along P wx wy d) -
      spec_dy (along P ux uy (-a)) (along P wx wy b) *
      spec_d2x (along P ux uy (-c)) P (along P wx wy d) =
      -((a * d + b * c) / 8 * (ux * wy - uy * wx)) := by
    simp only [spec_dx, spec_dy, spec_d2x, spec_d2y, along]
    ring
  have hnn : 0 ≤ (a * d + b * c) / 8 := by
    have := mul_pos ha hd
    have := mul_pos hb hc
    linarith
  rw [e, abs_neg, abs_mul, hx, mul_one, abs_of_nonneg hnn]
  have hρ0 : ρ ≠ 0 := by
    intro h0
    rw [h0] at hpos
    simp at hpos
  field_simp
  ring

/-- The curvature computed at the point before a 90-degree corner `P`: three points before
`P` at the distances `e`, `c` and `a` on the line of direction `u`, and the point after `P`
at the distance `b` on the line of the perpendicular direction `w`. -/
theorem before_corner_curvature_exact (h : ExactArith K) (P : Point2 K)
    (ux uy wx wy a b c e : K) (hu : ux * ux + uy * uy = 1) (hw : wx * wx + wy * wy = 1)
    (hp : ux * wx + uy * wy = 0) (hb : 0 < b) (hc : 0 < c) :
    calculate_i_curvature (along P ux uy (-e)) (along P ux uy (-c)) (along P ux uy (-a)) P
        (along P wx wy b) =
      b / (c * c) *
        ((sign (DoubleOps.div (spec_dx (along P ux uy (-c)) P)
          (spec_dy (along P ux uy (-c)) P)) : Int) : K) := by
  have hV : spec_dx (along P ux uy (-c)) P * spec_dx (along P ux uy (-c)) P +
      spec_dy (along P ux uy (-c)) P * spec_dy (along P ux uy (-c)) P = c / 2 * (c / 2) := by
    have e1 : spec_dx (along P ux uy (-c)) P * spec_dx (along P ux uy (-c)) P +
        spec_dy (along P ux uy (-c)) P * spec_dy (along P ux uy (-c)) P =
        c * c * (ux * ux + uy * uy) / 4 := by
      simp only [spec_dx, spec_dy, along]
      ring
    rw [e1, hu]
    ring
  have hv : spec_dx (along P ux uy (-c)) P ≠ 0 ∨ spec_dy (along P ux uy (-c)) P ≠ 0 := by
    by_contra hcon
    push_neg at hcon
    rw [hcon.1, hcon.2] at hV
    have := mul_pos hc hc
    have e2 : c / 2 * (c / 2) = c * c / 4 := by ring
    rw [e2] at hV
    linarith
  rw [calculate_i_curvature_exact h _ _ _ _ _ (c / 2) (by linarith) hV hv]
  congr 1
  have hx := abs_cross_unit ux uy wx wy hu hw hp
  have e1 : spec_dx (along P ux uy (-c)) P *
      spec_d2y (along P ux uy (-e)) (along P ux uy (-a)) (along P wx wy b) -
      spec_dy (along P ux uy (-c)) P *
      spec_d2x (along P ux uy (-e)) (along P ux uy (-a)) (along P wx wy b) =
      -(b * c / 8 * (ux * wy - uy * wx)) := by
    simp only [spec_dx, spec_dy, spec_d2x, spec_d2y, along]
    ring
  have hnn : 0 ≤ b * c / 8 := by
    have := mul_pos hb hc
    linarith
  rw [e1, abs_neg, abs_mul, hx, mul_one, abs_of_nonneg hnn]
  have hc0 : c ≠ 0 := ne_of_gt hc
  field_simp
  ring

end Corner

section Classes

variable {F : Type} [DoubleOps F]

open DoubleOps InputSmoothing

/-- The lines written by one call of `process_next_point`: the `index: CLASS` line, and for
a class other than `Normal` the breakpoint `point(index)`. -/
theorem process_next_point_out (s : State F) (i : Nat) (c : TracePointClass)
    (h : i < s.m_points_buffer.length) :
    ∃ s1 l, process_next_point s i c = some s1 ∧
      s1.out = s.out ++ Event.classified i c :: l ∧
      (c ≠ TracePointClass.Normal → l = [Event.emit s.m_points_buffer[i]]) := by
  unfold process_next_point
  simp only [fetch_point, List.getElem?_eq_getElem h]
  split_ifs <;> simp [List.getElem?_eq_getElem h] <;> split_ifs <;> simp_all

/-- One iteration of the loop at an index that `calculate_class` classifies from the five
points around it. -/
theorem diff_loopT_inner (n : Nat) (s : State F) {i : Nat}
    (hN : s.m_points_buffer.length < SIZE_MOD) (h2 : 2 ≤ i)
    (h3 : i + 2 < s.m_points_buffer.length) (q1 q2 q3 q4 q5 : Point2 F)
    (e1 : s.m_points_buffer[i - 2]? = some q1) (e2 : s.m_points_buffer[i - 1]? = some q2)
    (e3 : s.m_points_buffer[i]? = some q3) (e4 : s.m_points_buffer[i + 1]? = some q4)
    (e5 : s.m_points_buffer[i + 2]? = some q5) :
    ∃ pre s2, process_next_point pre i (classOf s.m_prev_curvature q1 q2 q3 q4 q5) = some s2 ∧
      diff_loopT (n + 1) i s =
        (diff_loopT n (i + 1) (bump s2)).map (fun q =>
          (q.1, ⟨pre, i, classOf s.m_prev_curvature q1 q2 q3 q4 q5, false⟩ :: q.2)) ∧
      pre.m_points_buffer = s.m_points_buffer ∧ pre.out = s.out ∧
      pre.m_prev_curvature = calculate_i_curvature q1 q2 q3 q4 q5 := by
  obtain ⟨_, rfl⟩ := List.getElem?_eq_some.mp e1
  obtain ⟨_, rfl⟩ := List.getElem?_eq_some.mp e2
  obtain ⟨_, rfl⟩ := List.getElem?_eq_some.mp e3
  obtain ⟨_, rfl⟩ := List.getElem?_eq_some.mp e4
  obtain ⟨_, rfl⟩ := List.getElem?_eq_some.mp e5
  have hc1 : can_be_calculated_now s i = true := by
    rw [can_be_calculated_now_eq s hN (by omega : i < s.m_points_buffer.length)]
    simp
    omega
  obtain ⟨s2, e, -⟩ := process_next_point_some
    { s with
      m_prev_curvature := calculate_i_curvature s.m_points_buffer[i - 2]
        s.m_points_buffer[i - 1] s.m_points_buffer[i] s.m_points_buffer[i + 1]
        s.m_points_buffer[i + 2]
      m_curvature := s.m_curvature.set i (calculate_i_curvature s.m_points_buffer[i - 2]
        s.m_points_buffer[i - 1] s.m_points_buffer[i] s.m_points_buffer[i + 1]
        s.m_points_buffer[i + 2]) } i
    (classOf s.m_prev_curvature s.m_points_buffer[i - 2] s.m_points_buffer[i - 1]
      s.m_points_buffer[i] s.m_points_buffer[i + 1] s.m_points_buffer[i + 2])
    (by simp; omega)
  refine ⟨_, s2, e, ?_, rfl, rfl, rfl⟩
  rw [diff_loopT]
  simp only [hc1, if_true, calculate_class_inner s hN h2 h3, Option.some_bind, e]
  rfl

/-- The calls of `process_next_point` made by the loop of `on_trace_diff_available`: what
each of them writes stays in the output, and from index `3` on the class handed over is the
one that the classification rule gives for the curvature computed at the index before and
the five points around the index. -/
theorem diff_loopT_classes (n : Nat) : ∀ (i : Nat) (s : State F),
    s.m_points_buffer.length < SIZE_MOD → i ≤ off s.m_points_buffer.length →
    i + n ≤ s.m_points_buffer.length →
    (3 ≤ i → ∀ q0 q1 q2 q3 q4, s.m_points_buffer[i - 3]? = some q0 →
      s.m_points_buffer[i - 2]? = some q1 → s.m_points_buffer[i - 1]? = some q2 →
      s.m_points_buffer[i]? = some q3 → s.m_points_buffer[i + 1]? = some q4 →
      s.m_prev_curvature = calculate_i_curvature q0 q1 q2 q3 q4) →
    ∀ s1 tr, diff_loopT n i s = some (s1, tr) →
      (∃ l, s1.out = s.out ++ l) ∧
      ∀ c ∈ tr, c.index < s.m_points_buffer.length ∧
        (∃ l0 l1 l2, s1.out = l0 ++ Event.classified c.index c.cls :: l1 ++ l2 ∧
          (c.cls ≠ TracePointClass.Normal → ∀ p, s.m_points_buffer[c.index]? = some p →
            l1 = [Event.emit p])) ∧
        (3 ≤ c.index → ∀ q0 q1 q2 q3 q4 q5, s.m_points_buffer[c.index - 3]? = some q0 →
          s.m_points_buffer[c.index - 2]? = some q1 →
          s.m_points_buffer[c.index - 1]? = some q2 →
          s.m_points_buffer[c.index]? = some q3 →
          s.m_points_buffer[c.index + 1]? = some q4 →
          s.m_points_buffer[c.index + 2]? = some q5 →
          c.cls = classOf (calculate_i_curvature q0 q1 q2 q3 q4) q1 q2 q3 q4 q5) := by
  induction n with
  | zero =>
    intro i s _ _ _ _ s1 tr e
    rw [diff_loopT] at e
    cases e
    refine ⟨⟨[], by simp⟩, ?_⟩
    intro c hc
    simp at hc
  | succ n ih =>
    intro i s hN hio hin hprev s1 tr e
    by_cases hlt : i < off s.m_points_buffer.length
    · have hlt2 := (lt_off_iff _ _).mp hlt
      have hiN : i < s.m_points_buffer.length := by omega
      -- the step, with what it hands over
      have hstep : ∃ pre cls forced s2, process_next_point pre i cls = some s2 ∧
          diff_loopT (n + 1) i s =
            (diff_loopT n (i + 1) (bump s2)).map
              (fun q => (q.1, ⟨pre, i, cls, forced⟩ :: q.2)) ∧
          pre.m_points_buffer = s.m_points_buffer ∧ pre.out = s.out ∧
          (2 ≤ i → ∀ q1 q2 q3 q4 q5, s.m_points_buffer[i - 2]? = some q1 →
            s.m_points_buffer[i - 1]? = some q2 → s.m_points_buffer[i]? = some q3 →
            s.m_points_buffer[i + 1]? = some q4 → s.m_points_buffer[i + 2]? = some q5 →
            pre.m_prev_curvature = calculate_i_curvature q1 q2 q3 q4 q5 ∧
            cls = classOf s.m_prev_curvature q1 q2 q3 q4 q5) := by
        by_cases h2 : 2 ≤ i
        · have h3 : i + 2 < s.m_points_buffer.length := by omega
          obtain ⟨pre, s2, e2, eT, hb, hout, hpc⟩ := diff_loopT_inner n s hN h2 h3
            s.m_points_buffer[i - 2] s.m_points_buffer[i - 1] s.m_points_buffer[i]
            s.m_points_buffer[i + 1] s.m_points_buffer[i + 2]
            (List.getElem?_eq_getElem _) (List.getElem?_eq_getElem _)
            (List.getElem?_eq_getElem _) (List.getElem?_eq_getElem _)
            (List.getElem?_eq_getElem _)
          refine ⟨pre, _, false, s2, e2, eT, hb, hout, ?_⟩
          intro _ q1 q2 q3 q4 q5 e1 e2 e3 e4 e5
          rw [List.getElem?_eq_getElem (by omega)] at e1 e2 e3 e4 e5
          cases e1
          cases e2
          cases e3
          cases e4
          cases e5
          exact ⟨hpc, rfl⟩
        · obtain ⟨pre, cls, forced, s2, e2, eT, hb, -, -, -, hout, -⟩ :=
            diff_loopT_step n s hN hlt
          exact ⟨pre, cls, forced, s2, e2, eT, hb, hout, fun h => absurd h h2⟩
      obtain ⟨pre, cls, forced, s2, e2, eT, hb, hout, hcls⟩ := hstep
      have hiP : i < pre.m_points_buffer.length := by rw [hb]; exact hiN
      obtain ⟨s2a, ea, hba, -, -, hpa, -⟩ := process_next_point_some pre i cls hiP
      obtain ⟨s2b, l1, eb, hob, hlb⟩ := process_next_point_out pre i cls hiP
      have e2a : s2a = s2 := Option.some.inj (ea.symm.trans e2)
      have e2b : s2b = s2 := Option.some.inj (eb.symm.trans e2)
      rw [e2a] at hba hpa
      rw [e2b] at hob
      have hbump : (bump s2).m_points_buffer = s.m_points_buffer := by
        simp [bump, hba, hb]
      rw [eT] at e
      cases hq : diff_loopT n (i + 1) (bump s2) with
      | none =>
        rw [hq] at e
        simp at e
      | some q =>
        rw [hq] at e
        simp only [Option.map_some', Option.some.injEq, Prod.mk.injEq] at e
        obtain ⟨es, et⟩ := e
        have hprev2 : 3 ≤ i + 1 → ∀ q0 q1 q2 q3 q4,
            (bump s2).m_points_buffer[i + 1 - 3]? = some q0 →
            (bump s2).m_points_buffer[i + 1 - 2]? = some q1 →
            (bump s2).m_points_buffer[i + 1 - 1]? = some q2 →
            (bump s2).m_points_buffer[i + 1]? = some q3 →
            (bump s2).m_points_buffer[i + 1 + 1]? = some q4 →
            (bump s2).m_prev_curvature = calculate_i_curvature q0 q1 q2 q3 q4 := by
          intro h3 q0 q1 q2 q3 q4 f0 f1 f2 f3 f4
          have a0 : i + 1 - 3 = i - 2 := by omega
          have a1 : i + 1 - 2 = i - 1 := by omega
          have a2 : i + 1 - 1 = i := by omega
          rw [hbump] at f0 f1 f2 f3 f4
          rw [a0] at f0
          rw [a1] at f1
          rw [a2] at f2
          have hp := (hcls (by omega) q0 q1 q2 q3 q4 f0 f1 f2 f3 f4).1
          simp only [bump]
          rw [hpa, hp]
        obtain ⟨⟨l2, hl2⟩, hall⟩ := ih (i + 1) (bump s2) (by rw [hbump]; exact hN)
          (by rw [hbump]; omega) (by rw [hbump]; omega) hprev2 q.1 q.2 hq
        have hout1 : s1.out = s.out ++ Event.classified i cls :: l1 ++ l2 := by
          rw [← es, hl2]
          simp [bump, hob, hout]
        refine ⟨⟨Event.classified i cls :: l1 ++ l2, by rw [hout1]; simp⟩, ?_⟩
        intro c hc
        rw [← et] at hc
        rcases List.mem_cons.mp hc with rfl | hc
        · refine ⟨hiN, ⟨s.out, l1, l2, hout1, ?_⟩, ?_⟩
          · intro hn p hp
            rw [hlb hn]
            simp only [hb] at hp ⊢
            rw [List.getElem?_eq_getElem hiN] at hp
            cases hp
            rfl
          · intro h3 q0 q1 q2 q3 q4 q5 f0 f1 f2 f3 f4 f5
            simp only at f0 f1 f2 f3 f4 f5 h3 ⊢
            rw [(hcls (by omega) q1 q2 q3 q4 q5 f1 f2 f3 f4 f5).2,
              hprev h3 q0 q1 q2 q3 q4 f0 f1 f2 f3 f4]
        · obtain ⟨hlen, ⟨l0, m1, m2, ho, hm⟩, hcl⟩ := hall c hc
          rw [hbump] at hlen hm hcl
          rw [es] at ho
          exact ⟨hlen, ⟨l0, m1, m2, ho, hm⟩, hcl⟩
    · have hio2 : i = off s.m_points_buffer.length := by omega
      have h3 : 3 ≤ s.m_points_buffer.length := by
        by_contra hcon
        have : off s.m_points_buffer.length = s.m_points_buffer.length := by
          unfold off
          rw [if_pos (by omega)]
        omega
      rw [hio2, diff_loopT_break _ s hN h3] at e
      cases e
      refine ⟨⟨[], by simp⟩, ?_⟩
      intro c hc
      simp at hc

end Classes

section Emitted

variable {F : Type}

theorem emitted_append (a b : List (Event F)) : emitted (a ++ b) = emitted a ++ emitted b := by
  induction a with
  | nil => rfl
  | cons e es ih =>
    cases e <;> simp [emitted, ih]

end Emitted

section OneCall

variable {F : Type} [DoubleOps F]

open DoubleOps InputSmoothing

/-- A call with a non-empty chunk appends the chunk and runs the loop from the old
`m_offset`, with one iteration for each new point at most. -/
theorem on_trace_diff_availableT_eq (s : State F) (t : Trace F) (hs : Inv s)
    (hne : t.samples ≠ [])
    (hN : s.m_points_buffer.length + t.samples.length < SIZE_MOD) :
    on_trace_diff_availableT s t =
      diff_loopT t.samples.length (off s.m_points_buffer.length) (extend s t.points) := by
  obtain ⟨h1, h2, h3, h4⟩ := hs
  have hle := off_le s.m_points_buffer.length
  have hemp : t.samples.isEmpty = false := by
    cases hts : t.samples with
    | nil => exact absurd hts hne
    | cons a l => rfl
  have ho : (extend s t.points).m_offset = off s.m_points_buffer.length := by
    simp [extend, h3]
  unfold on_trace_diff_availableT
  simp only [hemp, Bool.false_eq_true, if_false]
  rw [append_trace_eq_extend s t h2, ho, szAdd_of_lt (by omega)]
  congr 1
  omega

/-- In a run of a fresh object over a stroke, whatever the chunking, the class handed over
at an index `k ≥ 3` with two points after it is the one that the classification rule gives
for the curvature computed at `k - 1` and the five points around `k`; the `index: CLASS`
line of `k` is the `k`-th one, and for a class other than `Normal` the breakpoint
`point(k)` is emitted. -/
theorem feed_class_at (tol : F) (g0 g1 : Point2 F) (chunks : List (Trace F)) (k : Nat)
    (q0 q1 q2 q3 q4 q5 : Point2 F) (hN : (joinChunks chunks).samples.length < SIZE_MOD)
    (hk : 3 ≤ k)
    (h0 : (joinChunks chunks).points[k - 3]? = some q0)
    (h1 : (joinChunks chunks).points[k - 2]? = some q1)
    (h2 : (joinChunks chunks).points[k - 1]? = some q2)
    (h3 : (joinChunks chunks).points[k]? = some q3)
    (h4 : (joinChunks chunks).points[k + 1]? = some q4)
    (h5 : (joinChunks chunks).points[k + 2]? = some q5) :
    ∃ s, feed (InputSmoothing.new tol g0 g1) chunks = some s ∧
      (handed s.out)[k]? =
        some (k, classOf (calculate_i_curvature q0 q1 q2 q3 q4) q1 q2 q3 q4 q5) ∧
      (classOf (calculate_i_curvature q0 q1 q2 q3 q4) q1 q2 q3 q4 q5 ≠
        TracePointClass.Normal → q3 ∈ emitted s.out) := by
  have hi := inv_new tol g0 g1
  have hN0 : (InputSmoothing.new tol g0 g1).m_points_buffer.length +
      (joinChunks chunks).samples.length < SIZE_MOD := by
    simpa [InputSmoothing.new] using hN
  obtain ⟨hk5, -⟩ := List.getElem?_eq_some.mp h5
  have hlen : (joinChunks chunks).points.length = (joinChunks chunks).samples.length := by
    simp [Trace.points]
  have hne : (joinChunks chunks).samples ≠ [] := by
    intro hcon
    rw [hlen, hcon] at hk5
    simp at hk5
  obtain ⟨s1, tr, e1, hs1, -, hb1, -, -, hidx, -⟩ := on_trace_diff_availableT_spec
    (InputSmoothing.new tol g0 g1) (joinChunks chunks) hi (tinv_new tol g0 g1) hN0
  have hh := on_trace_diff_availableT_handed (InputSmoothing.new tol g0 g1)
    (joinChunks chunks) hi hN0 s1 tr e1
  have hfeed : feed (InputSmoothing.new tol g0 g1) chunks = some s1 := by
    rw [feed_eq_one_call chunks _ hi hN0, ← on_trace_diff_availableT_fst, e1]
    rfl
  have hbuf : (extend (InputSmoothing.new tol g0 g1) (joinChunks chunks).points).m_points_buffer
      = (joinChunks chunks).points := by
    simp [extend, InputSmoothing.new]
  have hb1' : s1.m_points_buffer = (joinChunks chunks).points := by
    simpa [InputSmoothing.new] using hb1
  have e2 := e1
  rw [on_trace_diff_availableT_eq _ _ hi hne hN0] at e2
  have hoff0 : off (InputSmoothing.new tol g0 g1).m_points_buffer.length = 0 := by
    simp [InputSmoothing.new, off]
  rw [hoff0] at e2
  obtain ⟨-, hall⟩ := diff_loopT_classes (joinChunks chunks).samples.length 0
    (extend (InputSmoothing.new tol g0 g1) (joinChunks chunks).points)
    (by rw [hbuf, hlen]; exact hN) (Nat.zero_le _) (by rw [hbuf, hlen]; omega)
    (fun h => by omega) s1 tr e2
  -- the call at index `k`
  have ho1 : s1.m_offset = off (joinChunks chunks).points.length := by
    rw [hs1.2.2.1, hb1']
  have hkoff : k < s1.m_offset := by
    rw [ho1, lt_off_iff]
    right
    omega
  have e0 : (InputSmoothing.new tol g0 g1).m_offset = 0 := rfl
  rw [e0, Nat.sub_zero] at hidx
  have hlt : k < tr.length := by
    have := congrArg List.length hidx
    simp at this
    omega
  have hck : (tr[k]).index = k := by
    have := congrArg (fun l => l[k]?) hidx
    simp only [List.getElem?_map, List.getElem?_eq_getElem hlt, Option.map_some'] at this
    rw [List.getElem?_range' _ _ hkoff] at this
    simpa using this
  obtain ⟨-, ⟨l0, l1, l2, hout, hem⟩, hcls⟩ := hall tr[k] (List.getElem_mem _)
  rw [hck, hbuf] at hcls hem
  have hc := hcls hk q0 q1 q2 q3 q4 q5 h0 h1 h2 h3 h4 h5
  refine ⟨s1, hfeed, ?_, ?_⟩
  · have e3 : (InputSmoothing.new tol g0 g1).out = [] := rfl
    rw [hh, e3]
    simp only [handed, List.nil_append, List.getElem?_map, List.getElem?_eq_getElem hlt,
      Option.map_some', hck, hc]
  · intro hn
    rw [← hc] at hn
    rw [hout, hem hn q3 h3]
    simp [emitted_append, emitted]

end OneCall

section CornerClass

variable {K : Type} [LinearOrderedField K] [DoubleOps K]

open DoubleOps InputSmoothing

/-- The classification rule in exact arithmetic, for a previous curvature `M' * s'` and a
curvature `M * s` with `M, M' > 0` and signs `s, s'`. -/
theorem classOf_exact (h : ExactArith K) (hnan : ∀ x : K, DoubleOps.isnan x = false)
    (prev : K) (p2 p3 p4 p5 p6 : Point2 K) (M M' : K) (s s' : Int) (hM : 0 < M)
    (hM' : 0 < M') (hs : s = 1 ∨ s = -1) (hs' : s' = 1 ∨ s' = -1)
    (hp : prev = M' * (s' : K)) (hc : calculate_i_curvature p2 p3 p4 p5 p6 = M * (s : K)) :
    (classOf prev p2 p3 p4 p5 p6 = TracePointClass.SharpEdge ↔ 2 < M ∧ s = 1 ∧ s' = 1) ∧
      (classOf prev p2 p3 p4 p5 p6 = TracePointClass.Inflection ↔ s ≠ s') := by
  have h2 : ((2 : Int) : K) = 2 := by norm_num
  unfold classOf
  simp only [hnan, hc, hp, Bool.false_eq_true, if_false, sign_eq_of_exact h, h.gt_eq,
    h.ofInt_eq, h2]
  rcases hs with rfl | rfl <;> rcases hs' with rfl | rfl
  · have e1 : (0 : K) < M' * ((1 : Int) : K) := by simpa using hM'
    have e2 : (0 : K) < M * ((1 : Int) : K) := by simpa using hM
    simp only [e1, e2, if_true]
    simp
    split_ifs <;> simp_all
  · have e1 : ¬ (0 : K) < M' * ((-1 : Int) : K) := by
      simp
      linarith
    have e2 : (0 : K) < M * ((1 : Int) : K) := by simpa using hM
    simp only [e1, e2, if_true, if_false]
    simp
  · have e1 : (0 : K) < M' * ((1 : Int) : K) := by simpa using hM'
    have e2 : ¬ (0 : K) < M * ((-1 : Int) : K) := by
      simp
      linarith
    simp only [e1, e2, if_true, if_false]
    simp
  · have e1 : ¬ (0 : K) < M' * ((-1 : Int) : K) := by
      simp
      linarith
    have e2 : ¬ (0 : K) < M * ((-1 : Int) : K) := by
      simp
      linarith
    have e4 : ¬ (2 : K) < -M := by linarith
    simp only [e1, e2, if_false]
    simp [e4]

/-- C14, amended. In exact arithmetic without NaN, take a stroke with a 90-degree corner at
an index `k ≥ 3`: the points `k - 3`, `k - 2`, `k - 1` lie at the distances `e`, `c`, `a`
before `point(k) = P` on the line of the unit direction `u`, the points `k + 1`, `k + 2` at
the distances `b`, `d` after `P` on the line of a perpendicular unit direction `w`, and `ρ`
is the distance between the points `k - 1` and `k + 1`. Then the curvature computed at `k`
has the absolute value `(a * d + b * c) / ρ^3`; whatever the chunking, the class handed over
at `k` is `SharpEdge` if and only if that value is greater than `2.0` and `sign (dx / dy)` is
`1` both for the chord from `k - 1` to `k + 1` and for the chord from `k - 2` to `k`; it is
`Inflection` if and only if the two signs differ; and for a class other than `Normal` the
breakpoint `P` is emitted. -/
theorem corner_class_by_spacing_and_direction (h : ExactArith K)
    (hnan : ∀ x : K, DoubleOps.isnan x = false) (tol : K) (g0 g1 : Point2 K)
    (chunks : List (Trace K)) (k : Nat) (P : Point2 K) (ux uy wx wy a b c d e ρ : K)
    (hN : (joinChunks chunks).samples.length < SIZE_MOD) (hk : 3 ≤ k)
    (hu : ux * ux + uy * uy = 1) (hw : wx * wx + wy * wy = 1)
    (hp : ux * wx + uy * wy = 0) (ha : 0 < a) (hb : 0 < b) (hc : 0 < c) (hd : 0 < d)
    (hρ : 0 ≤ ρ) (hρ2 : ρ * ρ = a * a + b * b)
    (h0 : (joinChunks chunks).points[k - 3]? = some (along P ux uy (-e)))
    (h1 : (joinChunks chunks).points[k - 2]? = some (along P ux uy (-c)))
    (h2 : (joinChunks chunks).points[k - 1]? = some (along P ux uy (-a)))
    (h3 : (joinChunks chunks).points[k]? = some P)
    (h4 : (joinChunks chunks).points[k + 1]? = some (along P wx wy b))
    (h5 : (joinChunks chunks).points[k + 2]? = some (along P wx wy d)) :
    |calculate_i_curvature (along P ux uy (-c)) (along P ux uy (-a)) P (along P wx wy b)
        (along P wx wy d)| = (a * d + b * c) / (ρ * ρ * ρ) ∧
      ∃ s cls, feed (InputSmoothing.new tol g0 g1) chunks = some s ∧
        (handed s.out)[k]? = some (k, cls) ∧
        (cls = TracePointClass.SharpEdge ↔
          2 < (a * d + b * c) / (ρ * ρ * ρ) ∧
            sign (DoubleOps.div (spec_dx (along P ux uy (-a)) (along P wx wy b))
              (spec_dy (along P ux uy (-a)) (along P wx wy b))) = 1 ∧
            sign (DoubleOps.div (spec_dx (along P ux uy (-c)) P)
              (spec_dy (along P ux uy (-c)) P)) = 1) ∧
        (cls = TracePointClass.Inflection ↔
          sign (DoubleOps.div (spec_dx (along P ux uy (-a)) (along P wx wy b))
              (spec_dy (along P ux uy (-a)) (along P wx wy b))) ≠
            sign (DoubleOps.div (spec_dx (along P ux uy (-c)) P)
              (spec_dy (along P ux uy (-c)) P))) ∧
        (cls ≠ TracePointClass.Normal → P ∈ emitted s.out) := by
  have hcur := corner_curvature_exact h P ux uy wx wy a b c d ρ hu hw hp ha hb hc hd hρ hρ2
  have hprev := before_corner_curvature_exact h P ux uy wx wy a b c e hu hw hp hb hc
  have hρpos : 0 < ρ * ρ := by
    rw [hρ2]
    have := mul_pos ha ha
    have := mul_pos hb hb
    linarith
  have hρ0 : 0 < ρ := by
    rcases eq_or_lt_of_le hρ with e0 | e0
    · rw [← e0] at hρpos
      simp at hρpos
    · exact e0
  have hM : 0 < (a * d + b * c) / (ρ * ρ * ρ) := by
    apply div_pos
    · have := mul_pos ha hd
      have := mul_pos hb hc
      linarith
    · exact mul_pos (mul_pos hρ0 hρ0) hρ0
  have hM' : 0 < b / (c * c) := div_pos hb (mul_pos hc hc)
  obtain ⟨s, hfeed, hh, hem⟩ := feed_class_at tol g0 g1 chunks k _ _ _ _ _ _ hN hk
    h0 h1 h2 h3 h4 h5
  obtain ⟨hS, hI⟩ := classOf_exact h hnan _ (along P ux uy (-c)) (along P ux uy (-a)) P
    (along P wx wy b) (along P wx wy d) _ _ _ _ hM hM' (sign_cases _) (sign_cases _)
    hprev hcur
  refine ⟨?_, s, _, hfeed, hh, hS, hI, hem⟩
  rw [hcur]
  rcases sign_cases (DoubleOps.div (spec_dx (along P ux uy (-a)) (along P wx wy b))
      (spec_dy (along P ux uy (-a)) (along P wx wy b))) with e1 | e1
  · rw [e1]
    simp only [Int.cast_one, mul_one]
    exact abs_of_pos hM
  · rw [e1]
    simp only [Int.cast_neg, Int.cast_one, mul_neg, mul_one, abs_neg]
    exact abs_of_pos hM

end CornerClass

section Concrete3

open DoubleOps InputSmoothing

/-- Witness of C14 (amended): the stroke `(-60,-80) (-30,-40) (-12/5,-16/5) (0,0)
(12/5,-9/5) (40,-30)` in two chunks, with the corner `P = (0,0)` at `k = 3`, the directions
`u = (3/5, 4/5)` and `w = (4/5, -3/5)`, the distances `e = 100`, `c = 50`, `a = 4`, `b = 3`,
`d = 50` and `ρ = 5`; the absolute value of the curvature is `350 / 125`. -/
theorem corner_class_by_spacing_and_direction_witness :
    ExactArith ℚ ∧ (∀ x : ℚ, DoubleOps.isnan x = false) ∧
    (joinChunks [chunkQ [(⟨-60, -80⟩ : Point2 ℚ), ⟨-30, -40⟩],
      chunkQ [⟨-12 / 5, -16 / 5⟩, ⟨0, 0⟩, ⟨12 / 5, -9 / 5⟩, ⟨40, -30⟩]]).samples.length <
        SIZE_MOD ∧
    3 ≤ 3 ∧ (3 / 5 : ℚ) * (3 / 5) + 4 / 5 * (4 / 5) = 1 ∧
    (4 / 5 : ℚ) * (4 / 5) + -3 / 5 * (-3 / 5) = 1 ∧
    (3 / 5 : ℚ) * (4 / 5) + 4 / 5 * (-3 / 5) = 0 ∧
    (0 : ℚ) < 4 ∧ (0 : ℚ) < 3 ∧ (0 : ℚ) < 50 ∧ (0 : ℚ) < 50 ∧ (0 : ℚ) ≤ 5 ∧
    (5 : ℚ) * 5 = 4 * 4 + 3 * 3 ∧
    (joinChunks [chunkQ [(⟨-60, -80⟩ : Point2 ℚ), ⟨-30, -40⟩],
      chunkQ [⟨-12 / 5, -16 / 5⟩, ⟨0, 0⟩, ⟨12 / 5, -9 / 5⟩, ⟨40, -30⟩]]).points[3 - 3]? =
        some (along (⟨0, 0⟩ : Point2 ℚ) (3 / 5) (4 / 5) (-100)) ∧
    (joinChunks [chunkQ [(⟨-60, -80⟩ : Point2 ℚ), ⟨-30, -40⟩],
      chunkQ [⟨-12 / 5, -16 / 5⟩, ⟨0, 0⟩, ⟨12 / 5, -9 / 5⟩, ⟨40, -30⟩]]).points[3 - 2]? =
        some (along (⟨0, 0⟩ : Point2 ℚ) (3 / 5) (4 / 5) (-50)) ∧
    (joinChunks [chunkQ [(⟨-60, -80⟩ : Point2 ℚ), ⟨-30, -40⟩],
      chunkQ [⟨-12 / 5, -16 / 5⟩, ⟨0, 0⟩, ⟨12 / 5, -9 / 5⟩, ⟨40, -30⟩]]).points[3 - 1]? =
        some (along (⟨0, 0⟩ : Point2 ℚ) (3 / 5) (4 / 5) (-4)) ∧
    (joinChunks [chunkQ [(⟨-60, -80⟩ : Point2 ℚ), ⟨-30, -40⟩],
      chunkQ [⟨-12 / 5, -16 / 5⟩, ⟨0, 0⟩, ⟨12 / 5, -9 / 5⟩, ⟨40, -30⟩]]).points[3]? =
        some (⟨0, 0⟩ : Point2 ℚ) ∧
    (joinChunks [chunkQ [(⟨-60, -80⟩ : Point2 ℚ), ⟨-30, -40⟩],
      chunkQ [⟨-12 / 5, -16 / 5⟩, ⟨0, 0⟩, ⟨12 / 5, -9 / 5⟩, ⟨40, -30⟩]]).points[3 + 1]? =
        some (along (⟨0, 0⟩ : Point2 ℚ) (4 / 5) (-3 / 5) 3) ∧
    (joinChunks [chunkQ [(⟨-60, -80⟩ : Point2 ℚ), ⟨-30, -40⟩],
      chunkQ [⟨-12 / 5, -16 / 5⟩, ⟨0, 0⟩, ⟨12 / 5, -9 / 5⟩, ⟨40, -30⟩]]).points[3 + 2]? =
        some (along (⟨0, 0⟩ : Point2 ℚ) (4 / 5) (-3 / 5) 50) ∧
    (|calculate_i_curvature (along (⟨0, 0⟩ : Point2 ℚ) (3 / 5) (4 / 5) (-50))
        (along ⟨0, 0⟩ (3 / 5) (4 / 5) (-4)) ⟨0, 0⟩ (along ⟨0, 0⟩ (4 / 5) (-3 / 5) 3)
        (along ⟨0, 0⟩ (4 / 5) (-3 / 5) 50)| = ((4 : ℚ) * 50 + 3 * 50) / (5 * 5 * 5) ∧
      ∃ s cls, feed (InputSmoothing.new (3 : ℚ) ⟨0, 0⟩ ⟨0, 0⟩)
          [chunkQ [(⟨-60, -80⟩ : Point2 ℚ), ⟨-30, -40⟩],
            chunkQ [⟨-12 / 5, -16 / 5⟩, ⟨0, 0⟩, ⟨12 / 5, -9 / 5⟩, ⟨40, -30⟩]] = some s ∧
        (handed s.out)[3]? = some (3, cls) ∧
        (cls = TracePointClass.SharpEdge ↔
          2 < ((4 : ℚ) * 50 + 3 * 50) / (5 * 5 * 5) ∧
            sign (DoubleOps.div
              (spec_dx (along (⟨0, 0⟩ : Point2 ℚ) (3 / 5) (4 / 5) (-4))
                (along ⟨0, 0⟩ (4 / 5) (-3 / 5) 3))
              (spec_dy (along (⟨0, 0⟩ : Point2 ℚ) (3 / 5) (4 / 5) (-4))
                (along ⟨0, 0⟩ (4 / 5) (-3 / 5) 3))) = 1 ∧
            sign (DoubleOps.div
              (spec_dx (along (⟨0, 0⟩ : Point2 ℚ) (3 / 5) (4 / 5) (-50)) ⟨0, 0⟩)
              (spec_dy (along (⟨0, 0⟩ : Point2 ℚ) (3 / 5) (4 / 5) (-50)) ⟨0, 0⟩)) = 1) ∧
        (cls = TracePointClass.Inflection ↔
          sign (DoubleOps.div
              (spec_dx (along (⟨0, 0⟩ : Point2 ℚ) (3 / 5) (4 / 5) (-4))
                (along ⟨0, 0⟩ (4 / 5) (-3 / 5) 3))
              (spec_dy (along (⟨0, 0⟩ : Point2 ℚ) (3 / 5) (4 / 5) (-4))
                (along ⟨0, 0⟩ (4 / 5) (-3 / 5) 3))) ≠
            sign (DoubleOps.div
              (spec_dx (along (⟨0, 0⟩ : Point2 ℚ) (3 / 5) (4 / 5) (-50)) ⟨0, 0⟩)
              (spec_dy (along (⟨0, 0⟩ : Point2 ℚ) (3 / 5) (4 / 5) (-50)) ⟨0, 0⟩))) ∧
        (cls ≠ TracePointClass.Normal → (⟨0, 0⟩ : Point2 ℚ) ∈ emitted s.out)) :=
  ⟨exactArith_rat, fun _ => rfl, by simp [joinChunks, chunkQ, SIZE_MOD], le_refl 3,
    by norm_num, by norm_num, by norm_num, by norm_num, by norm_num, by norm_num,
    by norm_num, by norm_num, by norm_num,
    by norm_num [joinChunks, chunkQ, Trace.points, along],
    by norm_num [joinChunks, chunkQ, Trace.points, along],
    by norm_num [joinChunks, chunkQ, Trace.points, along],
    by norm_num [joinChunks, chunkQ, Trace.points, along],
    by norm_num [joinChunks, chunkQ, Trace.points, along],
    by norm_num [joinChunks, chunkQ, Trace.points, along],
    corner_class_by_spacing_and_direction exactArith_rat (fun _ => rfl) 3 ⟨0, 0⟩ ⟨0, 0⟩
      [chunkQ [(⟨-60, -80⟩ : Point2 ℚ), ⟨-30, -40⟩],
        chunkQ [⟨-12 / 5, -16 / 5⟩, ⟨0, 0⟩, ⟨12 / 5, -9 / 5⟩, ⟨40, -30⟩]] 3 ⟨0, 0⟩
      (3 / 5) (4 / 5) (4 / 5) (-3 / 5) 4 3 50 50 100 5
      (by simp [joinChunks, chunkQ, SIZE_MOD]) (le_refl 3)
      (by norm_num) (by norm_num) (by norm_num) (by norm_num) (by norm_num) (by norm_num)
      (by norm_num) (by norm_num) (by norm_num)
      (by norm_num [joinChunks, chunkQ, Trace.points, along])
      (by norm_num [joinChunks, chunkQ, Trace.points, along])
      (by norm_num [joinChunks, chunkQ, Trace.points, along])
      (by norm_num [joinChunks, chunkQ, Trace.points, along])
      (by norm_num [joinChunks, chunkQ, Trace.points, along])
      (by norm_num [joinChunks, chunkQ, Trace.points, along])⟩

/-- A corner that is handed over as `SharpEdge`: on the stroke `(-300,0) (-200,0) (-100,0)
(-3,0) (0,0) (0,4) (0,75)`, with `a = 3`, `b = 4`, `c = 100`, `d = 75` and `ρ = 5`, the
curvature computed at the corner, index `4`, is `(3 * 75 + 4 * 100) / 125 = 5`, the
curvature computed at index `3` is `4 / 100^2 = 1/2500`, and the breakpoint `(0,0)` is
the last one emitted. -/
theorem corner_handed_over_as_sharp_edge :
    calculate_i_curvature (pt (-100) 0) (pt (-3) 0) (pt 0 0) (pt 0 4) (pt 0 75) =
      XNum.fin 5 1 ∧
    calculate_i_curvature (pt (-200) 0) (pt (-100) 0) (pt (-3) 0) (pt 0 0) (pt 0 4) =
      XNum.fin 1 2500 ∧
    (feed (InputSmoothing.new (XNum.fin 3 1) (pt 0 0) (pt 0 0))
        [chunk [pt (-300) 0, pt (-200) 0, pt (-100) 0, pt (-3) 0, pt 0 0, pt 0 4,
          pt 0 75]]).map (fun s => (handed s.out, emitted s.out)) =
      some ([(0, TracePointClass.SharpEdge), (1, TracePointClass.Normal),
        (2, TracePointClass.Normal), (3, TracePointClass.Inflection),
        (4, TracePointClass.SharpEdge)],
        [pt (-300) 0, pt (-200) 0, pt (-100) 0, pt (-3) 0, pt 0 0]) := by
  decide

end Concrete3

end OnlineSimplify
